import Mathlib

/-!
Shallow embedding of `asim/quadtree` (src/quadtree.go, the complete revision
that the specification follows) together with proofs settling the frozen
claims about its specification.

Modelling conventions:
* Go `float64` coordinates are modelled by exact rationals (`ℚ`); all
  comparisons in the source are order comparisons, which `ℚ` models exactly.
* Go pointer identity of `*Point` is modelled by a `pid : ℕ` field; pointer
  comparison (`ep != p`) becomes comparison of `pid`.  The opaque `data`
  payload is carried by the same field.
* The mutable tree is embedded functionally: each operation returns the
  updated tree next to its boolean result.
* `Capacity` and `MaxDepth` are process-wide mutable `int`s in Go, read at
  insertion time; they are passed explicitly (`cap`, `md`) here.
* Go's recursion through `divide`/`Insert` is not structural (a full leaf is
  replaced by a freshly divided node which is recursed into), so `Insert`,
  `divide` and their helpers take explicit fuel and return `none` when the
  fuel runs out; the fuel needed is proved to be bounded in terms of
  `MaxDepth` (claim C2).
* Euclidean distance `math.Sqrt(dx*dx+dy*dy)` is modelled by the squared
  distance `dx*dx + dy*dy`; since `sqrt` is strictly monotone on nonnegative
  reals, every comparison of distances in the source agrees with the
  comparison of squared distances, so all ordering statements are unaffected.
-/

/- Batteries marks the rational arithmetic operations `@[irreducible]`,
which blocks `decide`-style evaluation of concrete executions of the
embedded code; restore the default transparency (the kernel ignores
reducibility attributes, so this only affects elaboration). -/
set_option allowUnsafeReducibility true in
attribute [semireducible] Rat.sub Rat.add Rat.mul Rat.inv

namespace Quadtree

/-- Go struct `Point{x, y float64; data interface{}}`; `pid` models the
pointer identity of the allocated `*Point` (and stands for the payload). -/
structure Point where
  x : ℚ
  y : ℚ
  pid : ℕ
deriving DecidableEq, Repr

/-- Go struct `AABB{center, half *Point}`. -/
structure AABB where
  center : Point
  half : Point
deriving DecidableEq, Repr

/-- `func (a *AABB) ContainsPoint(p *Point) bool` (closed-box test). -/
def AABB.ContainsPoint (a : AABB) (p : Point) : Bool :=
  if p.x < a.center.x - a.half.x then false
  else if p.y < a.center.y - a.half.y then false
  else if p.x > a.center.x + a.half.x then false
  else if p.y > a.center.y + a.half.y then false
  else true

/-- `func (a *AABB) Intersect(b *AABB) bool` (separating-axis test on closed
boxes). -/
def AABB.Intersect (a b : AABB) : Bool :=
  if b.center.x + b.half.x < a.center.x - a.half.x then false
  else if b.center.y + b.half.y < a.center.y - a.half.y then false
  else if b.center.x - b.half.x > a.center.x + a.half.x then false
  else if b.center.y - b.half.y > a.center.y + a.half.y then false
  else true

/-- Go struct `QuadTree{boundary *AABB; depth int; points []*Point;
parent *QuadTree; nodes [4]*QuadTree}`.  In the source a node either has
`nodes[0] == nil` (a leaf, owning `points`) or four children and — as
established by `divide`, the only code that ever splits a node — an empty
`points` slice; the embedding realises exactly these two shapes.  The
`parent` back-reference is recovered positionally (a child is reached from
its parent), so it is not stored. -/
inductive QuadTree where
  | leaf (boundary : AABB) (depth : ℕ) (points : List Point)
  | node (boundary : AABB) (depth : ℕ) (c0 c1 c2 c3 : QuadTree)
deriving DecidableEq, Repr

namespace QuadTree

def boundary : QuadTree → AABB
  | .leaf b _ _ => b
  | .node b _ _ _ _ _ => b

def depth : QuadTree → ℕ
  | .leaf _ d _ => d
  | .node _ d _ _ _ _ => d

end QuadTree

/-- `func New(boundary *AABB, depth int, parent *QuadTree) *QuadTree`:
a fresh node is an empty leaf. -/
def New (boundary : AABB) (depth : ℕ) : QuadTree :=
  .leaf boundary depth []

/-- Child box `nodes[0]` built by `divide`: center
`(cx - hx/2, cy + hy/2)`, half `(hx/2, hy/2)`. -/
def nwBox (b : AABB) : AABB :=
  ⟨⟨b.center.x - b.half.x / 2, b.center.y + b.half.y / 2, 0⟩,
   ⟨b.half.x / 2, b.half.y / 2, 0⟩⟩

/-- Child box `nodes[1]` built by `divide`. -/
def neBox (b : AABB) : AABB :=
  ⟨⟨b.center.x + b.half.x / 2, b.center.y + b.half.y / 2, 0⟩,
   ⟨b.half.x / 2, b.half.y / 2, 0⟩⟩

/-- Child box `nodes[2]` built by `divide`. -/
def swBox (b : AABB) : AABB :=
  ⟨⟨b.center.x - b.half.x / 2, b.center.y - b.half.y / 2, 0⟩,
   ⟨b.half.x / 2, b.half.y / 2, 0⟩⟩

/-- Child box `nodes[3]` built by `divide`. -/
def seBox (b : AABB) : AABB :=
  ⟨⟨b.center.x + b.half.x / 2, b.center.y - b.half.y / 2, 0⟩,
   ⟨b.half.x / 2, b.half.y / 2, 0⟩⟩

/-- The `for _, p := range qt.points { for _, node := range qt.nodes { if
node.Insert(p) { break } } }` loop of `divide`: push each stored point into
the first child that accepts it (a point no child accepts is dropped,
exactly as in the source).  The child-dispatch function `ic` (that is,
`insertChildren` at the current fuel) is a parameter so that the mutual
block below stays structurally recursive on fuel. -/
def reinsertAll (ic : QuadTree → Point → Option (Bool × QuadTree)) :
    QuadTree → List Point → Option QuadTree
  | t, [] => some t
  | t, p :: ps =>
    match ic t p with
    | none => none
    | some (_, t') => reinsertAll ic t' ps

mutual

/-- `func (qt *QuadTree) Insert(p *Point) bool` from src/quadtree.go, with
explicit `Capacity`/`MaxDepth` and fuel.  Returns the boolean result next
to the updated tree; `none` means the fuel ran out. -/
def Insert : ℕ → ℕ → ℕ → QuadTree → Point → Option (Bool × QuadTree)
  | _, _, 0, _, _ => none
  | cp, md, fuel + 1, t, p =>
    if ¬ t.boundary.ContainsPoint p then some (false, t)
    else
      match t with
      | .leaf b d ps =>
        if ps.length < cp then some (true, .leaf b d (ps ++ [p]))
        else if d < md then
          match divide cp md fuel (.leaf b d ps) with
          | none => none
          | some t' => insertChildren cp md fuel t' p
        else some (true, .leaf b d (ps ++ [p]))
      | .node _ _ _ _ _ _ => insertChildren cp md fuel t p
termination_by structural _ _ fuel _ _ => fuel

/-- The trailing `for _, node := range qt.nodes { if node.Insert(p) ... }`
loop of `Insert`: try the four children in order, threading any mutation a
failed child insertion performed.  (On a leaf the loop would dereference
nil children in Go; that case is unreachable and returns `false` here.) -/
def insertChildren : ℕ → ℕ → ℕ → QuadTree → Point → Option (Bool × QuadTree)
  | _, _, 0, _, _ => none
  | cp, md, fuel + 1, t, p =>
    match t with
    | .leaf b d ps => some (false, .leaf b d ps)
    | .node b d c0 c1 c2 c3 =>
      match Insert cp md fuel c0 p with
      | none => none
      | some (true, c0') => some (true, .node b d c0' c1 c2 c3)
      | some (false, c0') =>
        match Insert cp md fuel c1 p with
        | none => none
        | some (true, c1') => some (true, .node b d c0' c1' c2 c3)
        | some (false, c1') =>
          match Insert cp md fuel c2 p with
          | none => none
          | some (true, c2') => some (true, .node b d c0' c1' c2' c3)
          | some (false, c2') =>
            match Insert cp md fuel c3 p with
            | none => none
            | some (true, c3') => some (true, .node b d c0' c1' c2' c3')
            | some (false, c3') => some (false, .node b d c0' c1' c2' c3')
termination_by structural _ _ fuel _ _ => fuel

/-- `func (qt *QuadTree) divide()` from src/quadtree.go: a no-op on an
already split node; on a leaf, create the four quadrant children at
`depth+1` and re-insert every held point into the first child that accepts
it, then clear the point list. -/
def divide : ℕ → ℕ → ℕ → QuadTree → Option QuadTree
  | _, _, 0, _ => none
  | cp, md, fuel + 1, t =>
    match t with
    | .node b d c0 c1 c2 c3 => some (.node b d c0 c1 c2 c3)
    | .leaf b d ps =>
      reinsertAll (insertChildren cp md fuel)
        (.node b d (New (nwBox b) (d + 1)) (New (neBox b) (d + 1))
          (New (swBox b) (d + 1)) (New (seBox b) (d + 1))) ps
termination_by structural _ _ fuel _ => fuel

end

instance : Inhabited Point := ⟨⟨0, 0, 0⟩⟩

/-- The `points` slice of a node (`nil`, i.e. empty, once a node is split —
`divide` clears it and nothing ever refills it). -/
def QuadTree.points : QuadTree → List Point
  | .leaf _ _ ps => ps
  | .node _ _ _ _ _ _ => []

/-- All points stored in the tree, in traversal order (own points, then the
four children in order). -/
def stored : QuadTree → List Point
  | .leaf _ _ ps => ps
  | .node _ _ c0 c1 c2 c3 => stored c0 ++ stored c1 ++ stored c2 ++ stored c3

/-- Number of nodes of the tree. -/
def size : QuadTree → ℕ
  | .leaf _ _ _ => 1
  | .node _ _ c0 c1 c2 c3 => 1 + (size c0 + size c1 + size c2 + size c3)

/-- The `for i, ep := range qt.points { if ep != p ... }` search shared by
`Remove` and `Update`: index of the first entry whose pointer equals `p`
(pointer equality is `pid` equality). -/
def findPidIdx (pid : ℕ) : List Point → Option ℕ
  | [] => none
  | ep :: ps =>
    if ep.pid = pid then some 0
    else (findPidIdx pid ps).map (· + 1)

/-- Go's swap-with-last removal: `points[i] = points[last];
points = points[:last]` (just `points[:last]` when `i` is the last index). -/
def swapRemove (ps : List Point) (i : ℕ) : List Point :=
  if i = ps.length - 1 then ps.dropLast
  else (ps.set i (ps.getD (ps.length - 1) default)).dropLast

/-- `func (qt *QuadTree) Remove(p *Point) bool` from src/quadtree.go. -/
def Remove : QuadTree → Point → Bool × QuadTree
  | .leaf b d ps, p =>
    if ¬ b.ContainsPoint p then (false, .leaf b d ps)
    else
      match findPidIdx p.pid ps with
      | some i => (true, .leaf b d (swapRemove ps i))
      | none => (false, .leaf b d ps)
  | .node b d c0 c1 c2 c3, p =>
    if ¬ b.ContainsPoint p then (false, .node b d c0 c1 c2 c3)
    else
      match Remove c0 p with
      | (true, c0') => (true, .node b d c0' c1 c2 c3)
      | (false, c0') =>
        match Remove c1 p with
        | (true, c1') => (true, .node b d c0' c1' c2 c3)
        | (false, c1') =>
          match Remove c2 p with
          | (true, c2') => (true, .node b d c0' c1' c2' c3)
          | (false, c2') =>
            match Remove c3 p with
            | (true, c3') => (true, .node b d c0' c1' c2' c3')
            | (false, c3') => (false, .node b d c0' c1' c2' c3')

/-- `func (qt *QuadTree) Search(a *AABB) []*Point` from src/quadtree.go. -/
def Search : QuadTree → AABB → List Point
  | .leaf b _ ps, a =>
    if ¬ b.Intersect a then []
    else ps.filter fun p => a.ContainsPoint p
  | .node b _ c0 c1 c2 c3, a =>
    if ¬ b.Intersect a then []
    else Search c0 a ++ Search c1 a ++ Search c2 a ++ Search c3 a

/-! ### Paths: node identity and parent traversal

The Go code reaches nodes both downward (`qt.nodes`) and upward
(`qt.parent`), and `knearest` keys its visited map on node identity
(`map[*QuadTree]bool`).  In the embedding a node of the fixed tree is
identified by its path from the root, the parent is the path without its
last step, and the visited map is a list of paths. -/

abbrev Path := List (Fin 4)

/-- The subtree reached by following a path of child indices. -/
def nodeAt : QuadTree → Path → Option QuadTree
  | t, [] => some t
  | .leaf _ _ _, _ :: _ => none
  | .node _ _ c0 c1 c2 c3, j :: rest =>
    nodeAt (if j = 0 then c0 else if j = 1 then c1 else if j = 2 then c2 else c3) rest

/-- Replace the subtree at a path (the tree is unchanged on an invalid path). -/
def replaceAt : QuadTree → Path → QuadTree → QuadTree
  | _, [], s => s
  | .leaf b d ps, _ :: _, _ => .leaf b d ps
  | .node b d c0 c1 c2 c3, j :: rest, s =>
    if j = 0 then .node b d (replaceAt c0 rest s) c1 c2 c3
    else if j = 1 then .node b d c0 (replaceAt c1 rest s) c2 c3
    else if j = 2 then .node b d c0 c1 (replaceAt c2 rest s) c3
    else .node b d c0 c1 c2 (replaceAt c3 rest s)

/-- Squared Euclidean distance; `func distance` computes
`math.Sqrt(dx*dx+dy*dy)`, and since `sqrt` is strictly monotone every
distance comparison made by the source coincides with the comparison of
these squares. -/
def distSq (a b : Point) : ℚ :=
  (a.x - b.x) * (a.x - b.x) + (a.y - b.y) * (a.y - b.y)

/-- The `sort.Slice(results, ...)` call of `knearest`: sort by ascending
distance to the query box's center. -/
def sortByDist (c : Point) (l : List Point) : List Point :=
  l.insertionSort fun p q => distSq p c ≤ distSq q c

/-- Go slice truncation `results[:i]` with an `int` index: panics (`none`)
on a negative index. -/
def trunc (i : ℤ) (l : List Point) : Option (List Point) :=
  if 0 ≤ i then some (l.take i.toNat) else none

/-- The optional filter: `fn == nil || fn(p)`. -/
def passesFilter (fn : Option (Point → Bool)) (p : Point) : Bool :=
  match fn with
  | none => true
  | some f => f p

/-- `func (qt *QuadTree) knearest(a *AABB, i int, v map[*QuadTree]bool,
fn filter) []*Point` from src/quadtree.go, the leaf-to-root expanding
search, at the node addressed by `path` in the fixed tree `T`.  The visited
map `v` is threaded through; `none` means fuel exhaustion or a panic of
`results[:i]` on negative `i`. -/
def knearest (T : QuadTree) (a : AABB) (i : ℤ) (fn : Option (Point → Bool)) :
    ℕ → Path → List Path → Option (List Point × List Path)
  | 0, _, _ => none
  | fuel + 1, path, v =>
    if path ∈ v then some ([], v)
    else
      match nodeAt T path with
      | none => some ([], path :: v)
      | some qt =>
        if ¬ qt.boundary.Intersect a then some ([], path :: v)
        else
          let own := qt.points.filter fun p => a.ContainsPoint p && passesFilter fn p
          match
            (match qt with
             | .leaf _ _ _ => some (([] : List Point), path :: v)
             | .node _ _ _ _ _ _ =>
               match knearest T a i fn fuel (path ++ [0]) (path :: v) with
               | none => none
               | some (r0, v0) =>
                 match knearest T a i fn fuel (path ++ [1]) v0 with
                 | none => none
                 | some (r1, v1) =>
                   match knearest T a i fn fuel (path ++ [2]) v1 with
                   | none => none
                   | some (r2, v2) =>
                     match knearest T a i fn fuel (path ++ [3]) v2 with
                     | none => none
                     | some (r3, v3) => some (r0 ++ r1 ++ r2 ++ r3, v3)) with
          | none => none
          | some (kids, vk) =>
            match
              (if path.isEmpty then some (([] : List Point), vk)
               else knearest T a i fn fuel path.dropLast vk) with
            | none => none
            | some (par, vp) =>
              let results := sortByDist a.center (own ++ kids ++ par)
              if (results.length : ℤ) > i then
                match trunc i results with
                | none => none
                | some r => some (r, vp)
              else some (results, vp)

/-- `func (qt *QuadTree) kNearestRoot(a *AABB, i int, v map[*QuadTree]bool,
fn filter) []*Point` from src/quadtree.go: descend into intersecting
children, run the expanding search at each leaf, concatenate and truncate.
`sub` is the subtree addressed by `path` in `T`. -/
def kNearestRoot (T : QuadTree) (a : AABB) (i : ℤ) (fn : Option (Point → Bool))
    (fuel : ℕ) :
    QuadTree → Path → List Path → Option (List Point × List Path)
  | .leaf b _ _, path, v =>
    if ¬ b.Intersect a then some ([], v)
    else
      match knearest T a i fn fuel path v with
      | none => none
      | some (res, v') =>
        if (res.length : ℤ) ≥ i then
          match trunc i res with
          | none => none
          | some r => some (r, v')
        else some (res, v')
  | .node b _ c0 c1 c2 c3, path, v =>
    if ¬ b.Intersect a then some ([], v)
    else
      match kNearestRoot T a i fn fuel c0 (path ++ [0]) v with
      | none => none
      | some (r0, v0) =>
        if ((r0).length : ℤ) ≥ i then
          match trunc i r0 with
          | none => none
          | some r => some (r, v0)
        else
          match kNearestRoot T a i fn fuel c1 (path ++ [1]) v0 with
          | none => none
          | some (r1, v1) =>
            if ((r0 ++ r1).length : ℤ) ≥ i then
              match trunc i (r0 ++ r1) with
              | none => none
              | some r => some (r, v1)
            else
              match kNearestRoot T a i fn fuel c2 (path ++ [2]) v1 with
              | none => none
              | some (r2, v2) =>
                if ((r0 ++ r1 ++ r2).length : ℤ) ≥ i then
                  match trunc i (r0 ++ r1 ++ r2) with
                  | none => none
                  | some r => some (r, v2)
                else
                  match kNearestRoot T a i fn fuel c3 (path ++ [3]) v2 with
                  | none => none
                  | some (r3, v3) =>
                    if ((r0 ++ r1 ++ r2 ++ r3).length : ℤ) ≥ i then
                      match trunc i (r0 ++ r1 ++ r2 ++ r3) with
                      | none => none
                      | some r => some (r, v3)
                    else some (r0 ++ r1 ++ r2 ++ r3, v3)

/-- `func (qt *QuadTree) KNearest(a *AABB, i int, fn filter) []*Point`:
fresh visited map, then `kNearestRoot` from the root.  The fuel
`size t + 1` is sufficient (`knearest` marks a new node on every call that
recurses, see the fuel-sufficiency lemma), so `none` only arises from the
`results[:i]` panic on negative `i`. -/
def KNearest (t : QuadTree) (a : AABB) (i : ℤ) (fn : Option (Point → Bool)) :
    Option (List Point) :=
  (kNearestRoot t a i fn (size t + 1) t [] []).map Prod.fst

/-- `func (qt *QuadTree) RInsert(p *Point) bool` from src/quadtree.go, on
the whole tree `T`: try `Insert` at the subtree addressed by `path`; on
failure walk to the parent and retry; at the root return `false`. -/
def rinsertAux (cp md : ℕ) : ℕ → QuadTree → Path → Point → Option (Bool × QuadTree)
  | 0, _, _, _ => none
  | fuel + 1, T, path, p =>
    match nodeAt T path with
    | none => some (false, T)
    | some sub =>
      match Insert cp md fuel sub p with
      | none => none
      | some (true, sub') => some (true, replaceAt T path sub')
      | some (false, sub') =>
        if path.isEmpty then some (false, replaceAt T path sub')
        else rinsertAux cp md fuel (replaceAt T path sub') path.dropLast p

/-- `func (qt *QuadTree) Update(p *Point, np *Point) bool` from
src/quadtree.go, operating on the node addressed by `path` of the whole
tree `T` (the whole tree is carried because a relocation via `RInsert`
climbs above the current subtree).  Because Go mutates the object `p` in
place (`p.x = np.x; p.y = np.y`), the current value of the handle `p` is
threaded through and returned: a later sibling call observes the mutated
coordinates. -/
def updateAux (cp md : ℕ) : ℕ → QuadTree → Path → Point → Point → Option (Bool × QuadTree × Point)
  | 0, _, _, _, _ => none
  | fuel + 1, T, path, p, np =>
    match nodeAt T path with
    | none => some (false, T, p)
    | some (.leaf b d ps) =>
      if ¬ b.ContainsPoint p then some (false, T, p)
      else
        match findPidIdx p.pid ps with
        | none => some (false, T, p)
        | some idx =>
          -- `p.x = np.x; p.y = np.y` mutates the stored object in place
          let p' : Point := ⟨np.x, np.y, p.pid⟩
          if b.ContainsPoint np then
            some (true, replaceAt T path (.leaf b d (ps.set idx p')), p')
          else
            match rinsertAux cp md fuel
                (replaceAt T path (.leaf b d (swapRemove ps idx))) path p' with
            | none => none
            | some (r, T') => some (r, T', p')
    | some (.node b _ _ _ _ _) =>
      if ¬ b.ContainsPoint p then some (false, T, p)
      else
        match updateAux cp md fuel T (path ++ [0]) p np with
        | none => none
        | some (true, T0, p0) => some (true, T0, p0)
        | some (false, T0, p0) =>
          match updateAux cp md fuel T0 (path ++ [1]) p0 np with
          | none => none
          | some (true, T1, p1) => some (true, T1, p1)
          | some (false, T1, p1) =>
            match updateAux cp md fuel T1 (path ++ [2]) p1 np with
            | none => none
            | some (true, T2, p2) => some (true, T2, p2)
            | some (false, T2, p2) =>
              match updateAux cp md fuel T2 (path ++ [3]) p2 np with
              | none => none
              | some (true, T3, p3) => some (true, T3, p3)
              | some (false, T3, p3) => some (false, T3, p3)

/-- `Update` called on the root; the returned pair is the boolean result
and the updated tree. -/
def Update (cp md fuel : ℕ) (t : QuadTree) (p np : Point) : Option (Bool × QuadTree) :=
  (updateAux cp md fuel t [] p np).map fun r => (r.1, r.2.1)

/-! ### Invariants

These hold for every tree built from `New` by the exported operations; the
preservation lemmas below establish that. -/

/-- Each child records a depth one greater than its parent's. -/
def depthOK : QuadTree → Bool
  | .leaf _ _ _ => true
  | .node _ d c0 c1 c2 c3 =>
    (c0.depth == d + 1) && (c1.depth == d + 1) && (c2.depth == d + 1) &&
    (c3.depth == d + 1) && depthOK c0 && depthOK c1 && depthOK c2 && depthOK c3

/-- Split nodes sit strictly below `MaxDepth` (`divide` is only reached
under `qt.depth < MaxDepth`). -/
def splitLt (md : ℕ) : QuadTree → Bool
  | .leaf _ _ _ => true
  | .node _ d c0 c1 c2 c3 =>
    decide (d < md) && splitLt md c0 && splitLt md c1 && splitLt md c2 && splitLt md c3

/-- The four children of a split node carry exactly the quadrant boxes
`divide` builds. -/
def boxOK : QuadTree → Bool
  | .leaf _ _ _ => true
  | .node b _ c0 c1 c2 c3 =>
    (c0.boundary == nwBox b) && (c1.boundary == neBox b) &&
    (c2.boundary == swBox b) && (c3.boundary == seBox b) &&
    boxOK c0 && boxOK c1 && boxOK c2 && boxOK c3

/-- Every point stored at a leaf lies inside that leaf's boundary. -/
def ptOK : QuadTree → Bool
  | .leaf b _ ps => ps.all fun p => b.ContainsPoint p
  | .node _ _ c0 c1 c2 c3 => ptOK c0 && ptOK c1 && ptOK c2 && ptOK c3

/-- The structural invariant maintained by all operations. -/
def Inv (md : ℕ) (t : QuadTree) : Bool :=
  depthOK t && splitLt md t && boxOK t && ptOK t

/-- Nonnegative half-extents (the spec leaves negative half-extents
undefined; a root built with nonnegative ones passes this down). -/
def nonneg (t : QuadTree) : Bool :=
  decide (0 ≤ t.boundary.half.x) && decide (0 ≤ t.boundary.half.y)

@[simp] theorem boundary_leaf (b d ps) : (QuadTree.leaf b d ps).boundary = b := rfl

@[simp] theorem boundary_node (b d c0 c1 c2 c3) :
    (QuadTree.node b d c0 c1 c2 c3).boundary = b := rfl

@[simp] theorem depth_leaf (b d ps) : (QuadTree.leaf b d ps).depth = d := rfl

@[simp] theorem depth_node (b d c0 c1 c2 c3) :
    (QuadTree.node b d c0 c1 c2 c3).depth = d := rfl

@[simp] theorem points_leaf (b d ps) : (QuadTree.leaf b d ps).points = ps := rfl

@[simp] theorem points_node (b d c0 c1 c2 c3) :
    (QuadTree.node b d c0 c1 c2 c3).points = [] := rfl

@[simp] theorem stored_leaf (b d ps) : stored (.leaf b d ps) = ps := rfl

@[simp] theorem stored_node (b d c0 c1 c2 c3) :
    stored (.node b d c0 c1 c2 c3) =
      stored c0 ++ stored c1 ++ stored c2 ++ stored c3 := rfl

/-! ### Geometry lemmas -/

theorem containsPoint_iff (a : AABB) (p : Point) :
    a.ContainsPoint p = true ↔
      a.center.x - a.half.x ≤ p.x ∧ p.x ≤ a.center.x + a.half.x ∧
      a.center.y - a.half.y ≤ p.y ∧ p.y ≤ a.center.y + a.half.y := by
  simp only [AABB.ContainsPoint]
  split_ifs with h1 h2 h3 h4
  · simp only [Bool.false_eq_true, false_iff]
    rintro ⟨hA, hB, hC, hD⟩; linarith
  · simp only [Bool.false_eq_true, false_iff]
    rintro ⟨hA, hB, hC, hD⟩; linarith
  · simp only [Bool.false_eq_true, false_iff]
    rintro ⟨hA, hB, hC, hD⟩; linarith
  · simp only [Bool.false_eq_true, false_iff]
    rintro ⟨hA, hB, hC, hD⟩; linarith
  · simp only [true_iff]
    push_neg at h1 h2 h3 h4
    exact ⟨h1, h3, h2, h4⟩

theorem intersect_iff (a b : AABB) :
    a.Intersect b = true ↔
      a.center.x - a.half.x ≤ b.center.x + b.half.x ∧
      b.center.x - b.half.x ≤ a.center.x + a.half.x ∧
      a.center.y - a.half.y ≤ b.center.y + b.half.y ∧
      b.center.y - b.half.y ≤ a.center.y + a.half.y := by
  simp only [AABB.Intersect]
  split_ifs with h1 h2 h3 h4
  · simp only [Bool.false_eq_true, false_iff]
    rintro ⟨hA, hB, hC, hD⟩; linarith
  · simp only [Bool.false_eq_true, false_iff]
    rintro ⟨hA, hB, hC, hD⟩; linarith
  · simp only [Bool.false_eq_true, false_iff]
    rintro ⟨hA, hB, hC, hD⟩; linarith
  · simp only [Bool.false_eq_true, false_iff]
    rintro ⟨hA, hB, hC, hD⟩; linarith
  · simp only [true_iff]
    push_neg at h1 h2 h3 h4
    exact ⟨h1, h3, h2, h4⟩

/-- Two boxes sharing a point intersect. -/
theorem intersect_of_mem_mem {n q : AABB} {p : Point}
    (hn : n.ContainsPoint p = true) (hq : q.ContainsPoint p = true) :
    n.Intersect q = true := by
  rw [containsPoint_iff] at hn hq
  rw [intersect_iff]
  obtain ⟨h1, h2, h3, h4⟩ := hn
  obtain ⟨h5, h6, h7, h8⟩ := hq
  exact ⟨by linarith, by linarith, by linarith, by linarith⟩

/-- The four quadrant boxes cover their parent: a point in the parent lies
in at least one quadrant (closed boxes; ties go to whichever is tested
first). -/
theorem quadrant_cover {b : AABB} {p : Point} (h : b.ContainsPoint p = true) :
    (nwBox b).ContainsPoint p = true ∨ (neBox b).ContainsPoint p = true ∨
    (swBox b).ContainsPoint p = true ∨ (seBox b).ContainsPoint p = true := by
  rw [containsPoint_iff] at h
  obtain ⟨h1, h2, h3, h4⟩ := h
  rcases le_total p.x b.center.x with hx | hx <;>
    rcases le_total p.y b.center.y with hy | hy
  · refine Or.inr (Or.inr (Or.inl ?_))
    rw [containsPoint_iff]
    simp only [swBox]
    exact ⟨by linarith, by linarith, by linarith, by linarith⟩
  · refine Or.inl ?_
    rw [containsPoint_iff]
    simp only [nwBox]
    exact ⟨by linarith, by linarith, by linarith, by linarith⟩
  · refine Or.inr (Or.inr (Or.inr ?_))
    rw [containsPoint_iff]
    simp only [seBox]
    exact ⟨by linarith, by linarith, by linarith, by linarith⟩
  · refine Or.inr (Or.inl ?_)
    rw [containsPoint_iff]
    simp only [neBox]
    exact ⟨by linarith, by linarith, by linarith, by linarith⟩

/-- With nonnegative half-extents, each quadrant box is included in its
parent box. -/
theorem quadrant_sub {b cb : AABB} {p : Point}
    (hq : cb = nwBox b ∨ cb = neBox b ∨ cb = swBox b ∨ cb = seBox b)
    (hx : 0 ≤ b.half.x) (hy : 0 ≤ b.half.y)
    (h : cb.ContainsPoint p = true) : b.ContainsPoint p = true := by
  rw [containsPoint_iff] at h ⊢
  rcases hq with rfl | rfl | rfl | rfl <;>
    simp only [nwBox, neBox, swBox, seBox] at h <;>
    obtain ⟨h1, h2, h3, h4⟩ := h <;>
    exact ⟨by linarith, by linarith, by linarith, by linarith⟩

/-- With nonnegative half-extents, a box intersecting a quadrant intersects
the parent. -/
theorem quadrant_intersect_mono {b cb a : AABB}
    (hq : cb = nwBox b ∨ cb = neBox b ∨ cb = swBox b ∨ cb = seBox b)
    (hx : 0 ≤ b.half.x) (hy : 0 ≤ b.half.y)
    (h : cb.Intersect a = true) : b.Intersect a = true := by
  rw [intersect_iff] at h ⊢
  rcases hq with rfl | rfl | rfl | rfl <;>
    simp only [nwBox, neBox, swBox, seBox] at h <;>
    obtain ⟨h1, h2, h3, h4⟩ := h <;>
    exact ⟨by linarith, by linarith, by linarith, by linarith⟩

/-- Quadrant boxes inherit nonnegative half-extents. -/
theorem quadrant_nonneg {b cb : AABB}
    (hq : cb = nwBox b ∨ cb = neBox b ∨ cb = swBox b ∨ cb = seBox b)
    (hx : 0 ≤ b.half.x) (hy : 0 ≤ b.half.y) :
    0 ≤ cb.half.x ∧ 0 ≤ cb.half.y := by
  rcases hq with rfl | rfl | rfl | rfl <;>
    simp only [nwBox, neBox, swBox, seBox] <;>
    exact ⟨by linarith, by linarith⟩

/-! ### Invariant unfolding -/

theorem inv_leaf_iff {md : ℕ} {b d ps} :
    Inv md (.leaf b d ps) = true ↔ ∀ p ∈ ps, b.ContainsPoint p = true := by
  simp [Inv, depthOK, splitLt, boxOK, ptOK]

theorem inv_node_iff {md : ℕ} {b d c0 c1 c2 c3} :
    Inv md (.node b d c0 c1 c2 c3) = true ↔
      d < md ∧
      c0.depth = d + 1 ∧ c1.depth = d + 1 ∧ c2.depth = d + 1 ∧ c3.depth = d + 1 ∧
      c0.boundary = nwBox b ∧ c1.boundary = neBox b ∧
      c2.boundary = swBox b ∧ c3.boundary = seBox b ∧
      Inv md c0 = true ∧ Inv md c1 = true ∧ Inv md c2 = true ∧ Inv md c3 = true := by
  simp only [Inv, depthOK, splitLt, boxOK, ptOK, Bool.and_eq_true, beq_iff_eq,
    decide_eq_true_eq]
  tauto

theorem inv_new (b : AABB) (d : ℕ) (md : ℕ) : Inv md (New b d) = true := by
  simp [New, inv_leaf_iff]

end Quadtree

namespace Quadtree

/-! ### Effect of `Insert`: invariant preservation, success iff containment,
and the stored-point multiset -/

/-- Specification of one `Insert` call (proved below for every fuel). -/
def InsP (cp md fuel : ℕ) : Prop :=
  ∀ t p r t', Inv md t = true → Insert cp md fuel t p = some (r, t') →
    Inv md t' = true ∧ t'.boundary = t.boundary ∧ t'.depth = t.depth ∧
    (t.boundary.ContainsPoint p = true → r = true) ∧
    (t.boundary.ContainsPoint p = false → r = false ∧ t' = t) ∧
    (stored t').Perm (if r then stored t ++ [p] else stored t)

/-- Specification of the child-dispatch loop of `Insert`. -/
def IcP (cp md fuel : ℕ) : Prop :=
  ∀ b d c0 c1 c2 c3 p r t', Inv md (.node b d c0 c1 c2 c3) = true →
    insertChildren cp md fuel (.node b d c0 c1 c2 c3) p = some (r, t') →
    Inv md t' = true ∧
    (∃ c0' c1' c2' c3', t' = .node b d c0' c1' c2' c3') ∧
    (b.ContainsPoint p = true → r = true) ∧
    (stored t').Perm
      (if r then stored (QuadTree.node b d c0 c1 c2 c3) ++ [p]
       else stored (QuadTree.node b d c0 c1 c2 c3))

/-- Specification of `divide` on a full leaf. -/
def DivP (cp md fuel : ℕ) : Prop :=
  ∀ b d ps t', Inv md (.leaf b d ps) = true → d < md →
    divide cp md fuel (.leaf b d ps) = some t' →
    Inv md t' = true ∧
    (∃ c0' c1' c2' c3', t' = .node b d c0' c1' c2' c3') ∧
    (stored t').Perm ps

/-- Specification of the point-redistribution loop of `divide`. -/
def ReiP (cp md fuel : ℕ) : Prop :=
  ∀ ps b d c0 c1 c2 c3 t', Inv md (.node b d c0 c1 c2 c3) = true →
    (∀ p ∈ ps, b.ContainsPoint p = true) →
    reinsertAll (insertChildren cp md fuel) (.node b d c0 c1 c2 c3) ps = some t' →
    Inv md t' = true ∧
    (∃ c0' c1' c2' c3', t' = .node b d c0' c1' c2' c3') ∧
    (stored t').Perm (stored (QuadTree.node b d c0 c1 c2 c3) ++ ps)

theorem reiP_of_icP {cp md fuel : ℕ} (hic : IcP cp md fuel) : ReiP cp md fuel := by
  intro ps
  induction ps with
  | nil =>
    intro b d c0 c1 c2 c3 t' hInv _ hEq
    simp only [reinsertAll, Option.some.injEq] at hEq
    subst hEq
    exact ⟨hInv, ⟨c0, c1, c2, c3, rfl⟩, by simp⟩
  | cons p ps IH =>
    intro b d c0 c1 c2 c3 t' hInv hmem hEq
    simp only [reinsertAll] at hEq
    cases h1 : insertChildren cp md fuel (.node b d c0 c1 c2 c3) p with
    | none => rw [h1] at hEq; exact absurd hEq (by simp)
    | some v =>
      rw [h1] at hEq
      obtain ⟨r1, t1⟩ := v
      obtain ⟨hI1, ⟨k0, k1, k2, k3, rfl⟩, hr1, hs1⟩ :=
        hic b d c0 c1 c2 c3 p r1 _ hInv h1
      have hr1t : r1 = true := hr1 (hmem p (by simp))
      subst hr1t
      obtain ⟨hI', hsh, hs'⟩ :=
        IH b d k0 k1 k2 k3 t' hI1 (fun q hq => hmem q (by simp [hq])) hEq
      refine ⟨hI', hsh, ?_⟩
      rw [← Multiset.coe_eq_coe] at hs1 hs' ⊢
      simp only [if_true] at hs1
      simp only [← Multiset.coe_add] at hs1 hs' ⊢
      simp only [stored_node] at *
      rw [hs', hs1]
      simp only [← Multiset.coe_add, Multiset.coe_singleton]
      abel

theorem insert_props (cp md : ℕ) :
    ∀ fuel, InsP cp md fuel ∧ IcP cp md fuel ∧ DivP cp md fuel := by
  intro fuel
  induction fuel with
  | zero =>
    refine ⟨?_, ?_, ?_⟩
    · intro t p r t' _ hEq; simp [Insert] at hEq
    · intro b d c0 c1 c2 c3 p r t' _ hEq; simp [insertChildren] at hEq
    · intro b d ps t' _ _ hEq; simp [divide] at hEq
  | succ fuel IH =>
    obtain ⟨ihIns, ihIc, ihDiv⟩ := IH
    have ihRei : ReiP cp md fuel := reiP_of_icP ihIc
    have hIc : IcP cp md (fuel + 1) := by
      intro b d c0 c1 c2 c3 p r t' hInv hEq
      obtain ⟨hdlt, hd0, hd1, hd2, hd3, hb0, hb1, hb2, hb3, hI0, hI1, hI2, hI3⟩ :=
        inv_node_iff.mp hInv
      simp only [insertChildren] at hEq
      cases h0 : Insert cp md fuel c0 p with
      | none => rw [h0] at hEq; exact absurd hEq (by simp)
      | some v0 =>
      rw [h0] at hEq
      obtain ⟨r0, c0'⟩ := v0
      obtain ⟨hI0', hbp0, hdp0, hcr0, _, hsp0⟩ := ihIns c0 p r0 c0' hI0 h0
      cases r0 with
      | true =>
        simp only [Option.some.injEq, Prod.mk.injEq] at hEq
        obtain ⟨rfl, rfl⟩ := hEq.symm.imp Eq.symm Eq.symm
        refine ⟨inv_node_iff.mpr ⟨hdlt, hdp0.trans hd0, hd1, hd2, hd3,
          hbp0.trans hb0, hb1, hb2, hb3, hI0', hI1, hI2, hI3⟩,
          ⟨c0', c1, c2, c3, rfl⟩, fun _ => rfl, ?_⟩
        simp only [if_true] at hsp0 ⊢
        rw [← Multiset.coe_eq_coe] at hsp0 ⊢
        simp only [stored_node, ← Multiset.coe_add] at *
        rw [hsp0]; abel
      | false =>
      cases h1 : Insert cp md fuel c1 p with
      | none => rw [h1] at hEq; exact absurd hEq (by simp)
      | some v1 =>
      rw [h1] at hEq
      obtain ⟨r1, c1'⟩ := v1
      obtain ⟨hI1', hbp1, hdp1, hcr1, _, hsp1⟩ := ihIns c1 p r1 c1' hI1 h1
      simp only [if_neg Bool.false_ne_true] at hsp0
      cases r1 with
      | true =>
        simp only [Option.some.injEq, Prod.mk.injEq] at hEq
        obtain ⟨rfl, rfl⟩ := hEq.symm.imp Eq.symm Eq.symm
        refine ⟨inv_node_iff.mpr ⟨hdlt, hdp0.trans hd0, hdp1.trans hd1, hd2, hd3,
          hbp0.trans hb0, hbp1.trans hb1, hb2, hb3, hI0', hI1', hI2, hI3⟩,
          ⟨c0', c1', c2, c3, rfl⟩, fun _ => rfl, ?_⟩
        simp only [if_true] at hsp1 ⊢
        rw [← Multiset.coe_eq_coe] at hsp0 hsp1 ⊢
        simp only [stored_node, ← Multiset.coe_add] at *
        rw [hsp0, hsp1]; abel
      | false =>
      cases h2 : Insert cp md fuel c2 p with
      | none => rw [h2] at hEq; exact absurd hEq (by simp)
      | some v2 =>
      rw [h2] at hEq
      obtain ⟨r2, c2'⟩ := v2
      obtain ⟨hI2', hbp2, hdp2, hcr2, _, hsp2⟩ := ihIns c2 p r2 c2' hI2 h2
      simp only [if_neg Bool.false_ne_true] at hsp1
      cases r2 with
      | true =>
        simp only [Option.some.injEq, Prod.mk.injEq] at hEq
        obtain ⟨rfl, rfl⟩ := hEq.symm.imp Eq.symm Eq.symm
        refine ⟨inv_node_iff.mpr ⟨hdlt, hdp0.trans hd0, hdp1.trans hd1,
          hdp2.trans hd2, hd3, hbp0.trans hb0, hbp1.trans hb1, hbp2.trans hb2,
          hb3, hI0', hI1', hI2', hI3⟩,
          ⟨c0', c1', c2', c3, rfl⟩, fun _ => rfl, ?_⟩
        simp only [if_true] at hsp2 ⊢
        rw [← Multiset.coe_eq_coe] at hsp0 hsp1 hsp2 ⊢
        simp only [stored_node, ← Multiset.coe_add] at *
        rw [hsp0, hsp1, hsp2]; abel
      | false =>
      cases h3 : Insert cp md fuel c3 p with
      | none => rw [h3] at hEq; exact absurd hEq (by simp)
      | some v3 =>
      rw [h3] at hEq
      obtain ⟨r3, c3'⟩ := v3
      obtain ⟨hI3', hbp3, hdp3, hcr3, _, hsp3⟩ := ihIns c3 p r3 c3' hI3 h3
      simp only [if_neg Bool.false_ne_true] at hsp2
      cases r3 with
      | true =>
        simp only [Option.some.injEq, Prod.mk.injEq] at hEq
        obtain ⟨rfl, rfl⟩ := hEq.symm.imp Eq.symm Eq.symm
        refine ⟨inv_node_iff.mpr ⟨hdlt, hdp0.trans hd0, hdp1.trans hd1,
          hdp2.trans hd2, hdp3.trans hd3, hbp0.trans hb0, hbp1.trans hb1,
          hbp2.trans hb2, hbp3.trans hb3, hI0', hI1', hI2', hI3'⟩,
          ⟨c0', c1', c2', c3', rfl⟩, fun _ => rfl, ?_⟩
        simp only [if_true] at hsp3 ⊢
        rw [← Multiset.coe_eq_coe] at hsp0 hsp1 hsp2 hsp3 ⊢
        simp only [stored_node, ← Multiset.coe_add] at *
        rw [hsp0, hsp1, hsp2, hsp3]; abel
      | false =>
        simp only [if_neg Bool.false_ne_true] at hsp3
        simp only [Option.some.injEq, Prod.mk.injEq] at hEq
        obtain ⟨rfl, rfl⟩ := hEq.symm.imp Eq.symm Eq.symm
        refine ⟨inv_node_iff.mpr ⟨hdlt, hdp0.trans hd0, hdp1.trans hd1,
          hdp2.trans hd2, hdp3.trans hd3, hbp0.trans hb0, hbp1.trans hb1,
          hbp2.trans hb2, hbp3.trans hb3, hI0', hI1', hI2', hI3'⟩,
          ⟨c0', c1', c2', c3', rfl⟩, ?_, ?_⟩
        · intro hc
          exfalso
          rcases quadrant_cover hc with hq | hq | hq | hq
          · exact Bool.false_ne_true (hcr0 (hb0 ▸ hq))
          · exact Bool.false_ne_true (hcr1 (hb1 ▸ hq))
          · exact Bool.false_ne_true (hcr2 (hb2 ▸ hq))
          · exact Bool.false_ne_true (hcr3 (hb3 ▸ hq))
        · simp only [if_neg Bool.false_ne_true]
          rw [← Multiset.coe_eq_coe] at hsp0 hsp1 hsp2 hsp3 ⊢
          simp only [stored_node, ← Multiset.coe_add] at *
          rw [hsp0, hsp1, hsp2, hsp3]
    have hDiv : DivP cp md (fuel + 1) := by
      intro b d ps t' hInv hd hEq
      simp only [divide] at hEq
      have hfresh : Inv md (QuadTree.node b d (New (nwBox b) (d + 1))
          (New (neBox b) (d + 1)) (New (swBox b) (d + 1)) (New (seBox b) (d + 1))) = true :=
        inv_node_iff.mpr ⟨hd, rfl, rfl, rfl, rfl, rfl, rfl, rfl, rfl,
          inv_new _ _ _, inv_new _ _ _, inv_new _ _ _, inv_new _ _ _⟩
      obtain ⟨hI', hsh, hsp⟩ :=
        ihRei ps b d _ _ _ _ t' hfresh (fun q hq => (inv_leaf_iff.mp hInv) q hq) hEq
      exact ⟨hI', hsh, by simpa [New] using hsp⟩
    have hIns : InsP cp md (fuel + 1) := by
      intro t p r t' hInv hEq
      cases t with
      | node b d c0 c1 c2 c3 =>
        simp only [Insert, boundary_node] at hEq
        by_cases hc : b.ContainsPoint p = true
        · rw [if_neg (not_not_intro hc)] at hEq
          obtain ⟨hI', hsh, hcr, hsp⟩ := ihIc b d c0 c1 c2 c3 p r t' hInv hEq
          rcases hsh with ⟨k0, k1, k2, k3, rfl⟩
          exact ⟨hI', rfl, rfl, fun _ => hcr hc,
            fun hf => absurd hf (by simp [hc]), hsp⟩
        · rw [if_pos hc] at hEq
          simp only [Option.some.injEq, Prod.mk.injEq] at hEq
          obtain ⟨rfl, rfl⟩ := hEq.symm.imp Eq.symm Eq.symm
          exact ⟨hInv, rfl, rfl, fun h => absurd h hc,
            fun _ => ⟨rfl, rfl⟩, by simp⟩
      | leaf b d ps =>
        simp only [Insert, boundary_leaf] at hEq
        by_cases hc : b.ContainsPoint p = true
        · rw [if_neg (not_not_intro hc)] at hEq
          by_cases hlen : ps.length < cp
          · rw [if_pos hlen] at hEq
            simp only [Option.some.injEq, Prod.mk.injEq] at hEq
            obtain ⟨rfl, rfl⟩ := hEq.symm.imp Eq.symm Eq.symm
            refine ⟨inv_leaf_iff.mpr ?_, rfl, rfl, fun _ => rfl,
              fun hf => absurd hf (by simp [hc]), by simp⟩
            intro q hq
            rcases List.mem_append.mp hq with hq | hq
            · exact (inv_leaf_iff.mp hInv) q hq
            · simpa using List.mem_singleton.mp hq ▸ hc
          · rw [if_neg hlen] at hEq
            by_cases hd : d < md
            · rw [if_pos hd] at hEq
              cases hdiv : divide cp md fuel (.leaf b d ps) with
              | none => rw [hdiv] at hEq; exact absurd hEq (by simp)
              | some t1 =>
                rw [hdiv] at hEq
                obtain ⟨hI1, ⟨k0, k1, k2, k3, rfl⟩, hs1⟩ := ihDiv b d ps t1 hInv hd hdiv
                obtain ⟨hI', hsh, hcr, hsp⟩ := ihIc b d k0 k1 k2 k3 p r t' hI1 hEq
                have hr : r = true := hcr hc
                subst hr
                rcases hsh with ⟨m0, m1, m2, m3, rfl⟩
                refine ⟨hI', rfl, rfl, fun _ => rfl,
                  fun hf => absurd hf (by simp [hc]), ?_⟩
                simp only [if_true] at hsp ⊢
                exact hsp.trans (hs1.append_right [p])
            · rw [if_neg hd] at hEq
              simp only [Option.some.injEq, Prod.mk.injEq] at hEq
              obtain ⟨rfl, rfl⟩ := hEq.symm.imp Eq.symm Eq.symm
              refine ⟨inv_leaf_iff.mpr ?_, rfl, rfl, fun _ => rfl,
                fun hf => absurd hf (by simp [hc]), by simp⟩
              intro q hq
              rcases List.mem_append.mp hq with hq | hq
              · exact (inv_leaf_iff.mp hInv) q hq
              · simpa using List.mem_singleton.mp hq ▸ hc
        · rw [if_pos hc] at hEq
          simp only [Option.some.injEq, Prod.mk.injEq] at hEq
          obtain ⟨rfl, rfl⟩ := hEq.symm.imp Eq.symm Eq.symm
          exact ⟨hInv, rfl, rfl, fun h => absurd h hc,
            fun _ => ⟨rfl, rfl⟩, by simp⟩
    exact ⟨hIns, hIc, hDiv⟩

end Quadtree

namespace Quadtree

/-! ### Fuel sufficiency: the recursion of `Insert` is bounded in terms of
`MaxDepth` (claim C2).  `k` counts the levels still available below the
current node before the `MaxDepth` ceiling. -/

def SufIns (cp md k : ℕ) : Prop :=
  ∀ t p fuel, Inv md t = true → md ≤ t.depth + k → 3 * k + 3 ≤ fuel →
    (Insert cp md fuel t p).isSome = true

def SufIc (cp md k : ℕ) : Prop :=
  ∀ b d c0 c1 c2 c3 p fuel, Inv md (.node b d c0 c1 c2 c3) = true →
    md ≤ d + 1 + k → 3 * k + 4 ≤ fuel →
    (insertChildren cp md fuel (.node b d c0 c1 c2 c3) p).isSome = true

def SufRei (cp md k : ℕ) : Prop :=
  ∀ ps b d c0 c1 c2 c3 fuel, Inv md (.node b d c0 c1 c2 c3) = true →
    md ≤ d + 1 + k → 3 * k + 4 ≤ fuel →
    (reinsertAll (insertChildren cp md fuel) (.node b d c0 c1 c2 c3) ps).isSome = true

def SufDiv (cp md k : ℕ) : Prop :=
  ∀ b d ps fuel, Inv md (.leaf b d ps) = true → d < md → md ≤ d + 1 + k →
    3 * k + 5 ≤ fuel →
    (divide cp md fuel (.leaf b d ps)).isSome = true

theorem sufIc_of_sufIns {cp md k : ℕ} (hIns : SufIns cp md k) : SufIc cp md k := by
  intro b d c0 c1 c2 c3 p fuel hInv hk hf
  obtain ⟨hdlt, hd0, hd1, hd2, hd3, _, _, _, _, hI0, hI1, hI2, hI3⟩ :=
    inv_node_iff.mp hInv
  obtain ⟨fuel, rfl⟩ : ∃ f, fuel = f + 1 := ⟨fuel - 1, by omega⟩
  simp only [insertChildren]
  obtain ⟨⟨r0, c0'⟩, h0⟩ := Option.isSome_iff_exists.mp
    (hIns c0 p fuel hI0 (by omega) (by omega))
  rw [h0]
  cases r0 with
  | true => simp
  | false =>
    obtain ⟨⟨r1, c1'⟩, h1⟩ := Option.isSome_iff_exists.mp
      (hIns c1 p fuel hI1 (by omega) (by omega))
    rw [h1]
    cases r1 with
    | true => simp
    | false =>
      obtain ⟨⟨r2, c2'⟩, h2⟩ := Option.isSome_iff_exists.mp
        (hIns c2 p fuel hI2 (by omega) (by omega))
      rw [h2]
      cases r2 with
      | true => simp
      | false =>
        obtain ⟨⟨r3, c3'⟩, h3⟩ := Option.isSome_iff_exists.mp
          (hIns c3 p fuel hI3 (by omega) (by omega))
        rw [h3]
        cases r3 <;> simp

theorem sufRei_of_sufIc {cp md k : ℕ} (hIc : SufIc cp md k) : SufRei cp md k := by
  intro ps
  induction ps with
  | nil => intro b d c0 c1 c2 c3 fuel _ _ _; simp [reinsertAll]
  | cons p ps IH =>
    intro b d c0 c1 c2 c3 fuel hInv hk hf
    simp only [reinsertAll]
    obtain ⟨⟨r1, t1⟩, h1⟩ := Option.isSome_iff_exists.mp
      (hIc b d c0 c1 c2 c3 p fuel hInv hk hf)
    rw [h1]
    obtain ⟨hI1, ⟨k0, k1, k2, k3, rfl⟩, -, -⟩ :=
      (insert_props cp md fuel).2.1 b d c0 c1 c2 c3 p r1 t1 hInv h1
    exact IH b d k0 k1 k2 k3 fuel hI1 hk hf

theorem sufDiv_of_sufRei {cp md k : ℕ} (hRei : SufRei cp md k) : SufDiv cp md k := by
  intro b d ps fuel hInv hd hk hf
  obtain ⟨fuel, rfl⟩ : ∃ f, fuel = f + 1 := ⟨fuel - 1, by omega⟩
  simp only [divide]
  have hfresh : Inv md (QuadTree.node b d (New (nwBox b) (d + 1))
      (New (neBox b) (d + 1)) (New (swBox b) (d + 1)) (New (seBox b) (d + 1))) = true :=
    inv_node_iff.mpr ⟨hd, rfl, rfl, rfl, rfl, rfl, rfl, rfl, rfl,
      inv_new _ _ _, inv_new _ _ _, inv_new _ _ _, inv_new _ _ _⟩
  exact hRei ps b d _ _ _ _ fuel hfresh hk (by omega)

theorem insert_fuel (cp md : ℕ) : ∀ k, SufIns cp md k := by
  intro k
  induction k with
  | zero =>
    intro t p fuel hInv hk hf
    obtain ⟨fuel, rfl⟩ : ∃ f, fuel = f + 1 := ⟨fuel - 1, by omega⟩
    cases t with
    | node b d c0 c1 c2 c3 =>
      have hdlt := (inv_node_iff.mp hInv).1
      simp only [depth_node] at hk
      omega
    | leaf b d ps =>
      simp only [depth_leaf] at hk
      simp only [Insert, boundary_leaf]
      by_cases hc : b.ContainsPoint p = true
      · rw [if_neg (not_not_intro hc)]
        by_cases hlen : ps.length < cp
        · rw [if_pos hlen]; simp
        · rw [if_neg hlen, if_neg (by omega : ¬ d < md)]; simp
      · rw [if_pos hc]; simp
  | succ k IH =>
    intro t p fuel hInv hk hf
    obtain ⟨fuel, rfl⟩ : ∃ f, fuel = f + 1 := ⟨fuel - 1, by omega⟩
    cases t with
    | node b d c0 c1 c2 c3 =>
      simp only [depth_node] at hk
      simp only [Insert, boundary_node]
      by_cases hc : b.ContainsPoint p = true
      · rw [if_neg (not_not_intro hc)]
        exact sufIc_of_sufIns IH b d c0 c1 c2 c3 p fuel hInv (by omega) (by omega)
      · rw [if_pos hc]; simp
    | leaf b d ps =>
      simp only [depth_leaf] at hk
      simp only [Insert, boundary_leaf]
      by_cases hc : b.ContainsPoint p = true
      · rw [if_neg (not_not_intro hc)]
        by_cases hlen : ps.length < cp
        · rw [if_pos hlen]; simp
        · rw [if_neg hlen]
          by_cases hd : d < md
          · rw [if_pos hd]
            obtain ⟨t1, hdiv⟩ := Option.isSome_iff_exists.mp
              (sufDiv_of_sufRei (sufRei_of_sufIc (sufIc_of_sufIns IH))
                b d ps fuel hInv hd (by omega) (by omega))
            rw [hdiv]
            obtain ⟨hI1, ⟨k0, k1, k2, k3, rfl⟩, -⟩ :=
              (insert_props cp md fuel).2.2 b d ps _ hInv hd hdiv
            exact sufIc_of_sufIns IH b d k0 k1 k2 k3 p fuel hI1 (by omega) (by omega)
          · rw [if_neg hd]; simp
      · rw [if_pos hc]; simp

end Quadtree

namespace Quadtree

theorem inv_depthOK {md : ℕ} {t : QuadTree} (h : Inv md t = true) : depthOK t = true := by
  simp only [Inv, Bool.and_eq_true] at h
  exact h.1.1.1

theorem depthOK_node_iff {b d c0 c1 c2 c3} :
    depthOK (.node b d c0 c1 c2 c3) = true ↔
      c0.depth = d + 1 ∧ c1.depth = d + 1 ∧ c2.depth = d + 1 ∧ c3.depth = d + 1 ∧
      depthOK c0 = true ∧ depthOK c1 = true ∧ depthOK c2 = true ∧ depthOK c3 = true := by
  simp only [depthOK, Bool.and_eq_true, beq_iff_eq]
  tauto

/-- In a tree whose depth labels are consistent, the node at distance
`path.length` from the root records depth `t.depth + path.length`. -/
theorem depth_nodeAt : ∀ (path : Path) (t : QuadTree), depthOK t = true →
    ∀ sub, nodeAt t path = some sub → sub.depth = t.depth + path.length := by
  intro path
  induction path with
  | nil =>
    intro t _ sub h'
    simp only [nodeAt, Option.some.injEq] at h'
    subst h'
    simp
  | cons j rest IH =>
    intro t ht sub h'
    cases t with
    | leaf b d ps => simp [nodeAt] at h'
    | node b d c0 c1 c2 c3 =>
      simp only [nodeAt] at h'
      obtain ⟨hd0, hd1, hd2, hd3, hk0, hk1, hk2, hk3⟩ := depthOK_node_iff.mp ht
      split_ifs at h' with h0 h1 h2
      · have := IH c0 hk0 sub h'
        simp only [depth_node, List.length_cons]
        omega
      · have := IH c1 hk1 sub h'
        simp only [depth_node, List.length_cons]
        omega
      · have := IH c2 hk2 sub h'
        simp only [depth_node, List.length_cons]
        omega
      · have := IH c3 hk3 sub h'
        simp only [depth_node, List.length_cons]
        omega

/-- A sequence of `Insert` calls starting from a tree (Go mutates the
receiver; a call that runs out of fuel leaves the tree unchanged). -/
def insertMany (cp md fuel : ℕ) : QuadTree → List Point → QuadTree
  | t, [] => t
  | t, p :: ps =>
    insertMany cp md fuel
      (match Insert cp md fuel t p with
       | some (_, t') => t'
       | none => t) ps

theorem insertMany_inv {cp md fuel : ℕ} :
    ∀ (ps : List Point) (t : QuadTree), Inv md t = true →
      Inv md (insertMany cp md fuel t ps) = true ∧
      (insertMany cp md fuel t ps).depth = t.depth := by
  intro ps
  induction ps with
  | nil => intro t h; exact ⟨h, rfl⟩
  | cons p ps IH =>
    intro t h
    simp only [insertMany]
    cases hstep : Insert cp md fuel t p with
    | none => exact IH t h
    | some v =>
      obtain ⟨r, t'⟩ := v
      obtain ⟨hI', -, hdep, -, -, -⟩ := (insert_props cp md fuel).1 t p r t' h hstep
      obtain ⟨h1, h2⟩ := IH t' hI'
      exact ⟨h1, h2.trans hdep⟩

/-- C1: every child created by subdivision records its parent's depth plus
one and the root records depth 0: after any sequence of `Insert` calls on a
root constructed at depth 0, the node at distance `d` from the root (along
any child path) has depth exactly `d`. -/
theorem insert_preserves_depth_labels (cp md fuel : ℕ) (b : AABB)
    (ps : List Point) (path : Path) (sub : QuadTree)
    (h : nodeAt (insertMany cp md fuel (New b 0) ps) path = some sub) :
    sub.depth = path.length := by
  obtain ⟨hI, hd⟩ := @insertMany_inv cp md fuel ps (New b 0) (inv_new b 0 md)
  have := depth_nodeAt path _ (inv_depthOK hI) sub h
  rw [hd] at this
  simpa [New] using this

theorem insert_preserves_depth_labels_witness :
    nodeAt (insertMany 1 2 9 (New ⟨⟨0,0,0⟩,⟨4,4,0⟩⟩ 0) [⟨1,1,1⟩, ⟨-1,-1,2⟩]) [0] =
      some (.leaf ⟨⟨-2,2,0⟩,⟨2,2,0⟩⟩ 1 []) ∧
    (QuadTree.leaf (⟨⟨-2,2,0⟩,⟨2,2,0⟩⟩ : AABB) 1 []).depth = 1 :=
  ⟨by decide, insert_preserves_depth_labels 1 2 9 ⟨⟨0,0,0⟩,⟨4,4,0⟩⟩
    [⟨1,1,1⟩, ⟨-1,-1,2⟩] [0] (.leaf ⟨⟨-2,2,0⟩,⟨2,2,0⟩⟩ 1 []) (by decide)⟩

/-- C2: `Insert` on a root constructed at depth 0 terminates for every
input, pathological ones included: a fuel budget (bounding the depth of the
mutual recursion through `Insert`, `divide` and the child-dispatch loops)
of `3 * MaxDepth + 3` always suffices, whatever points the tree holds. -/
theorem insert_terminates_with_bounded_fuel (cp md fuel : ℕ) (t : QuadTree)
    (p : Point) (hInv : Inv md t = true) (hroot : t.depth = 0)
    (hfuel : 3 * md + 3 ≤ fuel) :
    (Insert cp md fuel t p).isSome = true :=
  insert_fuel cp md md t p fuel hInv (by omega) hfuel

theorem insert_terminates_with_bounded_fuel_witness :
    Inv 6 (New ⟨⟨0,0,0⟩,⟨4,4,0⟩⟩ 0) = true ∧
    (Insert 8 6 21 (New ⟨⟨0,0,0⟩,⟨4,4,0⟩⟩ 0) ⟨1,1,1⟩).isSome = true :=
  ⟨by decide,
    insert_terminates_with_bounded_fuel 8 6 21 _ _ (by decide) rfl (by decide)⟩

/-- C3: `Insert` returns `false` exactly when the point lies outside the
node's boundary, and `true` whenever it lies inside (in a split node some
child always claims an inside point, the quadrants covering the parent
box). -/
theorem insert_succeeds_iff_inside_boundary (cp md fuel : ℕ)
    {t : QuadTree} {p : Point} {r : Bool} {t' : QuadTree}
    (hInv : Inv md t = true) (h : Insert cp md fuel t p = some (r, t')) :
    r = true ↔ t.boundary.ContainsPoint p = true := by
  obtain ⟨-, -, -, h4, h5, -⟩ := (insert_props cp md fuel).1 t p r t' hInv h
  constructor
  · intro hr
    by_contra hc
    exact absurd hr (by simp [(h5 (Bool.eq_false_iff.mpr hc)).1])
  · exact h4

theorem insert_succeeds_iff_inside_boundary_witness :
    Inv 2 (New ⟨⟨0,0,0⟩,⟨4,4,0⟩⟩ 0) = true ∧
    Insert 1 2 9 (New ⟨⟨0,0,0⟩,⟨4,4,0⟩⟩ 0) ⟨1,1,1⟩ =
      some (true, .leaf ⟨⟨0,0,0⟩,⟨4,4,0⟩⟩ 0 [⟨1,1,1⟩]) ∧
    (true = true ↔
      (QuadTree.leaf (⟨⟨0,0,0⟩,⟨4,4,0⟩⟩ : AABB) 0 []).boundary.ContainsPoint ⟨1,1,1⟩ = true) :=
  ⟨by decide, by decide,
    @insert_succeeds_iff_inside_boundary 1 2 9 (New ⟨⟨0,0,0⟩,⟨4,4,0⟩⟩ 0) ⟨1,1,1⟩
      true (.leaf ⟨⟨0,0,0⟩,⟨4,4,0⟩⟩ 0 [⟨1,1,1⟩]) (by decide) (by decide)⟩

/-- C6: a leaf already holding `Capacity` (or more) points whose depth
equals `MaxDepth` absorbs a further inside point by appending, without
subdividing; it then holds more than `Capacity` points. -/
theorem insert_at_max_depth_appends_beyond_capacity (cp md fuel : ℕ)
    (b : AABB) (ps : List Point) (p : Point)
    (hc : b.ContainsPoint p = true) (hfull : cp ≤ ps.length)
    (hfuel : 1 ≤ fuel) :
    Insert cp md fuel (.leaf b md ps) p = some (true, .leaf b md (ps ++ [p])) ∧
      cp < (ps ++ [p]).length := by
  obtain ⟨fuel, rfl⟩ : ∃ f, fuel = f + 1 := ⟨fuel - 1, by omega⟩
  refine ⟨?_, by simp; omega⟩
  simp only [Insert, boundary_leaf]
  rw [if_neg (not_not_intro hc), if_neg (by omega), if_neg (lt_irrefl md)]

theorem insert_at_max_depth_appends_beyond_capacity_witness :
    (⟨⟨0,0,0⟩,⟨4,4,0⟩⟩ : AABB).ContainsPoint ⟨1,1,3⟩ = true ∧
    Insert 2 6 1 (.leaf ⟨⟨0,0,0⟩,⟨4,4,0⟩⟩ 6 [⟨1,1,1⟩, ⟨1,1,2⟩]) ⟨1,1,3⟩ =
      some (true, .leaf ⟨⟨0,0,0⟩,⟨4,4,0⟩⟩ 6 [⟨1,1,1⟩, ⟨1,1,2⟩, ⟨1,1,3⟩]) ∧
    2 < ([⟨1,1,1⟩, ⟨1,1,2⟩, ⟨1,1,3⟩] : List Point).length :=
  ⟨by decide,
    (insert_at_max_depth_appends_beyond_capacity 2 6 1 _ _ _ (by decide) (by decide) (by decide)).1,
    (insert_at_max_depth_appends_beyond_capacity 2 6 1 ⟨⟨0,0,0⟩,⟨4,4,0⟩⟩ [⟨1,1,1⟩, ⟨1,1,2⟩] ⟨1,1,3⟩ (by decide) (by decide) (by decide)).2⟩

end Quadtree

namespace Quadtree

/-! ### Effect of `Remove` and characterization of `Search` -/

theorem inv_parts {md : ℕ} {t : QuadTree} (h : Inv md t = true) :
    depthOK t = true ∧ splitLt md t = true ∧ boxOK t = true ∧ ptOK t = true := by
  simpa [Inv, Bool.and_eq_true, and_assoc] using h

theorem nonneg_iff {t : QuadTree} :
    nonneg t = true ↔ 0 ≤ t.boundary.half.x ∧ 0 ≤ t.boundary.half.y := by
  simp [nonneg]

/-- Children of an invariant node inherit nonnegative half-extents. -/
theorem nonneg_children {md : ℕ} {b d c0 c1 c2 c3}
    (hInv : Inv md (.node b d c0 c1 c2 c3) = true)
    (hnn : nonneg (.node b d c0 c1 c2 c3) = true) :
    nonneg c0 = true ∧ nonneg c1 = true ∧ nonneg c2 = true ∧ nonneg c3 = true := by
  obtain ⟨-, -, -, -, -, hb0, hb1, hb2, hb3, -, -, -, -⟩ := inv_node_iff.mp hInv
  rw [nonneg_iff] at hnn
  simp only [boundary_node] at hnn
  refine ⟨?_, ?_, ?_, ?_⟩ <;> rw [nonneg_iff]
  · rw [hb0]; exact quadrant_nonneg (Or.inl rfl) hnn.1 hnn.2
  · rw [hb1]; exact quadrant_nonneg (Or.inr (Or.inl rfl)) hnn.1 hnn.2
  · rw [hb2]; exact quadrant_nonneg (Or.inr (Or.inr (Or.inl rfl))) hnn.1 hnn.2
  · rw [hb3]; exact quadrant_nonneg (Or.inr (Or.inr (Or.inr rfl))) hnn.1 hnn.2

/-- Every stored point lies inside the boundary of every ancestor, down
from the node's own boundary (uses the quadrant-box invariant and
nonnegative half-extents). -/
theorem stored_contains {md : ℕ} :
    ∀ t : QuadTree, Inv md t = true → nonneg t = true →
      ∀ q ∈ stored t, t.boundary.ContainsPoint q = true := by
  intro t
  induction t with
  | leaf b d ps =>
    intro hInv _ q hq
    exact (inv_leaf_iff.mp hInv) q hq
  | node b d c0 c1 c2 c3 ih0 ih1 ih2 ih3 =>
    intro hInv hnn q hq
    obtain ⟨-, -, -, -, -, hb0, hb1, hb2, hb3, hI0, hI1, hI2, hI3⟩ := inv_node_iff.mp hInv
    obtain ⟨hn0, hn1, hn2, hn3⟩ := nonneg_children hInv hnn
    have hnn' := nonneg_iff.mp hnn
    simp only [boundary_node] at hnn' ⊢
    simp only [stored_node, List.append_assoc, List.mem_append] at hq
    rcases hq with hq | hq | hq | hq
    · exact quadrant_sub (Or.inl rfl) hnn'.1 hnn'.2 (hb0 ▸ ih0 hI0 hn0 q hq)
    · exact quadrant_sub (Or.inr (Or.inl rfl)) hnn'.1 hnn'.2 (hb1 ▸ ih1 hI1 hn1 q hq)
    · exact quadrant_sub (Or.inr (Or.inr (Or.inl rfl))) hnn'.1 hnn'.2 (hb2 ▸ ih2 hI2 hn2 q hq)
    · exact quadrant_sub (Or.inr (Or.inr (Or.inr rfl))) hnn'.1 hnn'.2 (hb3 ▸ ih3 hI3 hn3 q hq)

theorem findPidIdx_none {pid : ℕ} :
    ∀ {ps : List Point}, findPidIdx pid ps = none ↔ ∀ q ∈ ps, q.pid ≠ pid := by
  intro ps
  induction ps with
  | nil => simp [findPidIdx]
  | cons q qs ih =>
    by_cases hq : q.pid = pid
    · simp [findPidIdx, hq]
    · simp only [findPidIdx, if_neg hq, Option.map_eq_none', ih, List.mem_cons]
      constructor
      · rintro h r (rfl | hr)
        · exact hq
        · exact h r hr
      · intro h r hr
        exact h r (Or.inr hr)

theorem findPidIdx_some {pid : ℕ} :
    ∀ {ps : List Point} {i : ℕ}, findPidIdx pid ps = some i →
      i < ps.length ∧ (ps.getD i default).pid = pid := by
  intro ps
  induction ps with
  | nil => intro i h; simp [findPidIdx] at h
  | cons q qs ih =>
    intro i h
    simp only [findPidIdx] at h
    by_cases hq : q.pid = pid
    · rw [if_pos hq] at h
      obtain rfl : (0 : ℕ) = i := Option.some.injEq _ _ ▸ h
      simpa using hq
    · rw [if_neg hq] at h
      rcases Option.map_eq_some'.mp h with ⟨j, hj, rfl⟩
      obtain ⟨h1, h2⟩ := ih hj
      constructor
      · simpa using h1
      · simpa using h2

/-- Multiset effect of `List.set` at a valid index. -/
theorem coe_set_multiset (x : Point) :
    ∀ (ps : List Point) (i : ℕ), i < ps.length →
      (↑(ps.set i x) : Multiset Point) + {ps.getD i default} = ↑ps + {x} := by
  intro ps
  induction ps with
  | nil => intro i h; simp at h
  | cons q qs ih =>
    intro i h
    cases i with
    | zero =>
      simp only [List.set, List.getD, List.getElem?_cons_zero, Option.getD_some]
      simp only [← Multiset.cons_coe, ← Multiset.singleton_add]
      abel
    | succ i =>
      simp only [List.set, List.getD_cons_succ]
      have hih := ih i (by simpa using h)
      simp only [← Multiset.cons_coe, ← Multiset.singleton_add] at hih ⊢
      rw [add_assoc, hih, ← add_assoc]

/-- Multiset effect of Go's swap-with-last removal: the element at the
found index disappears, everything else stays. -/
theorem swapRemove_perm {ps : List Point} {i : ℕ} (h : i < ps.length) :
    (↑(swapRemove ps i) : Multiset Point) + {ps.getD i default} = ↑ps := by
  have hne : ps ≠ [] := List.ne_nil_of_length_pos (by omega)
  by_cases hlast : i = ps.length - 1
  · subst hlast
    rw [swapRemove, if_pos rfl]
    have hgd : ps.getD (ps.length - 1) default = ps.getLast hne := by
      rw [List.getD_eq_getElem?_getD, List.getElem?_eq_getElem (by omega), Option.getD_some,
        List.getLast_eq_getElem]
    rw [hgd]
    have hd := List.dropLast_append_getLast hne
    calc (↑ps.dropLast : Multiset Point) + {ps.getLast hne}
        = ↑(ps.dropLast ++ [ps.getLast hne]) := by
          rw [← Multiset.coe_add]; simp
      _ = ↑ps := by rw [hd]
  · rw [swapRemove, if_neg hlast]
    set x := ps.getD (ps.length - 1) default with hx
    have hset_ne : ps.set i x ≠ [] := by
      intro hc
      have hlp := congrArg List.length hc
      rw [List.length_set] at hlp
      simp only [List.length_nil] at hlp
      omega
    have hx' : x = ps.get ⟨ps.length - 1, by omega⟩ := by
      rw [hx, List.getD_eq_getElem?_getD, List.getElem?_eq_getElem (by omega), Option.getD_some]
      rfl
    have hgl : (ps.set i x).getLast hset_ne = x := by
      rw [List.getLast_eq_getElem]
      simp only [List.length_set]
      rw [List.getElem_set_ne (by omega)]
      exact hx'.symm
    have hd := List.dropLast_append_getLast hset_ne
    rw [hgl] at hd
    have hcoe : (↑((ps.set i x).dropLast) : Multiset Point) + {x} = ↑(ps.set i x) := by
      rw [← hd, ← Multiset.coe_add]; simp
    have hset := coe_set_multiset x ps i h
    have hcomb : (↑((ps.set i x).dropLast) : Multiset Point) + {ps.getD i default} + {x}
        = ↑ps + {x} := by
      rw [show (↑((ps.set i x).dropLast) : Multiset Point) + {ps.getD i default} + {x}
        = ↑((ps.set i x).dropLast) + {x} + {ps.getD i default} from by abel, hcoe, hset]
    exact add_right_cancel hcomb

end Quadtree

namespace Quadtree

/-- Effect of `Remove`: the invariant is preserved; a `false` result leaves
the tree untouched; a `true` result removes exactly one point carrying the
argument's identity. -/
theorem remove_spec {md : ℕ} :
    ∀ (t : QuadTree) (p : Point) (r : Bool) (t' : QuadTree),
      Inv md t = true → Remove t p = (r, t') →
      Inv md t' = true ∧ t'.boundary = t.boundary ∧ t'.depth = t.depth ∧
      (r = false → t' = t) ∧
      (r = true → ∃ q : Point, q.pid = p.pid ∧
        (↑(stored t') : Multiset Point) + {q} = ↑(stored t)) := by
  intro t
  induction t with
  | leaf b d ps =>
    intro p r t' hInv hEq
    simp only [Remove] at hEq
    by_cases hc : b.ContainsPoint p = true
    · rw [if_neg (not_not_intro hc)] at hEq
      cases hidx : findPidIdx p.pid ps with
      | none =>
        rw [hidx] at hEq
        simp only [Prod.mk.injEq] at hEq
        obtain ⟨rfl, rfl⟩ := hEq.symm.imp Eq.symm Eq.symm
        exact ⟨hInv, rfl, rfl, fun _ => rfl, (by simp)⟩
      | some i =>
        rw [hidx] at hEq
        simp only [Prod.mk.injEq] at hEq
        obtain ⟨rfl, rfl⟩ := hEq.symm.imp Eq.symm Eq.symm
        obtain ⟨hilt, hpid⟩ := findPidIdx_some hidx
        have hperm := @swapRemove_perm ps i hilt
        refine ⟨?_, rfl, rfl, (by simp), fun _ => ⟨ps.getD i default, hpid, by simpa using hperm⟩⟩
        rw [inv_leaf_iff]
        intro q hq
        have hq' : q ∈ ps := by
          have : q ∈ (↑(stored (QuadTree.leaf b d (swapRemove ps i))) : Multiset Point) := by
            simpa using hq
          have hm : q ∈ (↑ps : Multiset Point) := by
            rw [← hperm]
            simp only [stored_leaf] at this
            exact Multiset.mem_add.mpr (Or.inl this)
          simpa using hm
        exact (inv_leaf_iff.mp hInv) q hq'
    · rw [if_pos hc] at hEq
      simp only [Prod.mk.injEq] at hEq
      obtain ⟨rfl, rfl⟩ := hEq.symm.imp Eq.symm Eq.symm
      exact ⟨hInv, rfl, rfl, fun _ => rfl, (by simp)⟩
  | node b d c0 c1 c2 c3 ih0 ih1 ih2 ih3 =>
    intro p r t' hInv hEq
    obtain ⟨hdlt, hd0, hd1, hd2, hd3, hb0, hb1, hb2, hb3, hI0, hI1, hI2, hI3⟩ :=
      inv_node_iff.mp hInv
    simp only [Remove] at hEq
    by_cases hc : b.ContainsPoint p = true
    · rw [if_neg (not_not_intro hc)] at hEq
      rcases hR0 : Remove c0 p with ⟨r0, c0'⟩
      rw [hR0] at hEq
      obtain ⟨hI0', hbp0, hdp0, hf0, ht0⟩ := ih0 p r0 c0' hI0 hR0
      cases r0 with
      | true =>
        simp only [Prod.mk.injEq] at hEq
        obtain ⟨rfl, rfl⟩ := hEq.symm.imp Eq.symm Eq.symm
        obtain ⟨q, hqp, hqm⟩ := ht0 rfl
        refine ⟨inv_node_iff.mpr ⟨hdlt, hdp0.trans hd0, hd1, hd2, hd3,
          hbp0.trans hb0, hb1, hb2, hb3, hI0', hI1, hI2, hI3⟩, rfl, rfl,
          (by simp), fun _ => ⟨q, hqp, ?_⟩⟩
        simp only [stored_node, ← Multiset.coe_add]
        rw [show (↑(stored c0') : Multiset Point) + ↑(stored c1) + ↑(stored c2) + ↑(stored c3) + {q}
          = ↑(stored c0') + {q} + ↑(stored c1) + ↑(stored c2) + ↑(stored c3) from by abel, hqm]
      | false =>
        rw [hf0 rfl] at hEq
        rcases hR1 : Remove c1 p with ⟨r1, c1'⟩
        rw [hR1] at hEq
        obtain ⟨hI1', hbp1, hdp1, hf1, ht1⟩ := ih1 p r1 c1' hI1 hR1
        cases r1 with
        | true =>
          simp only [Prod.mk.injEq] at hEq
          obtain ⟨rfl, rfl⟩ := hEq.symm.imp Eq.symm Eq.symm
          obtain ⟨q, hqp, hqm⟩ := ht1 rfl
          refine ⟨inv_node_iff.mpr ⟨hdlt, hd0, hdp1.trans hd1, hd2, hd3,
            hb0, hbp1.trans hb1, hb2, hb3, hI0, hI1', hI2, hI3⟩, rfl, rfl,
            (by simp), fun _ => ⟨q, hqp, ?_⟩⟩
          simp only [stored_node, ← Multiset.coe_add]
          rw [show (↑(stored c0) : Multiset Point) + ↑(stored c1') + ↑(stored c2) + ↑(stored c3) + {q}
            = ↑(stored c0) + (↑(stored c1') + {q}) + ↑(stored c2) + ↑(stored c3) from by abel, hqm]
        | false =>
          rw [hf1 rfl] at hEq
          rcases hR2 : Remove c2 p with ⟨r2, c2'⟩
          rw [hR2] at hEq
          obtain ⟨hI2', hbp2, hdp2, hf2, ht2⟩ := ih2 p r2 c2' hI2 hR2
          cases r2 with
          | true =>
            simp only [Prod.mk.injEq] at hEq
            obtain ⟨rfl, rfl⟩ := hEq.symm.imp Eq.symm Eq.symm
            obtain ⟨q, hqp, hqm⟩ := ht2 rfl
            refine ⟨inv_node_iff.mpr ⟨hdlt, hd0, hd1, hdp2.trans hd2, hd3,
              hb0, hb1, hbp2.trans hb2, hb3, hI0, hI1, hI2', hI3⟩, rfl, rfl,
              (by simp), fun _ => ⟨q, hqp, ?_⟩⟩
            simp only [stored_node, ← Multiset.coe_add]
            rw [show (↑(stored c0) : Multiset Point) + ↑(stored c1) + ↑(stored c2') + ↑(stored c3) + {q}
              = ↑(stored c0) + ↑(stored c1) + (↑(stored c2') + {q}) + ↑(stored c3) from by abel, hqm]
          | false =>
            rw [hf2 rfl] at hEq
            rcases hR3 : Remove c3 p with ⟨r3, c3'⟩
            rw [hR3] at hEq
            obtain ⟨hI3', hbp3, hdp3, hf3, ht3⟩ := ih3 p r3 c3' hI3 hR3
            cases r3 with
            | true =>
              simp only [Prod.mk.injEq] at hEq
              obtain ⟨rfl, rfl⟩ := hEq.symm.imp Eq.symm Eq.symm
              obtain ⟨q, hqp, hqm⟩ := ht3 rfl
              refine ⟨inv_node_iff.mpr ⟨hdlt, hd0, hd1, hd2, hdp3.trans hd3,
                hb0, hb1, hb2, hbp3.trans hb3, hI0, hI1, hI2, hI3'⟩, rfl, rfl,
                (by simp), fun _ => ⟨q, hqp, ?_⟩⟩
              simp only [stored_node, ← Multiset.coe_add]
              rw [show (↑(stored c0) : Multiset Point) + ↑(stored c1) + ↑(stored c2) + ↑(stored c3') + {q}
                = ↑(stored c0) + ↑(stored c1) + ↑(stored c2) + (↑(stored c3') + {q}) from by abel, hqm]
            | false =>
              rw [hf3 rfl] at hEq
              simp only [Prod.mk.injEq] at hEq
              obtain ⟨rfl, rfl⟩ := hEq.symm.imp Eq.symm Eq.symm
              exact ⟨hInv, rfl, rfl, fun _ => rfl, (by simp)⟩
    · rw [if_pos hc] at hEq
      simp only [Prod.mk.injEq] at hEq
      obtain ⟨rfl, rfl⟩ := hEq.symm.imp Eq.symm Eq.symm
      exact ⟨hInv, rfl, rfl, fun _ => rfl, (by simp)⟩

end Quadtree

namespace Quadtree

/-- `Remove` finds any stored point handle: descending through the child
whose boundary contains the point's coordinates reaches the owning leaf. -/
theorem remove_true_of_mem {md : ℕ} :
    ∀ (t : QuadTree) (p : Point), Inv md t = true → nonneg t = true →
      p ∈ stored t → (Remove t p).1 = true := by
  intro t
  induction t with
  | leaf b d ps =>
    intro p hInv _ hmem
    have hc : b.ContainsPoint p = true := (inv_leaf_iff.mp hInv) p hmem
    simp only [Remove, if_neg (not_not_intro hc)]
    cases hidx : findPidIdx p.pid ps with
    | some i => simp
    | none => exact absurd rfl (findPidIdx_none.mp hidx p hmem)
  | node b d c0 c1 c2 c3 ih0 ih1 ih2 ih3 =>
    intro p hInv hnn hmem
    obtain ⟨-, -, -, -, -, -, -, -, -, hI0, hI1, hI2, hI3⟩ := inv_node_iff.mp hInv
    obtain ⟨hn0, hn1, hn2, hn3⟩ := nonneg_children hInv hnn
    have hc : b.ContainsPoint p = true := by
      have := stored_contains _ hInv hnn p hmem
      simpa using this
    simp only [Remove, if_neg (not_not_intro hc)]
    rcases hR0 : Remove c0 p with ⟨r0, c0'⟩
    cases r0 with
    | true => simp [hR0]
    | false =>
      rcases hR1 : Remove c1 p with ⟨r1, c1'⟩
      cases r1 with
      | true => simp [hR0, hR1]
      | false =>
        rcases hR2 : Remove c2 p with ⟨r2, c2'⟩
        cases r2 with
        | true => simp [hR0, hR1, hR2]
        | false =>
          rcases hR3 : Remove c3 p with ⟨r3, c3'⟩
          cases r3 with
          | true => simp [hR0, hR1, hR2, hR3]
          | false =>
            exfalso
            simp only [stored_node, List.append_assoc, List.mem_append] at hmem
            rcases hmem with hm | hm | hm | hm
            · have := ih0 p hI0 hn0 hm; rw [hR0] at this; exact absurd this (by simp)
            · have := ih1 p hI1 hn1 hm; rw [hR1] at this; exact absurd this (by simp)
            · have := ih2 p hI2 hn2 hm; rw [hR2] at this; exact absurd this (by simp)
            · have := ih3 p hI3 hn3 hm; rw [hR3] at this; exact absurd this (by simp)

/-- `Search` collects exactly the stored points inside the query box, in
traversal order (the pruning test never discards a stored in-box point). -/
theorem search_eq_filter {md : ℕ} :
    ∀ (t : QuadTree) (a : AABB), Inv md t = true → nonneg t = true →
      Search t a = (stored t).filter fun p => a.ContainsPoint p := by
  intro t
  induction t with
  | leaf b d ps =>
    intro a hInv _
    simp only [Search, stored_leaf]
    by_cases hi : b.Intersect a = true
    · rw [if_neg (not_not_intro hi)]
    · rw [if_pos hi]
      symm
      rw [List.filter_eq_nil_iff]
      intro q hq hqa
      exact hi (intersect_of_mem_mem ((inv_leaf_iff.mp hInv) q hq) hqa)
  | node b d c0 c1 c2 c3 ih0 ih1 ih2 ih3 =>
    intro a hInv hnn
    obtain ⟨-, -, -, -, -, -, -, -, -, hI0, hI1, hI2, hI3⟩ := inv_node_iff.mp hInv
    obtain ⟨hn0, hn1, hn2, hn3⟩ := nonneg_children hInv hnn
    simp only [Search, stored_node]
    by_cases hi : b.Intersect a = true
    · rw [if_neg (not_not_intro hi)]
      rw [ih0 a hI0 hn0, ih1 a hI1 hn1, ih2 a hI2 hn2, ih3 a hI3 hn3]
      simp [List.filter_append]
    · rw [if_pos hi]
      symm
      rw [List.filter_eq_nil_iff]
      intro q hq hqa
      have hmem : q ∈ stored (QuadTree.node b d c0 c1 c2 c3) := by
        simpa using hq
      have := stored_contains _ hInv hnn q hmem
      simp only [boundary_node] at this
      exact hi (intersect_of_mem_mem this hqa)

/-- C9: `Search` returns exactly the stored points inside the query box
(in traversal order), and, when stored identities are distinct (a point
lives in exactly one leaf), no point occurs twice in the result. -/
theorem search_returns_exactly_stored_points_in_box (md : ℕ) (t : QuadTree)
    (a : AABB) (hInv : Inv md t = true) (hnn : nonneg t = true) :
    Search t a = ((stored t).filter fun p => a.ContainsPoint p) ∧
      (((stored t).map Point.pid).Nodup → ((Search t a).map Point.pid).Nodup) := by
  refine ⟨search_eq_filter t a hInv hnn, fun hnd => ?_⟩
  rw [search_eq_filter t a hInv hnn]
  exact hnd.sublist (List.Sublist.map Point.pid (List.filter_sublist _))

theorem search_returns_exactly_stored_points_in_box_witness :
    Search
      (.node ⟨⟨0,0,0⟩,⟨4,4,0⟩⟩ 0
        (.leaf (nwBox ⟨⟨0,0,0⟩,⟨4,4,0⟩⟩) 1 [⟨-3,3,3⟩])
        (.leaf (neBox ⟨⟨0,0,0⟩,⟨4,4,0⟩⟩) 1 [⟨1,1,1⟩])
        (.leaf (swBox ⟨⟨0,0,0⟩,⟨4,4,0⟩⟩) 1 [])
        (.leaf (seBox ⟨⟨0,0,0⟩,⟨4,4,0⟩⟩) 1 [⟨2,-2,2⟩]))
      ⟨⟨0,0,0⟩,⟨2,2,0⟩⟩ =
    (stored
      (QuadTree.node ⟨⟨0,0,0⟩,⟨4,4,0⟩⟩ 0
        (.leaf (nwBox ⟨⟨0,0,0⟩,⟨4,4,0⟩⟩) 1 [⟨-3,3,3⟩])
        (.leaf (neBox ⟨⟨0,0,0⟩,⟨4,4,0⟩⟩) 1 [⟨1,1,1⟩])
        (.leaf (swBox ⟨⟨0,0,0⟩,⟨4,4,0⟩⟩) 1 [])
        (.leaf (seBox ⟨⟨0,0,0⟩,⟨4,4,0⟩⟩) 1 [⟨2,-2,2⟩]))).filter
      (fun p => AABB.ContainsPoint ⟨⟨0,0,0⟩,⟨2,2,0⟩⟩ p) :=
  (search_returns_exactly_stored_points_in_box 6 _ _ (by decide) (by decide)).1

/-- C7: inserting a fresh point inside the root's boundary and then
removing it succeeds twice, and afterwards no `Search`, over any box,
returns a point with that identity. -/
theorem insert_then_remove_roundtrip (cp md fuel : ℕ) {t : QuadTree}
    {p : Point} {r : Bool} {t₁ : QuadTree}
    (hInv : Inv md t = true) (hnn : nonneg t = true)
    (hin : t.boundary.ContainsPoint p = true)
    (hfresh : ∀ q ∈ stored t, q.pid ≠ p.pid)
    (hIns : Insert cp md fuel t p = some (r, t₁)) :
    r = true ∧ (Remove t₁ p).1 = true ∧
      ∀ (a : AABB) (z : Point), z ∈ Search (Remove t₁ p).2 a → z.pid ≠ p.pid := by
  classical
  obtain ⟨hI₁, hb₁, hd₁, hcr, -, hsp⟩ := (insert_props cp md fuel).1 t p r t₁ hInv hIns
  have hr : r = true := hcr hin
  subst hr
  rw [if_pos rfl] at hsp
  have hnn₁ : nonneg t₁ = true := by
    rw [nonneg_iff, hb₁]; exact nonneg_iff.mp hnn
  have hmem : p ∈ stored t₁ := hsp.mem_iff.mpr (by simp)
  refine ⟨rfl, remove_true_of_mem t₁ p hI₁ hnn₁ hmem, ?_⟩
  rcases hRem : Remove t₁ p with ⟨r₂, t₂⟩
  have hr₂ : r₂ = true := by
    have := remove_true_of_mem t₁ p hI₁ hnn₁ hmem
    rw [hRem] at this
    exact this
  subst hr₂
  obtain ⟨hI₂, hb₂, hd₂, -, heff⟩ := remove_spec t₁ p true t₂ hI₁ hRem
  obtain ⟨q, hqpid, hq⟩ := heff rfl
  intro a z hz hzpid
  have hnn₂ : nonneg t₂ = true := by
    rw [nonneg_iff, hb₂]; exact nonneg_iff.mp hnn₁
  rw [search_eq_filter t₂ a hI₂ hnn₂] at hz
  have hz' : z ∈ stored t₂ := List.mem_of_mem_filter hz
  have hcoe₁ : (↑(stored t₁) : Multiset Point) = ↑(stored t) + {p} := by
    rw [Multiset.coe_eq_coe.mpr hsp, ← Multiset.coe_add]
    simp
  have hcnt := congrArg (Multiset.countP fun w : Point => w.pid = p.pid)
    (hq.trans hcoe₁)
  rw [Multiset.countP_add, Multiset.countP_add] at hcnt
  have hq1 : (Multiset.countP (fun w : Point => w.pid = p.pid) {q}) = 1 := by
    rw [show ({q} : Multiset Point) = q ::ₘ 0 from rfl, Multiset.countP_cons]
    simp [hqpid]
  have hp1 : (Multiset.countP (fun w : Point => w.pid = p.pid) {p}) = 1 := by
    rw [show ({p} : Multiset Point) = p ::ₘ 0 from rfl, Multiset.countP_cons]
    simp
  have hst0 : (Multiset.countP (fun w : Point => w.pid = p.pid) ↑(stored t)) = 0 := by
    rw [Multiset.countP_eq_zero]
    intro w hw
    exact hfresh w (by simpa using hw)
  have hpos : 0 < Multiset.countP (fun w : Point => w.pid = p.pid) ↑(stored t₂) :=
    Multiset.countP_pos_of_mem (by simpa using hz') hzpid
  omega

theorem insert_then_remove_roundtrip_witness :
    (Remove (QuadTree.leaf ⟨⟨0,0,0⟩,⟨4,4,0⟩⟩ 0 [⟨1,1,1⟩]) ⟨1,1,1⟩).1 = true ∧
      ((Search (Remove (QuadTree.leaf ⟨⟨0,0,0⟩,⟨4,4,0⟩⟩ 0 [⟨1,1,1⟩]) ⟨1,1,1⟩).2
          ⟨⟨0,0,0⟩,⟨4,4,0⟩⟩).all fun z => decide (z.pid ≠ 1)) = true := by
  have h := insert_then_remove_roundtrip 8 6 21 (inv_new ⟨⟨0,0,0⟩,⟨4,4,0⟩⟩ 0 6)
    (by decide) (by decide) (fun q hq => by simp [New] at hq)
    (by decide : Insert 8 6 21 (New ⟨⟨0,0,0⟩,⟨4,4,0⟩⟩ 0) ⟨1,1,1⟩ =
      some (true, .leaf ⟨⟨0,0,0⟩,⟨4,4,0⟩⟩ 0 [⟨1,1,1⟩]))
  refine ⟨h.2.1, ?_⟩
  rw [List.all_eq_true]
  intro z hz
  simpa using h.2.2 ⟨⟨0,0,0⟩,⟨4,4,0⟩⟩ z hz

end Quadtree

namespace Quadtree

/-! ### Infrastructure for the k-nearest search: valid paths, the visited
map, and fuel sufficiency -/

/-- All valid paths (node identities) of a tree. -/
def validPaths : QuadTree → List Path
  | .leaf _ _ _ => [[]]
  | .node _ _ c0 c1 c2 c3 =>
    [] :: ((validPaths c0).map (List.cons 0) ++ (validPaths c1).map (List.cons 1) ++
      (validPaths c2).map (List.cons 2) ++ (validPaths c3).map (List.cons 3))

theorem validPaths_iff : ∀ (t : QuadTree) (path : Path),
    path ∈ validPaths t ↔ (nodeAt t path).isSome = true := by
  intro t
  induction t with
  | leaf b d ps =>
    intro path
    cases path with
    | nil => simp [validPaths, nodeAt]
    | cons j rest => simp [validPaths, nodeAt]
  | node b d c0 c1 c2 c3 ih0 ih1 ih2 ih3 =>
    intro path
    cases path with
    | nil => simp [validPaths, nodeAt]
    | cons j rest =>
      simp only [validPaths, List.mem_cons, List.mem_append, List.mem_map, nodeAt]
      have step : ∀ (c : QuadTree) (k : Fin 4),
          (∃ a ∈ validPaths c, k :: a = j :: rest) →
          (∀ q, q ∈ validPaths c ↔ (nodeAt c q).isSome = true) →
          j = k ∧ (nodeAt c rest).isSome = true := by
        rintro c k ⟨q, hq, hqe⟩ ihc
        obtain ⟨hj, hr⟩ := List.cons_eq_cons.mp hqe
        subst hr
        exact ⟨hj.symm, (ihc q).mp hq⟩
      constructor
      · intro h
        rcases h with h | h
        · exact absurd h (by simp)
        rcases h with ((h | h) | h) | h
        · obtain ⟨hj, hv⟩ := step c0 0 h ih0
          subst hj; simpa using hv
        · obtain ⟨hj, hv⟩ := step c1 1 h ih1
          subst hj; simpa using hv
        · obtain ⟨hj, hv⟩ := step c2 2 h ih2
          subst hj; simpa using hv
        · obtain ⟨hj, hv⟩ := step c3 3 h ih3
          subst hj; simpa using hv
      · intro h
        fin_cases j
        · exact Or.inr (Or.inl (Or.inl (Or.inl ⟨rest, (ih0 rest).mpr (by simpa using h), rfl⟩)))
        · exact Or.inr (Or.inl (Or.inl (Or.inr ⟨rest, (ih1 rest).mpr (by simpa using h), rfl⟩)))
        · exact Or.inr (Or.inl (Or.inr ⟨rest, (ih2 rest).mpr (by simpa using h), rfl⟩))
        · exact Or.inr (Or.inr ⟨rest, (ih3 rest).mpr (by simpa using h), rfl⟩)

theorem validPaths_length : ∀ t : QuadTree, (validPaths t).length = size t := by
  intro t
  induction t with
  | leaf b d ps => simp [validPaths, size]
  | node b d c0 c1 c2 c3 ih0 ih1 ih2 ih3 =>
    simp [validPaths, size, ih0, ih1, ih2, ih3]
    omega

/-- Following a child index from a node. -/
theorem nodeAt_append : ∀ (path : Path) (T : QuadTree) {b d c0 c1 c2 c3},
    nodeAt T path = some (.node b d c0 c1 c2 c3) → ∀ j : Fin 4,
      nodeAt T (path ++ [j]) =
        some (if j = 0 then c0 else if j = 1 then c1 else if j = 2 then c2 else c3) := by
  intro path
  induction path with
  | nil =>
    intro T b d c0 c1 c2 c3 h j
    simp only [nodeAt, Option.some.injEq] at h
    subst h
    simp [nodeAt]
  | cons k rest IH =>
    intro T b d c0 c1 c2 c3 h j
    cases T with
    | leaf => simp [nodeAt] at h
    | node b' d' k0 k1 k2 k3 =>
      simp only [nodeAt] at h ⊢
      exact IH _ h j

/-- Number of valid paths not yet in the visited map. -/
def unvisited (T : QuadTree) (v : List Path) : ℕ :=
  ((validPaths T).filter fun q => decide (¬ q ∈ v)).length

theorem filter_length_mono {p q : Path → Bool} (h : ∀ x, p x = true → q x = true) :
    ∀ l : List Path, (l.filter p).length ≤ (l.filter q).length := by
  intro l
  induction l with
  | nil => simp
  | cons x xs ih =>
    simp only [List.filter]
    cases hp : p x with
    | true => rw [h x hp]; simpa using ih
    | false =>
      cases hq : q x with
      | true => simp; omega
      | false => exact ih

theorem unvisited_mono {T : QuadTree} {v w : List Path} (h : ∀ x ∈ v, x ∈ w) :
    unvisited T w ≤ unvisited T v := by
  apply filter_length_mono
  intro x hx
  simp only [decide_eq_true_eq] at hx ⊢
  intro hxv
  exact hx (h x hxv)

theorem filter_unvisited_lt {v : List Path} {path : Path} (hnv : ¬ path ∈ v) :
    ∀ l : List Path, path ∈ l →
      (l.filter fun q => decide (¬ q ∈ path :: v)).length <
        (l.filter fun q => decide (¬ q ∈ v)).length := by
  intro l
  induction l with
  | nil => intro h; simp at h
  | cons x xs ih =>
    intro hmem
    simp only [List.filter_cons]
    rcases List.mem_cons.mp hmem with rfl | hmem'
    · rw [decide_eq_false (by simp), decide_eq_true hnv]
      simp only [List.length_cons]
      have hmono := @filter_length_mono (fun q => decide (¬ q ∈ path :: v))
        (fun q => decide (¬ q ∈ v))
        (by
          intro y hy
          simp only [decide_eq_true_eq, List.mem_cons] at hy ⊢
          exact fun hyv => hy (Or.inr hyv)) xs
      simp only [Bool.false_eq_true, if_false, if_true, List.length_cons]
      omega
    · by_cases hx1 : x ∈ path :: v
      · rw [decide_eq_false (not_not_intro hx1)]
        by_cases hx2 : x ∈ v
        · rw [decide_eq_false (not_not_intro hx2)]
          have := ih hmem'
          simp only [Bool.false_eq_true, if_false, if_true]
          omega
        · rw [decide_eq_true hx2]
          have := ih hmem'
          simp only [Bool.false_eq_true, if_false, if_true, List.length_cons]
          omega
      · rw [decide_eq_true hx1]
        have hx2 : ¬ x ∈ v := fun hc => hx1 (List.mem_cons_of_mem _ hc)
        rw [decide_eq_true hx2]
        have := ih hmem'
        simp only [Bool.false_eq_true, if_false, if_true, List.length_cons]
        omega

theorem unvisited_cons_lt {T : QuadTree} {v : List Path} {path : Path}
    (hval : (nodeAt T path).isSome = true) (hnv : ¬ path ∈ v) :
    unvisited T (path :: v) < unvisited T v :=
  filter_unvisited_lt hnv (validPaths T) ((validPaths_iff T path).mpr hval)

end Quadtree

namespace Quadtree

theorem nodeAt_dropLast : ∀ (path : Path) (T : QuadTree),
    (nodeAt T path).isSome = true → (nodeAt T path.dropLast).isSome = true := by
  intro path
  induction path with
  | nil => intro T h; simpa [List.dropLast] using h
  | cons x rest IH =>
    intro T h
    cases T with
    | leaf => simp [nodeAt] at h
    | node b d c0 c1 c2 c3 =>
      cases rest with
      | nil => simp [nodeAt]
      | cons y ys =>
        simp only [nodeAt] at h
        simp only [List.dropLast, nodeAt]
        exact IH _ h

theorem trunc_total {i : ℤ} (hi : 0 ≤ i) (l : List Point) :
    trunc i l = some (l.take i.toNat) := by
  simp [trunc, hi]

/-- The sort-and-truncate tail of `knearest` always yields a value for
`i ≥ 0`, and the empty list when `i = 0`. -/
theorem final_step {i : ℤ} (hi : 0 ≤ i) (l : List Point) (vp : List Path) :
    ∃ L, (if (l.length : ℤ) > i then
        match trunc i l with
        | none => none
        | some r => some (r, vp)
      else some (l, vp)) = some (L, vp) ∧ (i = 0 → L = []) := by
  by_cases hlen : (l.length : ℤ) > i
  · rw [if_pos hlen, trunc_total hi]
    exact ⟨l.take i.toNat, rfl, fun h0 => by subst h0; simp⟩
  · rw [if_neg hlen]
    refine ⟨l, rfl, fun h0 => ?_⟩
    subst h0
    have : l.length = 0 := by omega
    exact List.length_eq_zero.mp this

theorem fin4_if0 (k0 k1 k2 k3 : QuadTree) :
    (if (0 : Fin 4) = 0 then k0 else if (0 : Fin 4) = 1 then k1
      else if (0 : Fin 4) = 2 then k2 else k3) = k0 := rfl

theorem fin4_if1 (k0 k1 k2 k3 : QuadTree) :
    (if (1 : Fin 4) = 0 then k0 else if (1 : Fin 4) = 1 then k1
      else if (1 : Fin 4) = 2 then k2 else k3) = k1 := rfl

theorem fin4_if2 (k0 k1 k2 k3 : QuadTree) :
    (if (2 : Fin 4) = 0 then k0 else if (2 : Fin 4) = 1 then k1
      else if (2 : Fin 4) = 2 then k2 else k3) = k2 := rfl

theorem fin4_if3 (k0 k1 k2 k3 : QuadTree) :
    (if (3 : Fin 4) = 0 then k0 else if (3 : Fin 4) = 1 then k1
      else if (3 : Fin 4) = 2 then k2 else k3) = k3 := rfl

/-- Fuel sufficiency for the expanding search: with more fuel than
unvisited nodes, `knearest` returns a value (for `i ≥ 0` the slice
truncation is valid), only grows the visited map, and returns the empty
list when `i = 0`. -/
theorem knearest_suff (T : QuadTree) (a : AABB) (i : ℤ) (fn : Option (Point → Bool))
    (hi : 0 ≤ i) :
    ∀ fuel path v, (nodeAt T path).isSome = true → unvisited T v < fuel →
      ∃ L v', knearest T a i fn fuel path v = some (L, v') ∧
        (∀ x ∈ v, x ∈ v') ∧ (i = 0 → L = []) := by
  intro fuel
  induction fuel with
  | zero => intro path v _ hun; omega
  | succ fuel IH =>
    intro path v hval hun
    by_cases hv : path ∈ v
    · exact ⟨[], v, by simp [knearest, hv], fun x h => h, fun _ => rfl⟩
    obtain ⟨qt, hqt⟩ := Option.isSome_iff_exists.mp hval
    have hun1 : unvisited T (path :: v) < fuel := by
      have := unvisited_cons_lt hval hv
      omega
    by_cases hin : qt.boundary.Intersect a = true
    case neg =>
      refine ⟨[], path :: v, ?_, fun x h => List.mem_cons_of_mem _ h, fun _ => rfl⟩
      simp only [knearest, if_neg hv, hqt]
      rw [if_pos hin]
    case pos =>
      cases qt with
      | leaf bb dd ps =>
        by_cases hroot : path = []
        · subst hroot
          obtain ⟨L, hL, hLz⟩ := final_step hi
            (sortByDist a.center
              ((ps.filter fun p => a.ContainsPoint p && passesFilter fn p) ++ [] ++ []))
            ([] :: v)
          refine ⟨L, [] :: v, ?_, fun x h => List.mem_cons_of_mem _ h, hLz⟩
          simp only [knearest, if_neg hv, hqt]
          rw [if_neg (not_not_intro hin)]
          exact hL
        · obtain ⟨Lp, vp, hp, hmp, hzp⟩ := IH path.dropLast (path :: v)
            (nodeAt_dropLast path T hval) hun1
          obtain ⟨L, hL, hLz⟩ := final_step hi
            (sortByDist a.center
              ((ps.filter fun p => a.ContainsPoint p && passesFilter fn p) ++ [] ++ Lp))
            vp
          refine ⟨L, vp, ?_, fun x h => hmp x (List.mem_cons_of_mem _ h), hLz⟩
          simp only [knearest, if_neg hv, hqt]
          rw [if_neg (not_not_intro hin)]
          rw [show path.isEmpty = false from by
            cases path with
            | nil => exact absurd rfl hroot
            | cons _ _ => rfl]
          simp only [Bool.false_eq_true, if_false, hp]
          exact hL
      | node bb dd k0 k1 k2 k3 =>
        have hc0 := nodeAt_append path T hqt 0
        have hc1 := nodeAt_append path T hqt 1
        have hc2 := nodeAt_append path T hqt 2
        have hc3 := nodeAt_append path T hqt 3
        rw [fin4_if0] at hc0
        rw [fin4_if1] at hc1
        rw [fin4_if2] at hc2
        rw [fin4_if3] at hc3
        obtain ⟨L0, v0, h0, hm0, hz0⟩ := IH (path ++ [0]) (path :: v) (by simp [hc0]) hun1
        have hb0 : unvisited T v0 < fuel :=
          lt_of_le_of_lt (unvisited_mono fun x hx => hm0 x hx) hun1
        obtain ⟨L1, v1, h1, hm1, hz1⟩ := IH (path ++ [1]) v0 (by simp [hc1]) hb0
        have hb1 : unvisited T v1 < fuel :=
          lt_of_le_of_lt (unvisited_mono fun x hx => hm1 x hx) hb0
        obtain ⟨L2, v2, h2, hm2, hz2⟩ := IH (path ++ [2]) v1 (by simp [hc2]) hb1
        have hb2 : unvisited T v2 < fuel :=
          lt_of_le_of_lt (unvisited_mono fun x hx => hm2 x hx) hb1
        obtain ⟨L3, v3, h3, hm3, hz3⟩ := IH (path ++ [3]) v2 (by simp [hc3]) hb2
        have hb3 : unvisited T v3 < fuel :=
          lt_of_le_of_lt (unvisited_mono fun x hx => hm3 x hx) hb2
        have hmem03 : ∀ x ∈ path :: v, x ∈ v3 := fun x hx =>
          hm3 x (hm2 x (hm1 x (hm0 x hx)))
        by_cases hroot : path = []
        · subst hroot
          obtain ⟨L, hL, hLz⟩ := final_step hi
            (sortByDist a.center (([] : List Point) ++ (L0 ++ L1 ++ L2 ++ L3) ++ []))
            v3
          refine ⟨L, v3, ?_, fun x h => hmem03 x (List.mem_cons_of_mem _ h), hLz⟩
          simp only [knearest, if_neg hv, hqt]
          rw [if_neg (not_not_intro hin)]
          simp only [h0, h1, h2, h3]
          exact hL
        · obtain ⟨Lp, vp, hp, hmp, hzp⟩ := IH path.dropLast v3
            (nodeAt_dropLast path T hval) hb3
          obtain ⟨L, hL, hLz⟩ := final_step hi
            (sortByDist a.center (([] : List Point) ++ (L0 ++ L1 ++ L2 ++ L3) ++ Lp))
            vp
          refine ⟨L, vp, ?_,
            fun x h => hmp x (hmem03 x (List.mem_cons_of_mem _ h)), hLz⟩
          simp only [knearest, if_neg hv, hqt]
          rw [if_neg (not_not_intro hin)]
          simp only [h0, h1, h2, h3]
          rw [show path.isEmpty = false from by
            cases path with
            | nil => exact absurd rfl hroot
            | cons _ _ => rfl]
          simp only [Bool.false_eq_true, if_false, hp]
          exact hL

end Quadtree

namespace Quadtree

theorem kNearestRoot_zero (T : QuadTree) (a : AABB) (fn : Option (Point → Bool))
    (fuel : ℕ) :
    ∀ (sub : QuadTree) (path : Path) (v : List Path),
      nodeAt T path = some sub → unvisited T v < fuel →
      ∃ v', kNearestRoot T a 0 fn fuel sub path v = some ([], v') := by
  intro sub
  induction sub with
  | leaf bb dd ps =>
    intro path v hpath hun
    simp only [kNearestRoot]
    by_cases hib : bb.Intersect a = true
    · rw [if_neg (not_not_intro hib)]
      obtain ⟨L, v', hk, hm, hz⟩ :=
        knearest_suff T a 0 fn le_rfl fuel path v (by simp [hpath]) hun
      rw [hk, hz rfl]
      exact ⟨v', by simp [trunc]⟩
    · rw [if_pos hib]
      exact ⟨v, rfl⟩
  | node bb dd c0 c1 c2 c3 ih0 ih1 ih2 ih3 =>
    intro path v hpath hun
    simp only [kNearestRoot]
    by_cases hib : bb.Intersect a = true
    · rw [if_neg (not_not_intro hib)]
      have hc0 := nodeAt_append path T hpath 0
      rw [fin4_if0] at hc0
      obtain ⟨v0, h0⟩ := ih0 (path ++ [0]) v hc0 hun
      rw [h0]
      exact ⟨v0, by simp [trunc]⟩
    · rw [if_pos hib]
      exact ⟨v, rfl⟩

/-- C5 (amended): with `k = 0` every `KNearest` call returns the empty
sequence; a negative `k` instead panics on the `results[:i]` slice (see the
counterexample theorem). -/
theorem knearest_zero_returns_empty (t : QuadTree) (a : AABB)
    (fn : Option (Point → Bool)) :
    KNearest t a 0 fn = some [] := by
  unfold KNearest
  have hun : unvisited t [] < size t + 1 := by
    have h1 : unvisited t [] ≤ (validPaths t).length := List.length_filter_le _ _
    rw [validPaths_length] at h1
    omega
  obtain ⟨v', h⟩ := kNearestRoot_zero t a fn (size t + 1) t [] [] (by cases t <;> rfl) hun
  rw [h]
  rfl

/-- C5 counterexample: `KNearest` with `k = -1` on a one-leaf tree panics
on the negative slice index (`results[:i]`), so it does not return the
empty sequence the claim promises for every `k ≤ 0`. -/
theorem knearest_negative_k_panics :
    ¬ (KNearest (New ⟨⟨0,0,0⟩,⟨1,1,0⟩⟩ 0) ⟨⟨0,0,0⟩,⟨1,1,0⟩⟩ (-1) none = some []) := by
  decide

end Quadtree

namespace Quadtree

/-! ### Subtrees addressed by a path: inherited invariants, geometry, and
subtree replacement (infrastructure for `Update`/`RInsert`) -/

theorem nodeAt_inv {md : ℕ} : ∀ (path : Path) (T sub : QuadTree),
    Inv md T = true → nodeAt T path = some sub → Inv md sub = true := by
  intro path
  induction path with
  | nil =>
    intro T sub h hEq
    simp only [nodeAt, Option.some.injEq] at hEq
    subst hEq
    exact h
  | cons j rest IH =>
    intro T sub h hEq
    cases T with
    | leaf b d ps => simp [nodeAt] at hEq
    | node b d c0 c1 c2 c3 =>
      obtain ⟨-, -, -, -, -, -, -, -, -, hI0, hI1, hI2, hI3⟩ := inv_node_iff.mp h
      simp only [nodeAt] at hEq
      split_ifs at hEq
      · exact IH _ _ hI0 hEq
      · exact IH _ _ hI1 hEq
      · exact IH _ _ hI2 hEq
      · exact IH _ _ hI3 hEq

theorem nodeAt_nonneg {md : ℕ} : ∀ (path : Path) (T sub : QuadTree),
    Inv md T = true → nonneg T = true → nodeAt T path = some sub →
    nonneg sub = true := by
  intro path
  induction path with
  | nil =>
    intro T sub _ hn hEq
    simp only [nodeAt, Option.some.injEq] at hEq
    subst hEq
    exact hn
  | cons j rest IH =>
    intro T sub h hn hEq
    cases T with
    | leaf b d ps => simp [nodeAt] at hEq
    | node b d c0 c1 c2 c3 =>
      obtain ⟨-, -, -, -, -, -, -, -, -, hI0, hI1, hI2, hI3⟩ := inv_node_iff.mp h
      obtain ⟨hn0, hn1, hn2, hn3⟩ := nonneg_children h hn
      simp only [nodeAt] at hEq
      split_ifs at hEq
      · exact IH _ _ hI0 hn0 hEq
      · exact IH _ _ hI1 hn1 hEq
      · exact IH _ _ hI2 hn2 hEq
      · exact IH _ _ hI3 hn3 hEq

/-- A point inside a descendant's boundary is inside every ancestor's. -/
theorem nodeAt_contains_mono {md : ℕ} {p : Point} : ∀ (path : Path) (T sub : QuadTree),
    Inv md T = true → nonneg T = true → nodeAt T path = some sub →
    sub.boundary.ContainsPoint p = true → T.boundary.ContainsPoint p = true := by
  intro path
  induction path with
  | nil =>
    intro T sub _ _ hEq hc
    simp only [nodeAt, Option.some.injEq] at hEq
    subst hEq
    exact hc
  | cons j rest IH =>
    intro T sub h hn hEq hc
    cases T with
    | leaf b d ps => simp [nodeAt] at hEq
    | node b d c0 c1 c2 c3 =>
      obtain ⟨-, -, -, -, -, hb0, hb1, hb2, hb3, hI0, hI1, hI2, hI3⟩ := inv_node_iff.mp h
      obtain ⟨hn0, hn1, hn2, hn3⟩ := nonneg_children h hn
      have hnb := nonneg_iff.mp hn
      simp only [boundary_node] at hnb ⊢
      simp only [nodeAt] at hEq
      split_ifs at hEq
      · exact quadrant_sub (Or.inl hb0) hnb.1 hnb.2 (IH _ _ hI0 hn0 hEq hc)
      · exact quadrant_sub (Or.inr (Or.inl hb1)) hnb.1 hnb.2 (IH _ _ hI1 hn1 hEq hc)
      · exact quadrant_sub (Or.inr (Or.inr (Or.inl hb2))) hnb.1 hnb.2 (IH _ _ hI2 hn2 hEq hc)
      · exact quadrant_sub (Or.inr (Or.inr (Or.inr hb3))) hnb.1 hnb.2 (IH _ _ hI3 hn3 hEq hc)

/-- A box intersecting a descendant's boundary intersects every ancestor's. -/
theorem nodeAt_intersect_mono {md : ℕ} {a : AABB} : ∀ (path : Path) (T sub : QuadTree),
    Inv md T = true → nonneg T = true → nodeAt T path = some sub →
    sub.boundary.Intersect a = true → T.boundary.Intersect a = true := by
  intro path
  induction path with
  | nil =>
    intro T sub _ _ hEq hc
    simp only [nodeAt, Option.some.injEq] at hEq
    subst hEq
    exact hc
  | cons j rest IH =>
    intro T sub h hn hEq hc
    cases T with
    | leaf b d ps => simp [nodeAt] at hEq
    | node b d c0 c1 c2 c3 =>
      obtain ⟨-, -, -, -, -, hb0, hb1, hb2, hb3, hI0, hI1, hI2, hI3⟩ := inv_node_iff.mp h
      obtain ⟨hn0, hn1, hn2, hn3⟩ := nonneg_children h hn
      have hnb := nonneg_iff.mp hn
      simp only [boundary_node] at hnb ⊢
      simp only [nodeAt] at hEq
      split_ifs at hEq
      · exact quadrant_intersect_mono (Or.inl hb0) hnb.1 hnb.2 (IH _ _ hI0 hn0 hEq hc)
      · exact quadrant_intersect_mono (Or.inr (Or.inl hb1)) hnb.1 hnb.2 (IH _ _ hI1 hn1 hEq hc)
      · exact quadrant_intersect_mono (Or.inr (Or.inr (Or.inl hb2))) hnb.1 hnb.2
          (IH _ _ hI2 hn2 hEq hc)
      · exact quadrant_intersect_mono (Or.inr (Or.inr (Or.inr hb3))) hnb.1 hnb.2
          (IH _ _ hI3 hn3 hEq hc)

theorem nodeAt_cons_length {md : ℕ} : ∀ (rest : Path) (j : Fin 4) (T sub : QuadTree),
    Inv md T = true → nodeAt T (j :: rest) = some sub →
    T.depth + rest.length + 1 ≤ md := by
  intro rest
  induction rest with
  | nil =>
    intro j T sub h hEq
    cases T with
    | leaf b d ps => simp [nodeAt] at hEq
    | node b d c0 c1 c2 c3 =>
      have := (inv_node_iff.mp h).1
      simp only [depth_node, List.length_nil]
      omega
  | cons k rest IH =>
    intro j T sub h hEq
    cases T with
    | leaf b d ps => simp [nodeAt] at hEq
    | node b d c0 c1 c2 c3 =>
      obtain ⟨hdlt, hd0, hd1, hd2, hd3, -, -, -, -, hI0, hI1, hI2, hI3⟩ := inv_node_iff.mp h
      simp only [nodeAt] at hEq
      simp only [depth_node, List.length_cons]
      split_ifs at hEq
      · have := IH k c0 sub hI0 hEq
        omega
      · have := IH k c1 sub hI1 hEq
        omega
      · have := IH k c2 sub hI2 hEq
        omega
      · have := IH k c3 sub hI3 hEq
        omega

/-- Valid paths are no longer than `MaxDepth` above the root's depth
(split nodes sit strictly below the ceiling). -/
theorem path_length_le {md : ℕ} {T sub : QuadTree} {path : Path}
    (h : Inv md T = true) (hEq : nodeAt T path = some sub) : path.length ≤ md := by
  cases path with
  | nil => simp
  | cons j rest =>
    have := nodeAt_cons_length rest j T sub h hEq
    simp only [List.length_cons]
    omega

theorem stored_nodeAt_le : ∀ (path : Path) (T sub : QuadTree),
    nodeAt T path = some sub →
    (↑(stored sub) : Multiset Point) ≤ ↑(stored T) := by
  intro path
  induction path with
  | nil =>
    intro T sub hEq
    simp only [nodeAt, Option.some.injEq] at hEq
    subst hEq
    exact le_rfl
  | cons j rest IH =>
    intro T sub hEq
    cases T with
    | leaf b d ps => simp [nodeAt] at hEq
    | node b d c0 c1 c2 c3 =>
      simp only [nodeAt] at hEq
      have hgoal : ∀ c : QuadTree, (↑(stored c) : Multiset Point) ≤
          ↑(stored c0) + ↑(stored c1) + ↑(stored c2) + ↑(stored c3) →
          (↑(stored c) : Multiset Point) ≤ ↑(stored (QuadTree.node b d c0 c1 c2 c3)) := by
        intro c hc
        rw [show (↑(stored (QuadTree.node b d c0 c1 c2 c3)) : Multiset Point)
          = ↑(stored c0) + ↑(stored c1) + ↑(stored c2) + ↑(stored c3) from by
            simp only [stored_node, ← Multiset.coe_add]]
        exact hc
      split_ifs at hEq
      · exact le_trans (IH _ _ hEq) (hgoal c0 (le_add_right (le_add_right (le_add_right le_rfl))))
      · exact le_trans (IH _ _ hEq) (hgoal c1 (le_add_right (le_add_right (le_add_left le_rfl))))
      · exact le_trans (IH _ _ hEq) (hgoal c2 (le_add_right (le_add_left le_rfl)))
      · exact le_trans (IH _ _ hEq) (hgoal c3 (le_add_left le_rfl))

theorem replaceAt_nil (T s : QuadTree) : replaceAt T [] s = s := by
  cases T <;> rfl

theorem replaceAt_self : ∀ (path : Path) (T sub : QuadTree),
    nodeAt T path = some sub → replaceAt T path sub = T := by
  intro path
  induction path with
  | nil =>
    intro T sub hEq
    simp only [nodeAt, Option.some.injEq] at hEq
    subst hEq
    exact replaceAt_nil T T
  | cons j rest IH =>
    intro T sub hEq
    cases T with
    | leaf b d ps => simp [nodeAt] at hEq
    | node b d c0 c1 c2 c3 =>
      simp only [nodeAt] at hEq
      simp only [replaceAt]
      split_ifs at hEq ⊢
      · rw [IH _ _ hEq]
      · rw [IH _ _ hEq]
      · rw [IH _ _ hEq]
      · rw [IH _ _ hEq]

theorem nodeAt_replaceAt : ∀ (path : Path) (T sub sub' : QuadTree),
    nodeAt T path = some sub → nodeAt (replaceAt T path sub') path = some sub' := by
  intro path
  induction path with
  | nil =>
    intro T sub sub' _
    cases T <;> cases sub' <;> rfl
  | cons j rest IH =>
    intro T sub sub' hEq
    cases T with
    | leaf b d ps => simp [nodeAt] at hEq
    | node b d c0 c1 c2 c3 =>
      simp only [nodeAt] at hEq
      simp only [replaceAt]
      split_ifs at hEq ⊢ with h0 h1 h2
      · simp only [nodeAt]
        rw [if_pos h0]
        exact IH _ _ _ hEq
      · simp only [nodeAt]
        rw [if_neg h0, if_pos h1]
        exact IH _ _ _ hEq
      · simp only [nodeAt]
        rw [if_neg h0, if_neg h1, if_pos h2]
        exact IH _ _ _ hEq
      · simp only [nodeAt]
        rw [if_neg h0, if_neg h1, if_neg h2]
        exact IH _ _ _ hEq

/-- Replacing the subtree at a valid path by one with the same boundary and
depth preserves the invariant, the root boundary and depth, and exchanges
exactly the stored points of the two subtrees. -/
theorem replaceAt_spec {md : ℕ} : ∀ (path : Path) (T sub sub' : QuadTree),
    Inv md T = true → nodeAt T path = some sub →
    Inv md sub' = true → sub'.boundary = sub.boundary → sub'.depth = sub.depth →
    Inv md (replaceAt T path sub') = true ∧
    (replaceAt T path sub').boundary = T.boundary ∧
    (replaceAt T path sub').depth = T.depth ∧
    (↑(stored (replaceAt T path sub')) : Multiset Point) + ↑(stored sub) =
      ↑(stored T) + ↑(stored sub') := by
  intro path
  induction path with
  | nil =>
    intro T sub sub' _ hEq hI hb hd
    simp only [nodeAt, Option.some.injEq] at hEq
    subst hEq
    rw [replaceAt_nil]
    exact ⟨hI, hb, hd, add_comm _ _⟩
  | cons j rest IH =>
    intro T sub sub' hT hEq hI hb hd
    cases T with
    | leaf b d ps => simp [nodeAt] at hEq
    | node b d c0 c1 c2 c3 =>
      obtain ⟨hdlt, hd0, hd1, hd2, hd3, hb0, hb1, hb2, hb3, hI0, hI1, hI2, hI3⟩ :=
        inv_node_iff.mp hT
      simp only [nodeAt] at hEq
      simp only [replaceAt]
      split_ifs at hEq ⊢
      · obtain ⟨hi', hb', hd', hs'⟩ := IH c0 sub sub' hI0 hEq hI hb hd
        refine ⟨inv_node_iff.mpr ⟨hdlt, hd'.trans hd0, hd1, hd2, hd3,
          hb'.trans hb0, hb1, hb2, hb3, hi', hI1, hI2, hI3⟩, rfl, rfl, ?_⟩
        simp only [stored_node, ← Multiset.coe_add]
        rw [show (↑(stored (replaceAt c0 rest sub')) : Multiset Point) + ↑(stored c1) +
            ↑(stored c2) + ↑(stored c3) + ↑(stored sub)
          = ↑(stored (replaceAt c0 rest sub')) + ↑(stored sub) + ↑(stored c1) +
            ↑(stored c2) + ↑(stored c3) from by abel, hs']
        abel
      · obtain ⟨hi', hb', hd', hs'⟩ := IH c1 sub sub' hI1 hEq hI hb hd
        refine ⟨inv_node_iff.mpr ⟨hdlt, hd0, hd'.trans hd1, hd2, hd3,
          hb0, hb'.trans hb1, hb2, hb3, hI0, hi', hI2, hI3⟩, rfl, rfl, ?_⟩
        simp only [stored_node, ← Multiset.coe_add]
        rw [show (↑(stored c0) : Multiset Point) + ↑(stored (replaceAt c1 rest sub')) +
            ↑(stored c2) + ↑(stored c3) + ↑(stored sub)
          = ↑(stored (replaceAt c1 rest sub')) + ↑(stored sub) + ↑(stored c0) +
            ↑(stored c2) + ↑(stored c3) from by abel, hs']
        abel
      · obtain ⟨hi', hb', hd', hs'⟩ := IH c2 sub sub' hI2 hEq hI hb hd
        refine ⟨inv_node_iff.mpr ⟨hdlt, hd0, hd1, hd'.trans hd2, hd3,
          hb0, hb1, hb'.trans hb2, hb3, hI0, hI1, hi', hI3⟩, rfl, rfl, ?_⟩
        simp only [stored_node, ← Multiset.coe_add]
        rw [show (↑(stored c0) : Multiset Point) + ↑(stored c1) +
            ↑(stored (replaceAt c2 rest sub')) + ↑(stored c3) + ↑(stored sub)
          = ↑(stored (replaceAt c2 rest sub')) + ↑(stored sub) + ↑(stored c0) +
            ↑(stored c1) + ↑(stored c3) from by abel, hs']
        abel
      · obtain ⟨hi', hb', hd', hs'⟩ := IH c3 sub sub' hI3 hEq hI hb hd
        refine ⟨inv_node_iff.mpr ⟨hdlt, hd0, hd1, hd2, hd'.trans hd3,
          hb0, hb1, hb2, hb'.trans hb3, hI0, hI1, hI2, hi'⟩, rfl, rfl, ?_⟩
        simp only [stored_node, ← Multiset.coe_add]
        rw [show (↑(stored c0) : Multiset Point) + ↑(stored c1) + ↑(stored c2) +
            ↑(stored (replaceAt c3 rest sub')) + ↑(stored sub)
          = ↑(stored (replaceAt c3 rest sub')) + ↑(stored sub) + ↑(stored c0) +
            ↑(stored c1) + ↑(stored c2) from by abel, hs']
        abel

end Quadtree

namespace Quadtree

/-- `ContainsPoint` only inspects the coordinates. -/
theorem containsPoint_coords (a : AABB) (u v : Point) (hx : u.x = v.x) (hy : u.y = v.y) :
    a.ContainsPoint u = a.ContainsPoint v := by
  simp only [AABB.ContainsPoint, hx, hy]

/-- `RInsert` climbing from a node of a tree whose root boundary does not
contain the point: every `Insert` on the way up fails and the tree is
returned unchanged. -/
theorem rinsert_fail (cp md : ℕ) {p : Point} :
    ∀ (n : ℕ) (path : Path) (T sub : QuadTree) (fuel : ℕ),
    path.length = n → Inv md T = true → nonneg T = true →
    T.boundary.ContainsPoint p = false →
    nodeAt T path = some sub → 3 * md + 4 + n ≤ fuel →
    rinsertAux cp md fuel T path p = some (false, T) := by
  intro n
  induction n with
  | zero =>
    intro path T sub fuel hlen hInv hnn hout hEq hfuel
    obtain rfl : path = [] := List.length_eq_zero.mp hlen
    obtain ⟨fuel, rfl⟩ : ∃ f, fuel = f + 1 := ⟨fuel - 1, by omega⟩
    have h00 : nodeAt T [] = some T := by cases T <;> rfl
    simp only [rinsertAux, h00]
    obtain ⟨⟨r, t'⟩, hins⟩ := Option.isSome_iff_exists.mp
      (insert_fuel cp md md T p fuel hInv (by omega) (by omega))
    obtain ⟨-, -, -, -, hfail, -⟩ := (insert_props cp md fuel).1 T p r t' hInv hins
    obtain ⟨hr, ht⟩ := hfail hout
    subst hr
    rw [ht] at hins
    simp only [hins]
    simp [replaceAt_nil]
  | succ n IH =>
    intro path T sub fuel hlen hInv hnn hout hEq hfuel
    obtain ⟨fuel, rfl⟩ : ∃ f, fuel = f + 1 := ⟨fuel - 1, by omega⟩
    have hne : path ≠ [] := by
      intro hc
      subst hc
      simp at hlen
    have hIsub := nodeAt_inv path T sub hInv hEq
    simp only [rinsertAux, hEq]
    obtain ⟨⟨r, t'⟩, hins⟩ := Option.isSome_iff_exists.mp
      (insert_fuel cp md md sub p fuel hIsub (by omega) (by omega))
    have hcsub : sub.boundary.ContainsPoint p = false := by
      cases hc : sub.boundary.ContainsPoint p with
      | false => rfl
      | true => exact absurd (nodeAt_contains_mono path T sub hInv hnn hEq hc) (by simp [hout])
    obtain ⟨-, -, -, -, hfail, -⟩ := (insert_props cp md fuel).1 sub p r t' hIsub hins
    obtain ⟨hr, ht⟩ := hfail hcsub
    subst hr
    rw [ht] at hins
    simp only [hins]
    rw [show path.isEmpty = false from by
      cases path with
      | nil => exact absurd rfl hne
      | cons _ _ => rfl]
    simp only [Bool.false_eq_true, if_false]
    rw [replaceAt_self path T sub hEq]
    obtain ⟨sub2, hsub2⟩ := Option.isSome_iff_exists.mp (nodeAt_dropLast path T (by simp [hEq]))
    exact IH path.dropLast T sub2 fuel (by simp [List.length_dropLast, hlen]) hInv hnn hout hsub2
      (by omega)

/-- `RInsert` climbing from a node of a tree whose root boundary contains
the point: some ancestor accepts it, the invariant is preserved and exactly
the argument is added to the stored points. -/
theorem rinsert_succeed (cp md : ℕ) {p : Point} :
    ∀ (n : ℕ) (path : Path) (T sub : QuadTree) (fuel : ℕ),
    path.length = n → Inv md T = true → nonneg T = true →
    T.boundary.ContainsPoint p = true →
    nodeAt T path = some sub → 3 * md + 4 + n ≤ fuel →
    ∃ T', rinsertAux cp md fuel T path p = some (true, T') ∧
      Inv md T' = true ∧ T'.boundary = T.boundary ∧ T'.depth = T.depth ∧
      (↑(stored T') : Multiset Point) = ↑(stored T) + {p} := by
  intro n
  induction n with
  | zero =>
    intro path T sub fuel hlen hInv hnn hroot hEq hfuel
    obtain rfl : path = [] := List.length_eq_zero.mp hlen
    obtain ⟨fuel, rfl⟩ : ∃ f, fuel = f + 1 := ⟨fuel - 1, by omega⟩
    have h00 : nodeAt T [] = some T := by cases T <;> rfl
    simp only [rinsertAux, h00]
    obtain ⟨⟨r, t'⟩, hins⟩ := Option.isSome_iff_exists.mp
      (insert_fuel cp md md T p fuel hInv (by omega) (by omega))
    obtain ⟨hI', hb', hd', hok, -, hsp⟩ := (insert_props cp md fuel).1 T p r t' hInv hins
    obtain rfl : r = true := hok hroot
    rw [if_pos rfl] at hsp
    simp only [hins]
    rw [replaceAt_nil]
    refine ⟨t', rfl, hI', hb', hd', ?_⟩
    rw [Multiset.coe_eq_coe.mpr hsp, ← Multiset.coe_add]
    simp
  | succ n IH =>
    intro path T sub fuel hlen hInv hnn hroot hEq hfuel
    obtain ⟨fuel, rfl⟩ : ∃ f, fuel = f + 1 := ⟨fuel - 1, by omega⟩
    have hne : path ≠ [] := by
      intro hc
      subst hc
      simp at hlen
    have hIsub := nodeAt_inv path T sub hInv hEq
    simp only [rinsertAux, hEq]
    obtain ⟨⟨r, t'⟩, hins⟩ := Option.isSome_iff_exists.mp
      (insert_fuel cp md md sub p fuel hIsub (by omega) (by omega))
    obtain ⟨hI', hb', hd', hok, hfail, hsp⟩ := (insert_props cp md fuel).1 sub p r t' hIsub hins
    by_cases hcsub : sub.boundary.ContainsPoint p = true
    · obtain rfl : r = true := hok hcsub
      rw [if_pos rfl] at hsp
      simp only [hins]
      obtain ⟨hIrep, hbrep, hdrep, hsrep⟩ := replaceAt_spec path T sub t' hInv hEq hI' hb' hd'
      refine ⟨replaceAt T path t', rfl, hIrep, hbrep, hdrep, ?_⟩
      have key : (↑(stored (replaceAt T path t')) : Multiset Point) + ↑(stored sub)
          = (↑(stored T) + {p}) + ↑(stored sub) := by
        rw [hsrep, Multiset.coe_eq_coe.mpr hsp, ← Multiset.coe_add]
        simp only [← Multiset.coe_add, Multiset.coe_singleton]
        abel
      exact add_right_cancel key
    · have hcsub' : sub.boundary.ContainsPoint p = false := by
        cases hc : sub.boundary.ContainsPoint p with
        | false => rfl
        | true => exact absurd hc hcsub
      obtain ⟨hr, ht⟩ := hfail hcsub'
      subst hr
      rw [ht] at hins
      simp only [hins]
      rw [show path.isEmpty = false from by
        cases path with
        | nil => exact absurd rfl hne
        | cons _ _ => rfl]
      simp only [Bool.false_eq_true, if_false]
      rw [replaceAt_self path T sub hEq]
      obtain ⟨sub2, hsub2⟩ := Option.isSome_iff_exists.mp (nodeAt_dropLast path T (by simp [hEq]))
      exact IH path.dropLast T sub2 fuel (by simp [List.length_dropLast, hlen]) hInv hnn hroot
        hsub2 (by omega)

end Quadtree

namespace Quadtree

/-! ### Effect of `Update` -/

/-- When a multiset holds exactly one point of a given identity, any two
members carrying that identity coincide. -/
theorem countP_one_unique {s : Multiset Point} {pid : ℕ}
    (h : Multiset.countP (fun q : Point => q.pid = pid) s = 1)
    {x y : Point} (hx : x ∈ s) (hy : y ∈ s) (hxp : x.pid = pid) (hyp : y.pid = pid) :
    x = y := by
  have hcard : Multiset.card (s.filter fun q : Point => q.pid = pid) = 1 := by
    rw [← Multiset.countP_eq_card_filter]
    exact h
  obtain ⟨a, ha⟩ := Multiset.card_eq_one.mp hcard
  have hxa : x ∈ s.filter fun q : Point => q.pid = pid := Multiset.mem_filter.mpr ⟨hx, hxp⟩
  have hya : y ∈ s.filter fun q : Point => q.pid = pid := Multiset.mem_filter.mpr ⟨hy, hyp⟩
  rw [ha, Multiset.mem_singleton] at hxa hya
  rw [hxa, hya]

theorem findPidIdx_isSome {pid : ℕ} {ps : List Point} {x : Point}
    (hx : x ∈ ps) (hxp : x.pid = pid) :
    ∃ idx, findPidIdx pid ps = some idx := by
  cases h : findPidIdx pid ps with
  | some i => exact ⟨i, rfl⟩
  | none => exact absurd hxp (findPidIdx_none.mp h x hx)

theorem getD_mem {ps : List Point} {idx : ℕ} (h : idx < ps.length) :
    ps.getD idx default ∈ ps := by
  rw [List.getD_eq_getElem?_getD, List.getElem?_eq_getElem h, Option.getD_some]
  exact List.getElem_mem h

/-- `Update` on a subtree holding no point of the handle's identity: the
search fails and both the tree and the handle are untouched. -/
theorem updateAux_notfound (cp md : ℕ) (np : Point) :
    ∀ (sub T : QuadTree) (path : Path) (p : Point) (fuel k : ℕ),
      Inv md T = true → nodeAt T path = some sub →
      (∀ q ∈ stored sub, q.pid ≠ p.pid) →
      md ≤ sub.depth + k → k + 1 ≤ fuel →
      updateAux cp md fuel T path p np = some (false, T, p) := by
  intro sub
  induction sub with
  | leaf b d ps =>
    intro T path p fuel k hInv hEq hno hk hf
    obtain ⟨fuel, rfl⟩ : ∃ f, fuel = f + 1 := ⟨fuel - 1, by omega⟩
    simp only [updateAux, hEq]
    by_cases hc : b.ContainsPoint p = true
    · rw [if_neg (not_not_intro hc)]
      rw [findPidIdx_none.mpr (by simpa using hno)]
    · rw [if_pos hc]
  | node b d c0 c1 c2 c3 ih0 ih1 ih2 ih3 =>
    intro T path p fuel k hInv hEq hno hk hf
    obtain ⟨fuel, rfl⟩ : ∃ f, fuel = f + 1 := ⟨fuel - 1, by omega⟩
    have hIsub := nodeAt_inv path T _ hInv hEq
    obtain ⟨hdlt, hdc0, hdc1, hdc2, hdc3, -, -, -, -, -, -, -, -⟩ := inv_node_iff.mp hIsub
    simp only [depth_node] at hk
    simp only [updateAux, hEq]
    by_cases hc : b.ContainsPoint p = true
    · rw [if_neg (not_not_intro hc)]
      have hch := nodeAt_append path T hEq
      have h0 := hch 0
      rw [fin4_if0] at h0
      have h1 := hch 1
      rw [fin4_if1] at h1
      have h2 := hch 2
      rw [fin4_if2] at h2
      have h3 := hch 3
      rw [fin4_if3] at h3
      have e0 := ih0 T (path ++ [0]) p fuel (k - 1) hInv h0
        (fun q hq => hno q (by simp [hq])) (by rw [hdc0]; omega) (by omega)
      have e1 := ih1 T (path ++ [1]) p fuel (k - 1) hInv h1
        (fun q hq => hno q (by simp [hq])) (by rw [hdc1]; omega) (by omega)
      have e2 := ih2 T (path ++ [2]) p fuel (k - 1) hInv h2
        (fun q hq => hno q (by simp [hq])) (by rw [hdc2]; omega) (by omega)
      have e3 := ih3 T (path ++ [3]) p fuel (k - 1) hInv h3
        (fun q hq => hno q (by simp [hq])) (by rw [hdc3]; omega) (by omega)
      simp only [e0, e1, e2, e3]
    · rw [if_pos hc]

/-- `Update` on a whole tree holding no point of the handle's identity. -/
theorem updateAux_nopid (cp md : ℕ) (np : Point) :
    ∀ (T : QuadTree) (q : Path) (p₂ : Point) (f k : ℕ),
    Inv md T = true →
    Multiset.countP (fun w : Point => w.pid = p₂.pid) ↑(stored T) = 0 →
    md ≤ T.depth + q.length + k → k + 1 ≤ f →
    updateAux cp md f T q p₂ np = some (false, T, p₂) := by
  intro T q p₂ f k hI hz hdep hf
  cases hs : nodeAt T q with
  | none =>
    obtain ⟨g, rfl⟩ : ∃ g, f = g + 1 := ⟨f - 1, by omega⟩
    simp [updateAux, hs]
  | some sub =>
    have hd := depth_nodeAt q T (inv_depthOK hI) sub hs
    apply updateAux_notfound cp md np sub T q p₂ f k hI hs ?_ (by omega) hf
    intro z hz' hzp
    have hzT : z ∈ (↑(stored T) : Multiset Point) :=
      Multiset.mem_of_le (stored_nodeAt_le q T sub hs) (by simpa using hz')
    have : 0 < Multiset.countP (fun w : Point => w.pid = p₂.pid) ↑(stored T) :=
      Multiset.countP_pos_of_mem hzT hzp
    omega

end Quadtree

namespace Quadtree

/-- `Update` when the handle is stored (with a unique identity) under the
current subtree: the stored copy's coordinates become the new coordinates;
the call succeeds if the root boundary still contains them (in place when
the owning leaf does), and otherwise fails with the point removed. -/
theorem updateAux_found (cp md : ℕ) (np : Point) :
    ∀ (sub T : QuadTree) (path : Path) (p : Point) (fuel k : ℕ),
      Inv md T = true → nonneg T = true → nodeAt T path = some sub →
      p ∈ stored sub →
      Multiset.countP (fun q : Point => q.pid = p.pid) ↑(stored T) = 1 →
      md ≤ sub.depth + k → 4 * md + 5 + k ≤ fuel →
      ∃ r T',
        updateAux cp md fuel T path p np = some (r, T', ⟨np.x, np.y, p.pid⟩) ∧
        Inv md T' = true ∧ T'.boundary = T.boundary ∧ T'.depth = T.depth ∧
        (T.boundary.ContainsPoint np = true → r = true ∧
          (↑(stored T') : Multiset Point) + {p} =
            ↑(stored T) + {(⟨np.x, np.y, p.pid⟩ : Point)}) ∧
        (T.boundary.ContainsPoint np = false → r = false ∧
          (↑(stored T') : Multiset Point) + {p} = ↑(stored T)) ∧
        ∃ w b2 d2 qs idx,
          nodeAt T w = some (.leaf b2 d2 qs) ∧ findPidIdx p.pid qs = some idx ∧
          qs.getD idx default = p ∧
          (b2.ContainsPoint np = true → r = true ∧
            T' = replaceAt T w (.leaf b2 d2 (qs.set idx ⟨np.x, np.y, p.pid⟩))) := by
  intro sub
  induction sub with
  | leaf b d ps =>
    intro T path p fuel k hInv hnn hEq hmem hcnt hk hf
    obtain ⟨fuel, rfl⟩ : ∃ f, fuel = f + 1 := ⟨fuel - 1, by omega⟩
    have hIsub := nodeAt_inv path T _ hInv hEq
    have hmem' : p ∈ ps := by simpa using hmem
    have hcont : b.ContainsPoint p = true := (inv_leaf_iff.mp hIsub) p hmem'
    obtain ⟨idx, hidx⟩ := findPidIdx_isSome hmem' rfl
    obtain ⟨hlt, hpid⟩ := findPidIdx_some hidx
    have hsubT : (↑(stored (QuadTree.leaf b d ps)) : Multiset Point) ≤ ↑(stored T) :=
      stored_nodeAt_le path T _ hEq
    have hmemT : ∀ z ∈ ps, z ∈ (↑(stored T) : Multiset Point) := fun z hz =>
      Multiset.mem_of_le hsubT (by simpa using hz)
    have hgd : ps.getD idx default = p :=
      countP_one_unique hcnt (hmemT _ (getD_mem hlt)) (hmemT p hmem') hpid rfl
    have hplen : path.length ≤ md := path_length_le hInv hEq
    simp only [updateAux, hEq]
    rw [if_neg (not_not_intro hcont)]
    simp only [hidx]
    by_cases hcnp : b.ContainsPoint np = true
    · rw [if_pos hcnp]
      have hIleaf : Inv md (QuadTree.leaf b d (ps.set idx ⟨np.x, np.y, p.pid⟩)) = true := by
        rw [inv_leaf_iff]
        intro z hz
        rcases List.mem_or_eq_of_mem_set hz with hz' | rfl
        · exact (inv_leaf_iff.mp hIsub) z hz'
        · exact (containsPoint_coords b ⟨np.x, np.y, p.pid⟩ np rfl rfl).trans hcnp
      obtain ⟨hI', hb', hd', hs'⟩ := replaceAt_spec path T _ _ hInv hEq hIleaf rfl rfl
      simp only [stored_leaf] at hs'
      have hmul : (↑(stored (replaceAt T path
            (QuadTree.leaf b d (ps.set idx ⟨np.x, np.y, p.pid⟩)))) : Multiset Point) + {p} =
          ↑(stored T) + {(⟨np.x, np.y, p.pid⟩ : Point)} := by
        have hset := coe_set_multiset (⟨np.x, np.y, p.pid⟩ : Point) ps idx hlt
        rw [hgd] at hset
        have key : (↑(stored (replaceAt T path
              (QuadTree.leaf b d (ps.set idx ⟨np.x, np.y, p.pid⟩)))) : Multiset Point) +
              {p} + ↑ps =
            (↑(stored T) + {(⟨np.x, np.y, p.pid⟩ : Point)}) + ↑ps := by
          rw [show (↑(stored (replaceAt T path
              (QuadTree.leaf b d (ps.set idx ⟨np.x, np.y, p.pid⟩)))) : Multiset Point) +
              {p} + ↑ps
            = ↑(stored (replaceAt T path
              (QuadTree.leaf b d (ps.set idx ⟨np.x, np.y, p.pid⟩)))) + ↑ps + {p} from by abel,
            hs']
          rw [show (↑(stored T) : Multiset Point) + ↑(ps.set idx ⟨np.x, np.y, p.pid⟩) + {p}
            = ↑(stored T) + (↑(ps.set idx ⟨np.x, np.y, p.pid⟩) + {p}) from by abel, hset]
          abel
        exact add_right_cancel key
      refine ⟨true, _, rfl, hI', hb', hd', fun _ => ⟨rfl, hmul⟩, fun hout => ?_,
        path, b, d, ps, idx, hEq, hidx, hgd, fun _ => ⟨rfl, rfl⟩⟩
      exact absurd (nodeAt_contains_mono path T _ hInv hnn hEq hcnp) (by simp [hout])
    · rw [if_neg hcnp]
      have hIleaf : Inv md (QuadTree.leaf b d (swapRemove ps idx)) = true := by
        rw [inv_leaf_iff]
        intro z hz
        have hsw := swapRemove_perm hlt
        have hz1 : z ∈ (↑(swapRemove ps idx) : Multiset Point) := by simpa using hz
        have hz2 : z ∈ (↑ps : Multiset Point) := by
          rw [← hsw]
          exact Multiset.mem_add.mpr (Or.inl hz1)
        exact (inv_leaf_iff.mp hIsub) z (by simpa using hz2)
      obtain ⟨hI₁, hb₁, hd₁, hs₁⟩ := replaceAt_spec path T _ _ hInv hEq hIleaf rfl rfl
      simp only [stored_leaf] at hs₁
      have hnn₁ : nonneg (replaceAt T path (QuadTree.leaf b d (swapRemove ps idx))) = true := by
        rw [nonneg_iff, hb₁]
        exact nonneg_iff.mp hnn
      have hT₁stored : (↑(stored (replaceAt T path
            (QuadTree.leaf b d (swapRemove ps idx)))) : Multiset Point) + {p} =
          ↑(stored T) := by
        have hsw := swapRemove_perm hlt
        rw [hgd] at hsw
        have key : (↑(stored (replaceAt T path
              (QuadTree.leaf b d (swapRemove ps idx)))) : Multiset Point) + {p} +
              ↑(swapRemove ps idx) =
            ↑(stored T) + ↑(swapRemove ps idx) := by
          rw [show (↑(stored (replaceAt T path
              (QuadTree.leaf b d (swapRemove ps idx)))) : Multiset Point) + {p} +
              ↑(swapRemove ps idx)
            = ↑(stored (replaceAt T path (QuadTree.leaf b d (swapRemove ps idx)))) +
              (↑(swapRemove ps idx) + {p}) from by abel, hsw, hs₁]
        exact add_right_cancel key
      have hval₁ : nodeAt (replaceAt T path (QuadTree.leaf b d (swapRemove ps idx))) path
          = some (QuadTree.leaf b d (swapRemove ps idx)) := nodeAt_replaceAt path T _ _ hEq
      by_cases hroot : T.boundary.ContainsPoint np = true
      · have hrootp' : (replaceAt T path
            (QuadTree.leaf b d (swapRemove ps idx))).boundary.ContainsPoint
              ⟨np.x, np.y, p.pid⟩ = true := by
          rw [hb₁, containsPoint_coords T.boundary ⟨np.x, np.y, p.pid⟩ np rfl rfl]
          exact hroot
        obtain ⟨T₂, hrins, hI₂, hb₂, hd₂, hs₂⟩ := rinsert_succeed cp md path.length path
          (replaceAt T path (QuadTree.leaf b d (swapRemove ps idx))) _ fuel rfl hI₁ hnn₁
          hrootp' hval₁ (by omega)
        simp only [hrins]
        refine ⟨true, T₂, rfl, hI₂, hb₂.trans hb₁, hd₂.trans hd₁, fun _ => ⟨rfl, ?_⟩,
          fun hout => absurd hroot (by simp [hout]),
          path, b, d, ps, idx, hEq, hidx, hgd, fun hcnp' => absurd hcnp' (by simp [hcnp])⟩
        rw [hs₂, show (↑(stored (replaceAt T path
            (QuadTree.leaf b d (swapRemove ps idx)))) : Multiset Point) +
            {(⟨np.x, np.y, p.pid⟩ : Point)} + {p}
          = ↑(stored (replaceAt T path (QuadTree.leaf b d (swapRemove ps idx)))) + {p} +
            {(⟨np.x, np.y, p.pid⟩ : Point)} from by abel, hT₁stored]
      · have hout : T.boundary.ContainsPoint np = false := by
          cases hc2 : T.boundary.ContainsPoint np with
          | false => rfl
          | true => exact absurd hc2 hroot
        have hrootp' : (replaceAt T path
            (QuadTree.leaf b d (swapRemove ps idx))).boundary.ContainsPoint
              ⟨np.x, np.y, p.pid⟩ = false := by
          rw [hb₁, containsPoint_coords T.boundary ⟨np.x, np.y, p.pid⟩ np rfl rfl]
          exact hout
        have hfail := rinsert_fail cp md path.length path
          (replaceAt T path (QuadTree.leaf b d (swapRemove ps idx))) _ fuel rfl hI₁ hnn₁
          hrootp' hval₁ (by omega)
        simp only [hfail]
        exact ⟨false, _, rfl, hI₁, hb₁, hd₁, fun hin => absurd hin hroot,
          fun _ => ⟨rfl, hT₁stored⟩,
          path, b, d, ps, idx, hEq, hidx, hgd, fun hcnp' => absurd hcnp' (by simp [hcnp])⟩
  | node b d c0 c1 c2 c3 ih0 ih1 ih2 ih3 =>
    intro T path p fuel k hInv hnn hEq hmem hcnt hk hf
    obtain ⟨fuel, rfl⟩ : ∃ f, fuel = f + 1 := ⟨fuel - 1, by omega⟩
    have hIsub := nodeAt_inv path T _ hInv hEq
    have hnsub := nodeAt_nonneg path T _ hInv hnn hEq
    obtain ⟨hdlt, hdc0, hdc1, hdc2, hdc3, -, -, -, -, hI0c, hI1c, hI2c, hI3c⟩ :=
      inv_node_iff.mp hIsub
    simp only [depth_node] at hk
    have hk1 : 1 ≤ k := by omega
    have hdT := depth_nodeAt path T (inv_depthOK hInv) _ hEq
    simp only [depth_node] at hdT
    have hcont : b.ContainsPoint p = true := by
      have := stored_contains _ hIsub hnsub p hmem
      simpa using this
    have hch := nodeAt_append path T hEq
    have hc0 := hch 0
    rw [fin4_if0] at hc0
    have hc1 := hch 1
    rw [fin4_if1] at hc1
    have hc2 := hch 2
    rw [fin4_if2] at hc2
    have hc3 := hch 3
    rw [fin4_if3] at hc3
    have hsubT : (↑(stored (QuadTree.node b d c0 c1 c2 c3)) : Multiset Point) ≤ ↑(stored T) :=
      stored_nodeAt_le path T _ hEq
    have hsum : Multiset.countP (fun q : Point => q.pid = p.pid) ↑(stored c0)
        + Multiset.countP (fun q : Point => q.pid = p.pid) ↑(stored c1)
        + Multiset.countP (fun q : Point => q.pid = p.pid) ↑(stored c2)
        + Multiset.countP (fun q : Point => q.pid = p.pid) ↑(stored c3) ≤ 1 := by
      have hle : Multiset.countP (fun q : Point => q.pid = p.pid)
          ↑(stored (QuadTree.node b d c0 c1 c2 c3)) ≤ 1 := by
        rw [← hcnt]
        exact Multiset.countP_le_of_le _ hsubT
      rw [show (↑(stored (QuadTree.node b d c0 c1 c2 c3)) : Multiset Point)
        = ↑(stored c0) + ↑(stored c1) + ↑(stored c2) + ↑(stored c3) from by
          simp only [stored_node, ← Multiset.coe_add]] at hle
      simp only [Multiset.countP_add] at hle
      exact hle
    simp only [updateAux, hEq]
    rw [if_neg (not_not_intro hcont)]
    simp only [stored_node, List.append_assoc, List.mem_append] at hmem
    rcases hmem with hm | hm | hm | hm
    · obtain ⟨r, T', heq0, hI', hb', hd', hinC, houtC, w, b2, d2, qs, idx,
          hw, hfidx, hgd, hstruct⟩ :=
        ih0 T (path ++ [0]) p fuel (k - 1) hInv hnn hc0 hm hcnt (by rw [hdc0]; omega) (by omega)
      cases r with
      | true =>
        simp only [heq0]
        exact ⟨true, T', rfl, hI', hb', hd', hinC, houtC,
          w, b2, d2, qs, idx, hw, hfidx, hgd, hstruct⟩
      | false =>
        have hout : T.boundary.ContainsPoint np = false := by
          cases hc : T.boundary.ContainsPoint np with
          | false => rfl
          | true => exact absurd (hinC hc).1 (by simp)
        have hcnt' : Multiset.countP (fun q : Point => q.pid = p.pid) ↑(stored T') = 0 := by
          have hca := congrArg (Multiset.countP fun q : Point => q.pid = p.pid) (houtC hout).2
          rw [Multiset.countP_add] at hca
          have hp1 : Multiset.countP (fun w2 : Point => w2.pid = p.pid) {p} = 1 := by
            rw [show ({p} : Multiset Point) = p ::ₘ 0 from rfl, Multiset.countP_cons]
            simp
          omega
        have e1 := updateAux_nopid cp md np T' (path ++ [1]) ⟨np.x, np.y, p.pid⟩ fuel (k - 1)
          hI' hcnt' (by rw [hd']; simp only [List.length_append, List.length_cons,
            List.length_nil]; omega) (by omega)
        have e2 := updateAux_nopid cp md np T' (path ++ [2]) ⟨np.x, np.y, p.pid⟩ fuel (k - 1)
          hI' hcnt' (by rw [hd']; simp only [List.length_append, List.length_cons,
            List.length_nil]; omega) (by omega)
        have e3 := updateAux_nopid cp md np T' (path ++ [3]) ⟨np.x, np.y, p.pid⟩ fuel (k - 1)
          hI' hcnt' (by rw [hd']; simp only [List.length_append, List.length_cons,
            List.length_nil]; omega) (by omega)
        simp only [heq0, e1, e2, e3]
        exact ⟨false, T', rfl, hI', hb', hd', hinC, houtC,
          w, b2, d2, qs, idx, hw, hfidx, hgd, hstruct⟩
    · have h1pos : 0 < Multiset.countP (fun w2 : Point => w2.pid = p.pid) ↑(stored c1) :=
        Multiset.countP_pos_of_mem (by simpa using hm) rfl
      have hz0 : ∀ q ∈ stored c0, q.pid ≠ p.pid := by
        intro q hq hqp
        have h1 : 0 < Multiset.countP (fun w2 : Point => w2.pid = p.pid) ↑(stored c0) :=
          Multiset.countP_pos_of_mem (by simpa using hq) hqp
        omega
      have e0 := updateAux_notfound cp md np c0 T (path ++ [0]) p fuel (k - 1) hInv hc0 hz0
        (by rw [hdc0]; omega) (by omega)
      obtain ⟨r, T', heq1, hI', hb', hd', hinC, houtC, w, b2, d2, qs, idx,
          hw, hfidx, hgd, hstruct⟩ :=
        ih1 T (path ++ [1]) p fuel (k - 1) hInv hnn hc1 hm hcnt (by rw [hdc1]; omega) (by omega)
      cases r with
      | true =>
        simp only [e0, heq1]
        exact ⟨true, T', rfl, hI', hb', hd', hinC, houtC,
          w, b2, d2, qs, idx, hw, hfidx, hgd, hstruct⟩
      | false =>
        have hout : T.boundary.ContainsPoint np = false := by
          cases hc : T.boundary.ContainsPoint np with
          | false => rfl
          | true => exact absurd (hinC hc).1 (by simp)
        have hcnt' : Multiset.countP (fun q : Point => q.pid = p.pid) ↑(stored T') = 0 := by
          have hca := congrArg (Multiset.countP fun q : Point => q.pid = p.pid) (houtC hout).2
          rw [Multiset.countP_add] at hca
          have hp1 : Multiset.countP (fun w2 : Point => w2.pid = p.pid) {p} = 1 := by
            rw [show ({p} : Multiset Point) = p ::ₘ 0 from rfl, Multiset.countP_cons]
            simp
          omega
        have e2 := updateAux_nopid cp md np T' (path ++ [2]) ⟨np.x, np.y, p.pid⟩ fuel (k - 1)
          hI' hcnt' (by rw [hd']; simp only [List.length_append, List.length_cons,
            List.length_nil]; omega) (by omega)
        have e3 := updateAux_nopid cp md np T' (path ++ [3]) ⟨np.x, np.y, p.pid⟩ fuel (k - 1)
          hI' hcnt' (by rw [hd']; simp only [List.length_append, List.length_cons,
            List.length_nil]; omega) (by omega)
        simp only [e0, heq1, e2, e3]
        exact ⟨false, T', rfl, hI', hb', hd', hinC, houtC,
          w, b2, d2, qs, idx, hw, hfidx, hgd, hstruct⟩
    · have h2pos : 0 < Multiset.countP (fun w2 : Point => w2.pid = p.pid) ↑(stored c2) :=
        Multiset.countP_pos_of_mem (by simpa using hm) rfl
      have hz0 : ∀ q ∈ stored c0, q.pid ≠ p.pid := by
        intro q hq hqp
        have h1 : 0 < Multiset.countP (fun w2 : Point => w2.pid = p.pid) ↑(stored c0) :=
          Multiset.countP_pos_of_mem (by simpa using hq) hqp
        omega
      have hz1 : ∀ q ∈ stored c1, q.pid ≠ p.pid := by
        intro q hq hqp
        have h1 : 0 < Multiset.countP (fun w2 : Point => w2.pid = p.pid) ↑(stored c1) :=
          Multiset.countP_pos_of_mem (by simpa using hq) hqp
        omega
      have e0 := updateAux_notfound cp md np c0 T (path ++ [0]) p fuel (k - 1) hInv hc0 hz0
        (by rw [hdc0]; omega) (by omega)
      have e1 := updateAux_notfound cp md np c1 T (path ++ [1]) p fuel (k - 1) hInv hc1 hz1
        (by rw [hdc1]; omega) (by omega)
      obtain ⟨r, T', heq2, hI', hb', hd', hinC, houtC, w, b2, d2, qs, idx,
          hw, hfidx, hgd, hstruct⟩ :=
        ih2 T (path ++ [2]) p fuel (k - 1) hInv hnn hc2 hm hcnt (by rw [hdc2]; omega) (by omega)
      cases r with
      | true =>
        simp only [e0, e1, heq2]
        exact ⟨true, T', rfl, hI', hb', hd', hinC, houtC,
          w, b2, d2, qs, idx, hw, hfidx, hgd, hstruct⟩
      | false =>
        have hout : T.boundary.ContainsPoint np = false := by
          cases hc : T.boundary.ContainsPoint np with
          | false => rfl
          | true => exact absurd (hinC hc).1 (by simp)
        have hcnt' : Multiset.countP (fun q : Point => q.pid = p.pid) ↑(stored T') = 0 := by
          have hca := congrArg (Multiset.countP fun q : Point => q.pid = p.pid) (houtC hout).2
          rw [Multiset.countP_add] at hca
          have hp1 : Multiset.countP (fun w2 : Point => w2.pid = p.pid) {p} = 1 := by
            rw [show ({p} : Multiset Point) = p ::ₘ 0 from rfl, Multiset.countP_cons]
            simp
          omega
        have e3 := updateAux_nopid cp md np T' (path ++ [3]) ⟨np.x, np.y, p.pid⟩ fuel (k - 1)
          hI' hcnt' (by rw [hd']; simp only [List.length_append, List.length_cons,
            List.length_nil]; omega) (by omega)
        simp only [e0, e1, heq2, e3]
        exact ⟨false, T', rfl, hI', hb', hd', hinC, houtC,
          w, b2, d2, qs, idx, hw, hfidx, hgd, hstruct⟩
    · have h3pos : 0 < Multiset.countP (fun w2 : Point => w2.pid = p.pid) ↑(stored c3) :=
        Multiset.countP_pos_of_mem (by simpa using hm) rfl
      have hz0 : ∀ q ∈ stored c0, q.pid ≠ p.pid := by
        intro q hq hqp
        have h1 : 0 < Multiset.countP (fun w2 : Point => w2.pid = p.pid) ↑(stored c0) :=
          Multiset.countP_pos_of_mem (by simpa using hq) hqp
        omega
      have hz1 : ∀ q ∈ stored c1, q.pid ≠ p.pid := by
        intro q hq hqp
        have h1 : 0 < Multiset.countP (fun w2 : Point => w2.pid = p.pid) ↑(stored c1) :=
          Multiset.countP_pos_of_mem (by simpa using hq) hqp
        omega
      have hz2 : ∀ q ∈ stored c2, q.pid ≠ p.pid := by
        intro q hq hqp
        have h1 : 0 < Multiset.countP (fun w2 : Point => w2.pid = p.pid) ↑(stored c2) :=
          Multiset.countP_pos_of_mem (by simpa using hq) hqp
        omega
      have e0 := updateAux_notfound cp md np c0 T (path ++ [0]) p fuel (k - 1) hInv hc0 hz0
        (by rw [hdc0]; omega) (by omega)
      have e1 := updateAux_notfound cp md np c1 T (path ++ [1]) p fuel (k - 1) hInv hc1 hz1
        (by rw [hdc1]; omega) (by omega)
      have e2 := updateAux_notfound cp md np c2 T (path ++ [2]) p fuel (k - 1) hInv hc2 hz2
        (by rw [hdc2]; omega) (by omega)
      obtain ⟨r, T', heq3, hI', hb', hd', hinC, houtC, w, b2, d2, qs, idx,
          hw, hfidx, hgd, hstruct⟩ :=
        ih3 T (path ++ [3]) p fuel (k - 1) hInv hnn hc3 hm hcnt (by rw [hdc3]; omega) (by omega)
      cases r with
      | true =>
        simp only [e0, e1, e2, heq3]
        exact ⟨true, T', rfl, hI', hb', hd', hinC, houtC,
          w, b2, d2, qs, idx, hw, hfidx, hgd, hstruct⟩
      | false =>
        simp only [e0, e1, e2, heq3]
        exact ⟨false, T', rfl, hI', hb', hd', hinC, houtC,
          w, b2, d2, qs, idx, hw, hfidx, hgd, hstruct⟩

end Quadtree

namespace Quadtree

/-- C10: when `Update` finds a (uniquely) stored point but the new
coordinates lie outside the root's boundary, it returns `false` with the
handle's coordinates already mutated to the new ones and the point removed
from its leaf: afterwards no stored point carries that identity. -/
theorem update_out_of_root_drops_point (cp md fuel : ℕ) (t : QuadTree) (p np : Point)
    (hInv : Inv md t = true) (hnn : nonneg t = true)
    (hmem : p ∈ stored t)
    (hcnt : Multiset.countP (fun q : Point => q.pid = p.pid) ↑(stored t) = 1)
    (hout : t.boundary.ContainsPoint np = false)
    (hfuel : 5 * md + 5 ≤ fuel) :
    ∃ t', updateAux cp md fuel t [] p np = some (false, t', ⟨np.x, np.y, p.pid⟩) ∧
      Update cp md fuel t p np = some (false, t') ∧
      (↑(stored t') : Multiset Point) + {p} = ↑(stored t) ∧
      ∀ q ∈ stored t', q.pid ≠ p.pid := by
  obtain ⟨r, t', heq, hI', hb', hd', hinC, houtC, -⟩ :=
    updateAux_found cp md np t t [] p fuel md hInv hnn (by cases t <;> rfl) hmem hcnt
      (by omega) (by omega)
  obtain ⟨hr, hst⟩ := houtC hout
  subst hr
  refine ⟨t', heq, ?_, hst, ?_⟩
  · unfold Update
    rw [heq]
    rfl
  · intro q hq hqp
    have hca := congrArg (Multiset.countP fun z : Point => z.pid = p.pid) hst
    rw [Multiset.countP_add] at hca
    have hp1 : Multiset.countP (fun w : Point => w.pid = p.pid) {p} = 1 := by
      rw [show ({p} : Multiset Point) = p ::ₘ 0 from rfl, Multiset.countP_cons]
      simp
    have hpos : 0 < Multiset.countP (fun w : Point => w.pid = p.pid) ↑(stored t') :=
      Multiset.countP_pos_of_mem (by simpa using hq) hqp
    omega

theorem update_out_of_root_drops_point_witness :
    (⟨⟨0,0,0⟩,⟨4,4,0⟩⟩ : AABB).ContainsPoint ⟨50,50,0⟩ = false ∧
    ∃ t', updateAux 8 6 35 (QuadTree.leaf ⟨⟨0,0,0⟩,⟨4,4,0⟩⟩ 0 [⟨1,1,7⟩]) [] ⟨1,1,7⟩ ⟨50,50,0⟩ =
        some (false, t', ⟨50,50,7⟩) ∧
      Update 8 6 35 (QuadTree.leaf ⟨⟨0,0,0⟩,⟨4,4,0⟩⟩ 0 [⟨1,1,7⟩]) ⟨1,1,7⟩ ⟨50,50,0⟩ =
        some (false, t') ∧
      (↑(stored t') : Multiset Point) + {(⟨1,1,7⟩ : Point)} =
        ↑(stored (QuadTree.leaf ⟨⟨0,0,0⟩,⟨4,4,0⟩⟩ 0 [⟨1,1,7⟩])) ∧
      ∀ q ∈ stored t', q.pid ≠ (⟨1,1,7⟩ : Point).pid :=
  ⟨by decide,
    update_out_of_root_drops_point 8 6 35 (QuadTree.leaf ⟨⟨0,0,0⟩,⟨4,4,0⟩⟩ 0 [⟨1,1,7⟩])
      ⟨1,1,7⟩ ⟨50,50,0⟩ (by decide) (by decide) (by decide) (by decide) (by decide) (by decide)⟩

/-- C8 counterexample: the claim promises that a point moved outside its
leaf is relocated so that a subsequent `Search` finds it under its new
coordinates; but when the new coordinates fall outside the root's boundary
`RInsert` fails everywhere, `Update` returns `false`, and `Search` over a
box around the new coordinates finds nothing. -/
theorem update_relocation_fails_outside_root :
    ((Update 8 6 30 (QuadTree.leaf ⟨⟨0,0,0⟩,⟨1,1,0⟩⟩ 0 [⟨0,0,5⟩]) ⟨0,0,5⟩ ⟨9,9,0⟩).map
      (fun r => (r.1, Search r.2 ⟨⟨9,9,0⟩,⟨1,1,0⟩⟩))) = some (false, []) := by
  decide

/-- C8 (amended): for a (uniquely) stored point found by `Update` whose new
coordinates remain inside the root's boundary, `Update` returns `true`, the
unique point with that identity now carries the new coordinates (in place —
no structural change — whenever the owning leaf's boundary still contains
them), and `Search` finds it exactly in the boxes containing the new
coordinates, never under the old ones.  (When the new coordinates leave the
root's boundary the point is dropped instead; see the C10 theorem.) -/
theorem update_relocates_point (cp md fuel : ℕ) (t : QuadTree) (p np : Point)
    (hInv : Inv md t = true) (hnn : nonneg t = true)
    (hmem : p ∈ stored t)
    (hcnt : Multiset.countP (fun q : Point => q.pid = p.pid) ↑(stored t) = 1)
    (hin : t.boundary.ContainsPoint np = true)
    (hfuel : 5 * md + 5 ≤ fuel) :
    ∃ t', Update cp md fuel t p np = some (true, t') ∧ Inv md t' = true ∧
      (↑(stored t') : Multiset Point) + {p} =
        ↑(stored t) + {(⟨np.x, np.y, p.pid⟩ : Point)} ∧
      (∃ w b2 d2 qs idx,
        nodeAt t w = some (.leaf b2 d2 qs) ∧ findPidIdx p.pid qs = some idx ∧
        qs.getD idx default = p ∧
        (b2.ContainsPoint np = true →
          t' = replaceAt t w (.leaf b2 d2 (qs.set idx ⟨np.x, np.y, p.pid⟩)))) ∧
      ∀ a : AABB,
        ((⟨np.x, np.y, p.pid⟩ : Point) ∈ Search t' a ↔
          a.ContainsPoint ⟨np.x, np.y, p.pid⟩ = true) ∧
        ∀ z ∈ Search t' a, z.pid = p.pid → z = ⟨np.x, np.y, p.pid⟩ := by
  obtain ⟨r, t', heq, hI', hb', hd', hinC, houtC, w, b2, d2, qs, idx, hw, hfidx, hgd, hstruct⟩ :=
    updateAux_found cp md np t t [] p fuel md hInv hnn (by cases t <;> rfl) hmem hcnt
      (by omega) (by omega)
  obtain ⟨hr, hst⟩ := hinC hin
  subst hr
  have hnn' : nonneg t' = true := by
    rw [nonneg_iff, hb']
    exact nonneg_iff.mp hnn
  have hfilt : Multiset.filter (fun z : Point => z.pid = p.pid) ↑(stored t)
      = ({p} : Multiset Point) := by
    have hcard : Multiset.card (Multiset.filter (fun z : Point => z.pid = p.pid)
        ↑(stored t)) = 1 := by
      rw [← Multiset.countP_eq_card_filter]
      exact hcnt
    obtain ⟨a, ha⟩ := Multiset.card_eq_one.mp hcard
    have hain : a ∈ Multiset.filter (fun z : Point => z.pid = p.pid) ↑(stored t) := by
      rw [ha]
      exact Multiset.mem_singleton_self a
    obtain ⟨haT, hap⟩ := Multiset.mem_filter.mp hain
    have haeq : a = p := countP_one_unique hcnt haT (by simpa using hmem) hap rfl
    rw [ha, haeq]
  have hfilt' : Multiset.filter (fun z : Point => z.pid = p.pid) ↑(stored t')
      = ({(⟨np.x, np.y, p.pid⟩ : Point)} : Multiset Point) := by
    have hca := congrArg (Multiset.filter fun z : Point => z.pid = p.pid) hst
    rw [Multiset.filter_add, Multiset.filter_add, hfilt] at hca
    rw [show Multiset.filter (fun z : Point => z.pid = p.pid) {p} = ({p} : Multiset Point)
      from by rw [Multiset.filter_singleton]; simp] at hca
    rw [show Multiset.filter (fun z : Point => z.pid = p.pid)
        {(⟨np.x, np.y, p.pid⟩ : Point)} = ({(⟨np.x, np.y, p.pid⟩ : Point)} : Multiset Point)
      from by rw [Multiset.filter_singleton]; simp] at hca
    have hca2 : Multiset.filter (fun z : Point => z.pid = p.pid) ↑(stored t') + {p}
        = ({(⟨np.x, np.y, p.pid⟩ : Point)} : Multiset Point) + {p} := by
      rw [hca]
      abel
    exact add_right_cancel hca2
  have hp'mem : (⟨np.x, np.y, p.pid⟩ : Point) ∈ stored t' := by
    have h1 : (⟨np.x, np.y, p.pid⟩ : Point) ∈
        Multiset.filter (fun z : Point => z.pid = p.pid) ↑(stored t') := by
      rw [hfilt']
      exact Multiset.mem_singleton_self _
    have h2 := (Multiset.mem_filter.mp h1).1
    simpa using h2
  refine ⟨t', ?_, hI', hst, ⟨w, b2, d2, qs, idx, hw, hfidx, hgd,
    fun hb2 => (hstruct hb2).2⟩, ?_⟩
  · unfold Update
    rw [heq]
    rfl
  · intro a
    rw [search_eq_filter t' a hI' hnn']
    refine ⟨⟨fun hmm => (List.mem_filter.mp hmm).2, fun hbox =>
      List.mem_filter.mpr ⟨hp'mem, hbox⟩⟩, ?_⟩
    intro z hz hzp
    have hz1 : z ∈ stored t' := List.mem_of_mem_filter hz
    have hz2 : z ∈ Multiset.filter (fun w2 : Point => w2.pid = p.pid) ↑(stored t') :=
      Multiset.mem_filter.mpr ⟨by simpa using hz1, hzp⟩
    rw [hfilt'] at hz2
    simpa using hz2

theorem update_relocates_point_witness :
    (⟨⟨0,0,0⟩,⟨4,4,0⟩⟩ : AABB).ContainsPoint ⟨2,-2,0⟩ = true ∧
    ∃ t', Update 8 6 35 (QuadTree.leaf ⟨⟨0,0,0⟩,⟨4,4,0⟩⟩ 0 [⟨1,1,7⟩]) ⟨1,1,7⟩ ⟨2,-2,0⟩ =
        some (true, t') ∧ Inv 6 t' = true ∧
      (↑(stored t') : Multiset Point) + {(⟨1,1,7⟩ : Point)} =
        ↑(stored (QuadTree.leaf ⟨⟨0,0,0⟩,⟨4,4,0⟩⟩ 0 [⟨1,1,7⟩])) + {(⟨2,-2,7⟩ : Point)} ∧
      (∃ w b2 d2 qs idx,
        nodeAt (QuadTree.leaf ⟨⟨0,0,0⟩,⟨4,4,0⟩⟩ 0 [⟨1,1,7⟩]) w = some (.leaf b2 d2 qs) ∧
        findPidIdx 7 qs = some idx ∧
        qs.getD idx default = ⟨1,1,7⟩ ∧
        (b2.ContainsPoint ⟨2,-2,0⟩ = true →
          t' = replaceAt (QuadTree.leaf ⟨⟨0,0,0⟩,⟨4,4,0⟩⟩ 0 [⟨1,1,7⟩]) w
            (.leaf b2 d2 (qs.set idx ⟨2,-2,7⟩)))) ∧
      ∀ a : AABB,
        ((⟨2,-2,7⟩ : Point) ∈ Search t' a ↔ a.ContainsPoint ⟨2,-2,7⟩ = true) ∧
        ∀ z ∈ Search t' a, z.pid = 7 → z = ⟨2,-2,7⟩ :=
  ⟨by decide,
    update_relocates_point 8 6 35 (QuadTree.leaf ⟨⟨0,0,0⟩,⟨4,4,0⟩⟩ 0 [⟨1,1,7⟩])
      ⟨1,1,7⟩ ⟨2,-2,0⟩ (by decide) (by decide) (by decide) (by decide) (by decide) (by decide)⟩

end Quadtree

namespace Quadtree

/-! ### The k-nearest search: matched points per visited node -/

/-- The points collected by `knearest` at the node addressed by a path:
those of its `points` slice inside the query box and passing the filter. -/
def matchesAt (T : QuadTree) (a : AABB) (fn : Option (Point → Bool)) (q : Path) : List Point :=
  match nodeAt T q with
  | some s => s.points.filter fun p => a.ContainsPoint p && passesFilter fn p
  | none => []

/-- Matched points over a list of visited nodes. -/
def Mlist (T : QuadTree) (a : AABB) (fn : Option (Point → Bool)) (news : List Path) :
    List Point :=
  (news.map (matchesAt T a fn)).flatten

/-- Does the subtree contain a leaf reached by the descent of
`kNearestRoot` (every boundary on the way down intersecting the query)? -/
def hitsLeaf (a : AABB) : QuadTree → Bool
  | .leaf b _ _ => b.Intersect a
  | .node b _ c0 c1 c2 c3 =>
    b.Intersect a && (hitsLeaf a c0 || hitsLeaf a c1 || hitsLeaf a c2 || hitsLeaf a c3)

theorem Mlist_nil (T : QuadTree) (a : AABB) (fn : Option (Point → Bool)) :
    Mlist T a fn [] = [] := rfl

theorem Mlist_cons (T : QuadTree) (a : AABB) (fn : Option (Point → Bool)) (q : Path)
    (l : List Path) :
    Mlist T a fn (q :: l) = matchesAt T a fn q ++ Mlist T a fn l := rfl

theorem Mlist_append (T : QuadTree) (a : AABB) (fn : Option (Point → Bool))
    (u v : List Path) :
    Mlist T a fn (u ++ v) = Mlist T a fn u ++ Mlist T a fn v := by
  simp [Mlist]

/-! ### Sorting and truncation -/

theorem sortByDist_perm (c : Point) (l : List Point) : (sortByDist c l).Perm l :=
  List.perm_insertionSort _ l

theorem sortByDist_sorted (c : Point) (l : List Point) :
    (sortByDist c l).Pairwise fun p q => distSq p c ≤ distSq q c := by
  haveI : IsTotal Point fun p q => distSq p c ≤ distSq q c := ⟨fun x y => le_total _ _⟩
  haveI : IsTrans Point fun p q => distSq p c ≤ distSq q c :=
    ⟨fun x y z h1 h2 => le_trans h1 h2⟩
  exact List.sorted_insertionSort _ l

/-- The sort-and-truncate tail of `knearest`, packaged: the result is a
sub-multiset of the collected points, sorted by distance, of length
`min i (collected)`. -/
theorem final_step_pack {i : ℤ} (hi : 0 ≤ i) (c : Point) (l : List Point) (vp : List Path) :
    ∃ L, (if ((sortByDist c l).length : ℤ) > i then
        match trunc i (sortByDist c l) with
        | none => none
        | some r => some (r, vp)
      else some (sortByDist c l, vp)) = some (L, vp) ∧
      (↑L : Multiset Point) ≤ ↑l ∧
      (L.length : ℤ) = min i (l.length : ℤ) ∧
      L.Pairwise fun p q => distSq p c ≤ distSq q c := by
  have hperm : (sortByDist c l).Perm l := sortByDist_perm c l
  have hlen : (sortByDist c l).length = l.length := hperm.length_eq
  have hsort := sortByDist_sorted c l
  by_cases hgt : ((sortByDist c l).length : ℤ) > i
  · rw [if_pos hgt, trunc_total hi]
    refine ⟨(sortByDist c l).take i.toNat, rfl, ?_, ?_, ?_⟩
    · calc (↑((sortByDist c l).take i.toNat) : Multiset Point)
          ≤ ↑(sortByDist c l) := Multiset.coe_le.mpr (List.take_sublist _ _).subperm
        _ = ↑l := Multiset.coe_eq_coe.mpr hperm
    · rw [List.length_take, Nat.cast_min, Int.toNat_of_nonneg hi, hlen]
    · exact List.Pairwise.sublist (List.take_sublist _ _) hsort
  · rw [if_neg hgt]
    refine ⟨sortByDist c l, rfl, le_of_eq (Multiset.coe_eq_coe.mpr hperm), ?_, hsort⟩
    rw [hlen] at hgt ⊢
    omega

/-- Truncating an already packaged result when it reached the requested
length. -/
theorem take_pack {i : ℤ} {c : Point} {L M : List Point} (hi : 0 ≤ i)
    (hle : (↑L : Multiset Point) ≤ ↑M)
    (hlen : (L.length : ℤ) = min i (M.length : ℤ))
    (hsort : L.Pairwise fun p q => distSq p c ≤ distSq q c)
    (hge : i ≤ (L.length : ℤ)) :
    (↑(L.take i.toNat) : Multiset Point) ≤ ↑M ∧
    ((L.take i.toNat).length : ℤ) = min i (M.length : ℤ) ∧
    (L.take i.toNat).Pairwise fun p q => distSq p c ≤ distSq q c := by
  refine ⟨le_trans (Multiset.coe_le.mpr (List.take_sublist _ _).subperm) hle, ?_,
    List.Pairwise.sublist (List.take_sublist _ _) hsort⟩
  rw [List.length_take, Nat.cast_min, Int.toNat_of_nonneg hi]
  omega

end Quadtree

namespace Quadtree

/-! ### Bookkeeping for the expanding search -/

/-- After a node is processed by `knearest`, its parent and children are in
the visited list (when its boundary intersects the query). -/
def nbrOK (T : QuadTree) (a : AABB) (w : List Path) (q : Path) : Prop :=
  ∀ s, nodeAt T q = some s → s.boundary.Intersect a = true →
    (q ≠ [] → q.dropLast ∈ w) ∧
    (∀ b d c0 c1 c2 c3, s = QuadTree.node b d c0 c1 c2 c3 → ∀ j : Fin 4, q ++ [j] ∈ w)

theorem nbrOK_mono {T : QuadTree} {a : AABB} {w w' : List Path} {q : Path}
    (hsub : ∀ x ∈ w, x ∈ w') (h : nbrOK T a w q) : nbrOK T a w' q := by
  intro s hs hint
  obtain ⟨h1, h2⟩ := h s hs hint
  exact ⟨fun hne => hsub _ (h1 hne),
    fun b d c0 c1 c2 c3 he j => hsub _ (h2 b d c0 c1 c2 c3 he j)⟩

/-- Intermediate state of the concatenated results: a sub-multiset of the
matched points holding at least `min i` of them. -/
def prePack (L M : List Point) (i : ℤ) : Prop :=
  (↑L : Multiset Point) ≤ ↑M ∧ min i (M.length : ℤ) ≤ (L.length : ℤ)

theorem prePack_refl (L : List Point) (i : ℤ) : prePack L L i :=
  ⟨le_rfl, min_le_right _ _⟩

theorem prePack_of_pack {L M : List Point} {i : ℤ}
    (h1 : (↑L : Multiset Point) ≤ ↑M) (h2 : (L.length : ℤ) = min i (M.length : ℤ)) :
    prePack L M i :=
  ⟨h1, le_of_eq h2.symm⟩

theorem prePack_append {i : ℤ} {L1 M1 L2 M2 : List Point}
    (h1 : prePack L1 M1 i) (h2 : prePack L2 M2 i) :
    prePack (L1 ++ L2) (M1 ++ M2) i := by
  obtain ⟨hm1, hl1⟩ := h1
  obtain ⟨hm2, hl2⟩ := h2
  constructor
  · rw [← Multiset.coe_add, ← Multiset.coe_add]
    exact add_le_add hm1 hm2
  · have c1 : L1.length ≤ M1.length := by simpa using Multiset.card_le_card hm1
    have c2 : L2.length ≤ M2.length := by simpa using Multiset.card_le_card hm2
    simp only [List.length_append]
    push_cast
    omega

theorem prePack_congr {i : ℤ} {L M M' : List Point} (h : prePack L M i)
    (hM : (↑M : Multiset Point) = ↑M') : prePack L M' i := by
  obtain ⟨hm, hl⟩ := h
  have hlen : M.length = M'.length := by
    have := congrArg Multiset.card hM
    simpa using this
  exact ⟨hM ▸ hm, by rw [← hlen]; exact hl⟩

theorem pack_of_prePack {i : ℤ} {l M L : List Point}
    (hpre : prePack l M i)
    (hL1 : (↑L : Multiset Point) ≤ ↑l) (hL2 : (L.length : ℤ) = min i (l.length : ℤ)) :
    (↑L : Multiset Point) ≤ ↑M ∧ (L.length : ℤ) = min i (M.length : ℤ) := by
  obtain ⟨hm, hlen⟩ := hpre
  refine ⟨le_trans hL1 hm, ?_⟩
  have h1 : l.length ≤ M.length := by simpa using Multiset.card_le_card hm
  omega

/-- Composing the visited-list increments of successive recursive calls. -/
theorem news_step {T : QuadTree} {a : AABB} (path : Path) {v NEWS newsj : List Path}
    (hf : ∀ q ∈ NEWS, ¬ q ∈ v ∧ (nodeAt T q).isSome = true)
    (hn : NEWS.Nodup)
    (hc : ∀ q ∈ NEWS, q = path ∨ nbrOK T a (NEWS ++ v) q)
    (hfj : ∀ q ∈ newsj, ¬ q ∈ NEWS ++ v ∧ (nodeAt T q).isSome = true)
    (hnj : newsj.Nodup)
    (hcj : ∀ q ∈ newsj, nbrOK T a (newsj ++ (NEWS ++ v)) q) :
    (∀ q ∈ newsj ++ NEWS, ¬ q ∈ v ∧ (nodeAt T q).isSome = true) ∧
    (newsj ++ NEWS).Nodup ∧
    (∀ q ∈ newsj ++ NEWS, q = path ∨ nbrOK T a ((newsj ++ NEWS) ++ v) q) := by
  have hveq : (newsj ++ NEWS) ++ v = newsj ++ (NEWS ++ v) := List.append_assoc _ _ _
  refine ⟨?_, ?_, ?_⟩
  · intro q hq
    rcases List.mem_append.mp hq with h | h
    · exact ⟨fun hv2 => (hfj q h).1 (List.mem_append_right _ hv2), (hfj q h).2⟩
    · exact hf q h
  · refine hnj.append hn ?_
    intro x hx hx2
    exact (hfj x hx).1 (List.mem_append_left _ hx2)
  · intro q hq
    rw [hveq]
    rcases List.mem_append.mp hq with h | h
    · exact Or.inr (hcj q h)
    · rcases hc q h with h' | h'
      · exact Or.inl h'
      · exact Or.inr (nbrOK_mono (fun x hx => List.mem_append_right _ hx) h')

theorem matchesAt_some {T : QuadTree} {a : AABB} {fn : Option (Point → Bool)}
    {q : Path} {s : QuadTree} (h : nodeAt T q = some s) :
    matchesAt T a fn q =
      s.points.filter fun p => a.ContainsPoint p && passesFilter fn p := by
  simp [matchesAt, h]

/-- A node whose boundary misses the query box matches nothing (its points
sit inside its boundary). -/
theorem matchesAt_empty_of_miss {md : ℕ} {T : QuadTree} {a : AABB}
    {fn : Option (Point → Bool)} {q : Path} {s : QuadTree}
    (hInv : Inv md T = true) (h : nodeAt T q = some s)
    (hmiss : ¬ s.boundary.Intersect a = true) :
    matchesAt T a fn q = [] := by
  rw [matchesAt_some h]
  cases s with
  | node b d c0 c1 c2 c3 => rfl
  | leaf b d ps =>
    have hIq := nodeAt_inv q T _ hInv h
    rw [List.filter_eq_nil_iff]
    intro z hz hcond
    rw [Bool.and_eq_true] at hcond
    exact hmiss (intersect_of_mem_mem ((inv_leaf_iff.mp hIq) z (by simpa using hz)) hcond.1)

end Quadtree

namespace Quadtree

/-- The packaged behaviour of the expanding search `knearest`: it returns a
value (given fuel and a valid node), only grows the visited list with fresh
valid nodes, records the processed node, links every processed intersecting
node to its visited parent and children, and returns a sorted sub-multiset
of the points matched at the newly visited nodes, of length
`min i (number matched)`. -/
theorem knearest_pack {md : ℕ} (T : QuadTree) (a : AABB) (i : ℤ)
    (fn : Option (Point → Bool)) (hInv : Inv md T = true) (hi : 0 ≤ i) :
    ∀ fuel path v, (nodeAt T path).isSome = true → unvisited T v < fuel →
      ∃ L news,
        knearest T a i fn fuel path v = some (L, news ++ v) ∧
        (∀ q ∈ news, ¬ q ∈ v ∧ (nodeAt T q).isSome = true) ∧
        news.Nodup ∧
        path ∈ news ++ v ∧
        (∀ q ∈ news, nbrOK T a (news ++ v) q) ∧
        (↑L : Multiset Point) ≤ ↑(Mlist T a fn news) ∧
        (L.length : ℤ) = min i ((Mlist T a fn news).length : ℤ) ∧
        L.Pairwise fun p q => distSq p a.center ≤ distSq q a.center := by
  intro fuel
  induction fuel with
  | zero =>
    intro path v _ hun
    omega
  | succ fuel IH =>
    intro path v hval hun
    by_cases hv : path ∈ v
    · refine ⟨[], [], by simp [knearest, hv], by simp, List.nodup_nil, by simpa using hv,
        by simp, by simp [Mlist], ?_, List.Pairwise.nil⟩
      simp only [Mlist, List.map_nil, List.flatten_nil, List.length_nil, Nat.cast_zero]
      omega
    obtain ⟨qt, hqt⟩ := Option.isSome_iff_exists.mp hval
    have hun1 : unvisited T (path :: v) < fuel := by
      have := unvisited_cons_lt hval hv
      omega
    by_cases hin : qt.boundary.Intersect a = true
    case neg =>
      have hmz : matchesAt T a fn path = [] := matchesAt_empty_of_miss hInv hqt hin
      have hM0 : Mlist T a fn [path] = [] := by
        rw [Mlist_cons, Mlist_nil, hmz]
        rfl
      refine ⟨[], [path], ?_, ?_, List.nodup_singleton _,
        List.mem_append_left _ (List.mem_singleton_self _), ?_, by simp, ?_,
        List.Pairwise.nil⟩
      · simp only [knearest, if_neg hv, hqt]
        rw [if_pos hin]
        rfl
      · intro q hq
        rw [List.mem_singleton] at hq
        subst hq
        exact ⟨hv, hval⟩
      · intro q hq
        rw [List.mem_singleton] at hq
        subst hq
        intro s hs hsint
        rw [hqt] at hs
        obtain rfl : qt = s := by injection hs
        exact absurd hsint hin
      · rw [hM0]
        simp only [List.length_nil, Nat.cast_zero]
        omega
    case pos =>
      cases qt with
      | leaf bb dd ps =>
        have hown : matchesAt T a fn path
            = ps.filter fun p => a.ContainsPoint p && passesFilter fn p := by
          rw [matchesAt_some hqt]
          rfl
        by_cases hroot : path = []
        · subst hroot
          obtain ⟨L, hL, hle, hlen, hsort⟩ := final_step_pack hi a.center
            ((ps.filter fun p => a.ContainsPoint p && passesFilter fn p) ++ [] ++ [])
            ([] :: v)
          have hM : Mlist T a fn [[]]
              = ps.filter fun p => a.ContainsPoint p && passesFilter fn p := by
            rw [Mlist_cons, Mlist_nil, hown, List.append_nil]
          refine ⟨L, [[]], ?_, ?_, List.nodup_singleton _,
            List.mem_append_left _ (List.mem_singleton_self _), ?_, ?_, ?_, hsort⟩
          · simp only [knearest, if_neg hv, hqt]
            rw [if_neg (not_not_intro hin)]
            exact hL
          · intro q hq
            rw [List.mem_singleton] at hq
            subst hq
            exact ⟨hv, hval⟩
          · intro q hq
            rw [List.mem_singleton] at hq
            subst hq
            intro s hs hsint
            rw [hqt] at hs
            obtain rfl : QuadTree.leaf bb dd ps = s := by injection hs
            refine ⟨fun hne => absurd rfl hne, ?_⟩
            intro b2 d2 m0 m1 m2 m3 he j
            exact absurd he (by simp)
          · rw [hM]
            exact le_trans hle (le_of_eq (by simp))
          · rw [hM, hlen]
            simp
        · obtain ⟨Lp, np, hp, hfp, hnp, hpmem, hcp, hlep, hlenp, hsortp⟩ :=
            IH path.dropLast (path :: v) (nodeAt_dropLast path T hval) hun1
          obtain ⟨L, hL, hle, hlen, hsort⟩ := final_step_pack hi a.center
            ((ps.filter fun p => a.ContainsPoint p && passesFilter fn p) ++ [] ++ Lp)
            (np ++ (path :: v))
          have hveq : (np ++ [path]) ++ v = np ++ (path :: v) := by simp
          have hbase_f : ∀ q ∈ ([path] : List Path),
              ¬ q ∈ v ∧ (nodeAt T q).isSome = true := by
            intro q hq
            rw [List.mem_singleton] at hq
            subst hq
            exact ⟨hv, hval⟩
          obtain ⟨hfin_f, hfin_n, hfin_c⟩ := news_step path hbase_f (List.nodup_singleton _)
            (fun q hq => Or.inl (by rwa [List.mem_singleton] at hq)) hfp hnp hcp
          have hnbr : ∀ q ∈ np ++ [path], nbrOK T a ((np ++ [path]) ++ v) q := by
            intro q hq
            rcases hfin_c q hq with rfl | h
            · intro s hs hsint
              rw [hqt] at hs
              obtain rfl : QuadTree.leaf bb dd ps = s := by injection hs
              refine ⟨fun _ => ?_, ?_⟩
              · rw [hveq]
                exact hpmem
              · intro b2 d2 m0 m1 m2 m3 he j
                exact absurd he (by simp)
            · exact h
          have hM : Mlist T a fn (np ++ [path]) = Mlist T a fn np ++
              (ps.filter fun p => a.ContainsPoint p && passesFilter fn p) := by
            rw [Mlist_append, Mlist_cons, Mlist_nil, hown, List.append_nil]
          have hpre : prePack
              ((ps.filter fun p => a.ContainsPoint p && passesFilter fn p) ++ [] ++ Lp)
              (Mlist T a fn (np ++ [path])) i := by
            refine prePack_congr (prePack_append (prePack_append (prePack_refl _ i)
              (prePack_refl ([] : List Point) i)) (prePack_of_pack hlep hlenp)) ?_
            rw [hM]
            simp only [← Multiset.coe_add, Multiset.coe_nil, add_zero]
            exact add_comm _ _
          obtain ⟨hfin1, hfin2⟩ := pack_of_prePack hpre hle hlen
          refine ⟨L, np ++ [path], ?_, hfin_f, hfin_n, by simp, hnbr, hfin1, hfin2, hsort⟩
          simp only [knearest, if_neg hv, hqt]
          rw [if_neg (not_not_intro hin)]
          rw [show path.isEmpty = false from by
            cases path with
            | nil => exact absurd rfl hroot
            | cons _ _ => rfl]
          simp only [Bool.false_eq_true, if_false, hp]
          rw [hveq]
          exact hL
      | node bb dd k0 k1 k2 k3 =>
        have hown : matchesAt T a fn path = [] := by
          rw [matchesAt_some hqt]
          rfl
        have hch := nodeAt_append path T hqt
        have ha0 := hch 0
        rw [fin4_if0] at ha0
        have ha1 := hch 1
        rw [fin4_if1] at ha1
        have ha2 := hch 2
        rw [fin4_if2] at ha2
        have ha3 := hch 3
        rw [fin4_if3] at ha3
        obtain ⟨L0, n0, h0, hf0, hn0, hm0, hc0, hle0, hlen0, hsort0⟩ :=
          IH (path ++ [0]) (path :: v) (by simp [ha0]) hun1
        have hb0 : unvisited T (n0 ++ (path :: v)) < fuel :=
          lt_of_le_of_lt (unvisited_mono fun x hx => List.mem_append_right _ hx) hun1
        obtain ⟨L1, n1, h1, hf1, hn1, hm1, hc1, hle1, hlen1, hsort1⟩ :=
          IH (path ++ [1]) (n0 ++ (path :: v)) (by simp [ha1]) hb0
        have hb1 : unvisited T (n1 ++ (n0 ++ (path :: v))) < fuel :=
          lt_of_le_of_lt (unvisited_mono fun x hx => List.mem_append_right _ hx) hb0
        obtain ⟨L2, n2, h2, hf2, hn2, hm2, hc2, hle2, hlen2, hsort2⟩ :=
          IH (path ++ [2]) (n1 ++ (n0 ++ (path :: v))) (by simp [ha2]) hb1
        have hb2 : unvisited T (n2 ++ (n1 ++ (n0 ++ (path :: v)))) < fuel :=
          lt_of_le_of_lt (unvisited_mono fun x hx => List.mem_append_right _ hx) hb1
        obtain ⟨L3, n3, h3, hf3, hn3, hm3, hc3, hle3, hlen3, hsort3⟩ :=
          IH (path ++ [3]) (n2 ++ (n1 ++ (n0 ++ (path :: v)))) (by simp [ha3]) hb2
        have hb3 : unvisited T (n3 ++ (n2 ++ (n1 ++ (n0 ++ (path :: v))))) < fuel :=
          lt_of_le_of_lt (unvisited_mono fun x hx => List.mem_append_right _ hx) hb2
        have hbase_f : ∀ q ∈ ([path] : List Path),
            ¬ q ∈ v ∧ (nodeAt T q).isSome = true := by
          intro q hq
          rw [List.mem_singleton] at hq
          subst hq
          exact ⟨hv, hval⟩
        obtain ⟨hB_f, hB_n, hB_c⟩ := news_step path hbase_f (List.nodup_singleton _)
          (fun q hq => Or.inl (by rwa [List.mem_singleton] at hq)) hf0 hn0 hc0
        have hE1 : (n0 ++ [path]) ++ v = n0 ++ (path :: v) := by simp
        have hf1' : ∀ q ∈ n1, ¬ q ∈ (n0 ++ [path]) ++ v ∧ (nodeAt T q).isSome = true := by
          rw [hE1]
          exact hf1
        have hc1' : ∀ q ∈ n1, nbrOK T a (n1 ++ ((n0 ++ [path]) ++ v)) q := by
          rw [hE1]
          exact hc1
        obtain ⟨hC_f, hC_n, hC_c⟩ := news_step path hB_f hB_n hB_c hf1' hn1 hc1'
        have hE2 : (n1 ++ (n0 ++ [path])) ++ v = n1 ++ (n0 ++ (path :: v)) := by simp
        have hf2' : ∀ q ∈ n2, ¬ q ∈ (n1 ++ (n0 ++ [path])) ++ v ∧
            (nodeAt T q).isSome = true := by
          rw [hE2]
          exact hf2
        have hc2' : ∀ q ∈ n2, nbrOK T a (n2 ++ ((n1 ++ (n0 ++ [path])) ++ v)) q := by
          rw [hE2]
          exact hc2
        obtain ⟨hD_f, hD_n, hD_c⟩ := news_step path hC_f hC_n hC_c hf2' hn2 hc2'
        have hE3 : (n2 ++ (n1 ++ (n0 ++ [path]))) ++ v
            = n2 ++ (n1 ++ (n0 ++ (path :: v))) := by simp
        have hf3' : ∀ q ∈ n3, ¬ q ∈ (n2 ++ (n1 ++ (n0 ++ [path]))) ++ v ∧
            (nodeAt T q).isSome = true := by
          rw [hE3]
          exact hf3
        have hc3' : ∀ q ∈ n3, nbrOK T a (n3 ++ ((n2 ++ (n1 ++ (n0 ++ [path]))) ++ v)) q := by
          rw [hE3]
          exact hc3
        obtain ⟨hF_f, hF_n, hF_c⟩ := news_step path hD_f hD_n hD_c hf3' hn3 hc3'
        by_cases hroot : path = []
        · subst hroot
          obtain ⟨L, hL, hle, hlen, hsort⟩ := final_step_pack hi a.center
            (([] : List Point) ++ (L0 ++ L1 ++ L2 ++ L3) ++ [])
            (n3 ++ (n2 ++ (n1 ++ (n0 ++ ([] :: v)))))
          have hEfin : (n3 ++ (n2 ++ (n1 ++ (n0 ++ [([] : Path)])))) ++ v
              = n3 ++ (n2 ++ (n1 ++ (n0 ++ (([] : Path) :: v)))) := by simp
          have hnbr : ∀ q ∈ n3 ++ (n2 ++ (n1 ++ (n0 ++ [([] : Path)]))),
              nbrOK T a ((n3 ++ (n2 ++ (n1 ++ (n0 ++ [([] : Path)])))) ++ v) q := by
            intro q hq
            rcases hF_c q hq with rfl | h
            · intro s hs hsint
              rw [hqt] at hs
              obtain rfl : QuadTree.node bb dd k0 k1 k2 k3 = s := by injection hs
              refine ⟨fun hne => absurd rfl hne, ?_⟩
              intro b2 d2 m0 m1 m2 m3 he j
              rw [hEfin]
              fin_cases j
              · exact List.mem_append_right _ (List.mem_append_right _
                  (List.mem_append_right _ hm0))
              · exact List.mem_append_right _ (List.mem_append_right _ hm1)
              · exact List.mem_append_right _ hm2
              · exact hm3
            · exact h
          have hMex : (↑(Mlist T a fn (n3 ++ (n2 ++ (n1 ++ (n0 ++ [([] : Path)])))))
              : Multiset Point)
              = ↑(([] : List Point) ++ (Mlist T a fn n0 ++ Mlist T a fn n1 ++
                  Mlist T a fn n2 ++ Mlist T a fn n3) ++ ([] : List Point)) := by
            simp only [Mlist_append, Mlist_cons, Mlist_nil, hown, List.append_nil,
              List.nil_append, ← Multiset.coe_add, Multiset.coe_nil, add_zero, zero_add]
            abel
          have hpre : prePack (([] : List Point) ++ (L0 ++ L1 ++ L2 ++ L3) ++ [])
              (Mlist T a fn (n3 ++ (n2 ++ (n1 ++ (n0 ++ [([] : Path)]))))) i := by
            refine prePack_congr (prePack_append (prePack_append
              (prePack_refl ([] : List Point) i)
              (prePack_append (prePack_append (prePack_append
                (prePack_of_pack hle0 hlen0) (prePack_of_pack hle1 hlen1))
                (prePack_of_pack hle2 hlen2)) (prePack_of_pack hle3 hlen3)))
              (prePack_refl ([] : List Point) i)) hMex.symm
          obtain ⟨hfin1, hfin2⟩ := pack_of_prePack hpre hle hlen
          refine ⟨L, n3 ++ (n2 ++ (n1 ++ (n0 ++ [([] : Path)]))), ?_, hF_f, hF_n,
            by simp, hnbr, hfin1, hfin2, hsort⟩
          simp only [knearest, if_neg hv, hqt]
          rw [if_neg (not_not_intro hin)]
          simp only [h0, h1, h2, h3]
          rw [hEfin]
          exact hL
        · obtain ⟨Lp, np, hp, hfp, hnp, hpmem, hcp, hlep, hlenp, hsortp⟩ :=
            IH path.dropLast (n3 ++ (n2 ++ (n1 ++ (n0 ++ (path :: v)))))
              (nodeAt_dropLast path T hval) hb3
          have hE4 : (n3 ++ (n2 ++ (n1 ++ (n0 ++ [path])))) ++ v
              = n3 ++ (n2 ++ (n1 ++ (n0 ++ (path :: v)))) := by simp
          have hfp' : ∀ q ∈ np, ¬ q ∈ (n3 ++ (n2 ++ (n1 ++ (n0 ++ [path])))) ++ v ∧
              (nodeAt T q).isSome = true := by
            rw [hE4]
            exact hfp
          have hcp' : ∀ q ∈ np,
              nbrOK T a (np ++ ((n3 ++ (n2 ++ (n1 ++ (n0 ++ [path])))) ++ v)) q := by
            rw [hE4]
            exact hcp
          obtain ⟨hG_f, hG_n, hG_c⟩ := news_step path hF_f hF_n hF_c hfp' hnp hcp'
          obtain ⟨L, hL, hle, hlen, hsort⟩ := final_step_pack hi a.center
            (([] : List Point) ++ (L0 ++ L1 ++ L2 ++ L3) ++ Lp)
            (np ++ (n3 ++ (n2 ++ (n1 ++ (n0 ++ (path :: v))))))
          have hEfin : (np ++ (n3 ++ (n2 ++ (n1 ++ (n0 ++ [path]))))) ++ v
              = np ++ (n3 ++ (n2 ++ (n1 ++ (n0 ++ (path :: v))))) := by simp
          have hnbr : ∀ q ∈ np ++ (n3 ++ (n2 ++ (n1 ++ (n0 ++ [path])))),
              nbrOK T a ((np ++ (n3 ++ (n2 ++ (n1 ++ (n0 ++ [path]))))) ++ v) q := by
            intro q hq
            rcases hG_c q hq with rfl | h
            · intro s hs hsint
              rw [hqt] at hs
              obtain rfl : QuadTree.node bb dd k0 k1 k2 k3 = s := by injection hs
              refine ⟨fun _ => ?_, ?_⟩
              · rw [hEfin]
                exact hpmem
              · intro b2 d2 m0 m1 m2 m3 he j
                rw [hEfin]
                fin_cases j
                · exact List.mem_append_right _ (List.mem_append_right _
                    (List.mem_append_right _ (List.mem_append_right _ hm0)))
                · exact List.mem_append_right _ (List.mem_append_right _
                    (List.mem_append_right _ hm1))
                · exact List.mem_append_right _ (List.mem_append_right _ hm2)
                · exact List.mem_append_right _ hm3
            · exact h
          have hMex : (↑(Mlist T a fn (np ++ (n3 ++ (n2 ++ (n1 ++ (n0 ++ [path]))))))
              : Multiset Point)
              = ↑(([] : List Point) ++ (Mlist T a fn n0 ++ Mlist T a fn n1 ++
                  Mlist T a fn n2 ++ Mlist T a fn n3) ++ Mlist T a fn np) := by
            simp only [Mlist_append, Mlist_cons, Mlist_nil, hown, List.append_nil,
              List.nil_append, ← Multiset.coe_add, Multiset.coe_nil, add_zero, zero_add]
            abel
          have hpre : prePack (([] : List Point) ++ (L0 ++ L1 ++ L2 ++ L3) ++ Lp)
              (Mlist T a fn (np ++ (n3 ++ (n2 ++ (n1 ++ (n0 ++ [path])))))) i := by
            refine prePack_congr (prePack_append (prePack_append
              (prePack_refl ([] : List Point) i)
              (prePack_append (prePack_append (prePack_append
                (prePack_of_pack hle0 hlen0) (prePack_of_pack hle1 hlen1))
                (prePack_of_pack hle2 hlen2)) (prePack_of_pack hle3 hlen3)))
              (prePack_of_pack hlep hlenp)) hMex.symm
          obtain ⟨hfin1, hfin2⟩ := pack_of_prePack hpre hle hlen
          refine ⟨L, np ++ (n3 ++ (n2 ++ (n1 ++ (n0 ++ [path])))), ?_, hG_f, hG_n,
            by simp, hnbr, hfin1, hfin2, hsort⟩
          simp only [knearest, if_neg hv, hqt]
          rw [if_neg (not_not_intro hin)]
          simp only [h0, h1, h2, h3]
          rw [show path.isEmpty = false from by
            cases path with
            | nil => exact absurd rfl hroot
            | cons _ _ => rfl]
          simp only [Bool.false_eq_true, if_false, hp]
          rw [hEfin]
          exact hL

end Quadtree

namespace Quadtree

theorem nodeAt_append_eq : ∀ (x y : Path) (T : QuadTree),
    nodeAt T (x ++ y) = (nodeAt T x).bind fun s => nodeAt s y := by
  intro x
  induction x with
  | nil =>
    intro y T
    cases T <;> rfl
  | cons j rest IHx =>
    intro y T
    cases T with
    | leaf b d ps => rfl
    | node b d c0 c1 c2 c3 =>
      simp only [List.cons_append, nodeAt]
      exact IHx y _

/-- Every ancestor's boundary (along `take`-prefixes of the path)
intersects the query box. -/
def covered (T : QuadTree) (a : AABB) (q : Path) : Prop :=
  ∀ (n : ℕ) (s : QuadTree), nodeAt T (q.take n) = some s → s.boundary.Intersect a = true

/-- A valid node whose boundary intersects the query box has all its
ancestors intersecting as well. -/
theorem covered_of_self_intersect {md : ℕ} {T : QuadTree} {a : AABB}
    (hInv : Inv md T = true) (hnn : nonneg T = true) {q : Path} {s : QuadTree}
    (h : nodeAt T q = some s) (hint : s.boundary.Intersect a = true) :
    covered T a q := by
  intro n s' hs'
  have hsplit := nodeAt_append_eq (q.take n) (q.drop n) T
  rw [List.take_append_drop] at hsplit
  rw [hs'] at hsplit
  simp only [Option.some_bind] at hsplit
  have hsub : nodeAt s' (q.drop n) = some s := by
    rw [h] at hsplit
    exact hsplit.symm
  exact nodeAt_intersect_mono (q.drop n) s' s (nodeAt_inv _ T _ hInv hs')
    (nodeAt_nonneg _ T _ hInv hnn hs') hsub hint

/-- Climbing from any visited intersecting node, closure puts the root in
the visited list. -/
theorem cov_up {md : ℕ} {T : QuadTree} {a : AABB}
    (hInv : Inv md T = true) (hnn : nonneg T = true) {w : List Path}
    (hcl : ∀ q ∈ w, nbrOK T a w q) :
    ∀ (n : ℕ) (q : Path) (s : QuadTree), q.length = n → q ∈ w →
      nodeAt T q = some s → s.boundary.Intersect a = true → [] ∈ w := by
  intro n
  induction n with
  | zero =>
    intro q s hlen hqw _ _
    obtain rfl := List.length_eq_zero.mp hlen
    exact hqw
  | succ n IHn =>
    intro q s hlen hqw hs hint
    have hne : q ≠ [] := by
      intro hc
      subst hc
      simp at hlen
    have hq2 : q.dropLast ++ [q.getLast hne] = q := List.dropLast_append_getLast hne
    have hpar := nodeAt_append_eq q.dropLast [q.getLast hne] T
    rw [hq2, hs] at hpar
    cases hd : nodeAt T q.dropLast with
    | none =>
      rw [hd] at hpar
      simp at hpar
    | some sp =>
      rw [hd] at hpar
      simp only [Option.some_bind] at hpar
      cases sp with
      | leaf b d ps => simp [nodeAt] at hpar
      | node b d c0 c1 c2 c3 =>
        have hIp := nodeAt_inv q.dropLast T _ hInv hd
        have hnp := nodeAt_nonneg q.dropLast T _ hInv hnn hd
        obtain ⟨-, -, -, -, -, hb0, hb1, hb2, hb3, -, -, -, -⟩ := inv_node_iff.mp hIp
        have hnb := nonneg_iff.mp hnp
        simp only [boundary_node] at hnb
        have hp2 := hpar.symm
        simp only [nodeAt] at hp2
        have hchild : s = c0 ∨ s = c1 ∨ s = c2 ∨ s = c3 := by
          split_ifs at hp2
          · exact Or.inl (by injection hp2 with h3; exact h3.symm)
          · exact Or.inr (Or.inl (by injection hp2 with h3; exact h3.symm))
          · exact Or.inr (Or.inr (Or.inl (by injection hp2 with h3; exact h3.symm)))
          · exact Or.inr (Or.inr (Or.inr (by injection hp2 with h3; exact h3.symm)))
        have hintp : (QuadTree.node b d c0 c1 c2 c3).boundary.Intersect a = true := by
          simp only [boundary_node]
          rcases hchild with rfl | rfl | rfl | rfl
          · exact quadrant_intersect_mono (Or.inl hb0) hnb.1 hnb.2 hint
          · exact quadrant_intersect_mono (Or.inr (Or.inl hb1)) hnb.1 hnb.2 hint
          · exact quadrant_intersect_mono (Or.inr (Or.inr (Or.inl hb2))) hnb.1 hnb.2 hint
          · exact quadrant_intersect_mono (Or.inr (Or.inr (Or.inr hb3))) hnb.1 hnb.2 hint
        have hdw : q.dropLast ∈ w := ((hcl q hqw) s hs hint).1 hne
        exact IHn q.dropLast _ (by simp [List.length_dropLast, hlen]) hdw hd hintp

/-- Descending from the root, closure puts every valid node with all
ancestors intersecting into the visited list. -/
theorem cov_down {T : QuadTree} {a : AABB} {w : List Path}
    (hcl : ∀ q ∈ w, nbrOK T a w q) (hroot : [] ∈ w) :
    ∀ (n : ℕ) (q : Path) (s : QuadTree), q.length = n → nodeAt T q = some s →
      covered T a q → q ∈ w := by
  intro n
  induction n with
  | zero =>
    intro q s hlen _ _
    obtain rfl := List.length_eq_zero.mp hlen
    exact hroot
  | succ n IHn =>
    intro q s hlen hs hcov
    have hne : q ≠ [] := by
      intro hc
      subst hc
      simp at hlen
    have hq2 : q.dropLast ++ [q.getLast hne] = q := List.dropLast_append_getLast hne
    have hpar := nodeAt_append_eq q.dropLast [q.getLast hne] T
    rw [hq2, hs] at hpar
    cases hd : nodeAt T q.dropLast with
    | none =>
      rw [hd] at hpar
      simp at hpar
    | some sp =>
      rw [hd] at hpar
      simp only [Option.some_bind] at hpar
      have hdl_take : q.dropLast = q.take n := by
        rw [List.dropLast_eq_take, hlen]
        rfl
      have hcov' : covered T a q.dropLast := by
        intro m s2 h2
        rw [hdl_take, List.take_take] at h2
        exact hcov (min m n) s2 h2
      have hdw : q.dropLast ∈ w := IHn q.dropLast sp (by simp [List.length_dropLast, hlen]) hd hcov'
      have hintp : sp.boundary.Intersect a = true := by
        apply hcov n sp
        rw [← hdl_take]
        exact hd
      cases sp with
      | leaf b d ps => simp [nodeAt] at hpar
      | node b d c0 c1 c2 c3 =>
        have := ((hcl q.dropLast hdw) _ hd hintp).2 b d c0 c1 c2 c3 rfl (q.getLast hne)
        rw [hq2] at this
        exact this

/-- A node matching at least one point is valid and fully covered: the
matched point lies inside every ancestor's boundary. -/
theorem covered_of_matches {md : ℕ} {T : QuadTree} {a : AABB}
    {fn : Option (Point → Bool)} (hInv : Inv md T = true) (hnn : nonneg T = true)
    {q : Path} (hne : matchesAt T a fn q ≠ []) :
    ∃ s, nodeAt T q = some s ∧ covered T a q := by
  cases hq : nodeAt T q with
  | none =>
    exact absurd (by simp [matchesAt, hq]) hne
  | some s =>
    refine ⟨s, rfl, ?_⟩
    rw [matchesAt_some hq] at hne
    obtain ⟨p, hp⟩ := List.exists_mem_of_ne_nil _ hne
    obtain ⟨hp1, hp2⟩ := List.mem_filter.mp hp
    rw [Bool.and_eq_true] at hp2
    have hpstored : p ∈ stored s := by
      cases s with
      | leaf b d ps => simpa using hp1
      | node b d c0 c1 c2 c3 => simp [QuadTree.points] at hp1
    intro m s2 h2
    have hsplit := nodeAt_append_eq (q.take m) (q.drop m) T
    rw [List.take_append_drop, hq, h2] at hsplit
    simp only [Option.some_bind] at hsplit
    have hpm : p ∈ (↑(stored s2) : Multiset Point) :=
      Multiset.mem_of_le (stored_nodeAt_le (q.drop m) s2 s hsplit.symm) (by simpa using hpstored)
    have hcont : s2.boundary.ContainsPoint p = true :=
      stored_contains s2 (nodeAt_inv _ T _ hInv h2) (nodeAt_nonneg _ T _ hInv hnn h2) p
        (by simpa using hpm)
    exact intersect_of_mem_mem hcont hp2.1

end Quadtree

namespace Quadtree

theorem validPaths_nodup : ∀ t : QuadTree, (validPaths t).Nodup := by
  intro t
  induction t with
  | leaf b d ps => simp [validPaths]
  | node b d c0 c1 c2 c3 ih0 ih1 ih2 ih3 =>
    simp only [validPaths]
    refine List.Nodup.cons ?_ ?_
    · intro hmem
      simp only [List.mem_append, List.mem_map] at hmem
      rcases hmem with ((⟨x, -, hx⟩ | ⟨x, -, hx⟩) | ⟨x, -, hx⟩) | ⟨x, -, hx⟩ <;>
        exact absurd hx (by simp)
    · have m0 : ((validPaths c0).map (List.cons 0)).Nodup :=
        List.Nodup.map (List.cons_injective) ih0
      have m1 : ((validPaths c1).map (List.cons 1)).Nodup :=
        List.Nodup.map (List.cons_injective) ih1
      have m2 : ((validPaths c2).map (List.cons 2)).Nodup :=
        List.Nodup.map (List.cons_injective) ih2
      have m3 : ((validPaths c3).map (List.cons 3)).Nodup :=
        List.Nodup.map (List.cons_injective) ih3
      have hdj : ∀ (j j' : Fin 4) (l l' : List Path), j ≠ j' →
          List.Disjoint (l.map (List.cons j)) (l'.map (List.cons j')) := by
        intro j j' l l' hjj x hx hx'
        obtain ⟨u, -, rfl⟩ := List.mem_map.mp hx
        obtain ⟨u', -, he⟩ := List.mem_map.mp hx'
        have : j' = j := by
          have := List.cons_eq_cons.mp he
          exact this.1
        exact hjj this.symm
      refine ((m0.append m1 (hdj 0 1 _ _ (by decide))).append m2 ?_).append m3 ?_
      · intro x hx hx'
        rcases List.mem_append.mp hx with h | h
        · exact hdj 0 2 _ _ (by decide) h hx'
        · exact hdj 1 2 _ _ (by decide) h hx'
      · intro x hx hx'
        rcases List.mem_append.mp hx with h | h
        · rcases List.mem_append.mp h with h2 | h2
          · exact hdj 0 3 _ _ (by decide) h2 hx'
          · exact hdj 1 3 _ _ (by decide) h2 hx'
        · exact hdj 2 3 _ _ (by decide) h hx'

theorem matchesAt_node_cons (b : AABB) (d : ℕ) (c0 c1 c2 c3 : QuadTree) (a : AABB)
    (fn : Option (Point → Bool)) (j : Fin 4) (q : Path) :
    matchesAt (QuadTree.node b d c0 c1 c2 c3) a fn (j :: q) =
      matchesAt (if j = 0 then c0 else if j = 1 then c1 else if j = 2 then c2 else c3)
        a fn q := by
  simp only [matchesAt, nodeAt]

theorem Mlist_map_cons (b : AABB) (d : ℕ) (c0 c1 c2 c3 : QuadTree) (a : AABB)
    (fn : Option (Point → Bool)) (j : Fin 4) :
    ∀ l : List Path,
      Mlist (QuadTree.node b d c0 c1 c2 c3) a fn (l.map (List.cons j)) =
        Mlist (if j = 0 then c0 else if j = 1 then c1 else if j = 2 then c2 else c3)
          a fn l := by
  intro l
  induction l with
  | nil => rfl
  | cons q l ih =>
    simp only [List.map_cons, Mlist_cons, matchesAt_node_cons, ih]

/-- The matches collected over all valid paths are exactly the stored
points inside the box passing the filter. -/
theorem Mlist_validPaths (a : AABB) (fn : Option (Point → Bool)) :
    ∀ t : QuadTree, Mlist t a fn (validPaths t)
      = (stored t).filter fun p => a.ContainsPoint p && passesFilter fn p := by
  intro t
  induction t with
  | leaf b d ps =>
    simp only [validPaths, Mlist_cons, Mlist_nil, stored_leaf]
    rw [matchesAt_some (show nodeAt (QuadTree.leaf b d ps) [] = some (.leaf b d ps) from rfl)]
    simp
  | node b d c0 c1 c2 c3 ih0 ih1 ih2 ih3 =>
    simp only [validPaths, Mlist_cons, Mlist_append]
    rw [matchesAt_some (show nodeAt (QuadTree.node b d c0 c1 c2 c3) []
      = some (.node b d c0 c1 c2 c3) from rfl)]
    have e0 := Mlist_map_cons b d c0 c1 c2 c3 a fn 0 (validPaths c0)
    rw [fin4_if0] at e0
    have e1 := Mlist_map_cons b d c0 c1 c2 c3 a fn 1 (validPaths c1)
    rw [fin4_if1] at e1
    have e2 := Mlist_map_cons b d c0 c1 c2 c3 a fn 2 (validPaths c2)
    rw [fin4_if2] at e2
    have e3 := Mlist_map_cons b d c0 c1 c2 c3 a fn 3 (validPaths c3)
    rw [fin4_if3] at e3
    rw [e0, e1, e2, e3, ih0, ih1, ih2, ih3]
    simp [List.filter_append]

/-- Over a visited list that is valid, duplicate-free and contains every
covered node, the collected matches are exactly the matches of the whole
tree (as multisets). -/
theorem Mlist_cov {md : ℕ} {T : QuadTree} {a : AABB} {fn : Option (Point → Bool)}
    (hInv : Inv md T = true) (hnn : nonneg T = true) {w : List Path}
    (hfv : ∀ q ∈ w, (nodeAt T q).isSome = true) (hnd : w.Nodup)
    (hcov : ∀ q s, nodeAt T q = some s → covered T a q → q ∈ w) :
    (↑(Mlist T a fn w) : Multiset Point)
      = ↑((stored T).filter fun p => a.ContainsPoint p && passesFilter fn p) := by
  classical
  have hsub : w ⊆ validPaths T := fun q hq => (validPaths_iff T q).mpr (hfv q hq)
  have hle : (↑w : Multiset Path) ≤ ↑(validPaths T) :=
    Multiset.coe_le.mpr (hnd.subperm hsub)
  obtain ⟨rest, hrest⟩ := Multiset.le_iff_exists_add.mp hle
  have hMl : ∀ l : List Path, (↑(Mlist T a fn l) : Multiset Point)
      = ((↑l : Multiset Path).map fun q => (↑(matchesAt T a fn q) : Multiset Point)).sum := by
    intro l
    induction l with
    | nil => rfl
    | cons q l ih =>
      rw [Mlist_cons, ← Multiset.coe_add, ← Multiset.cons_coe, Multiset.map_cons,
        Multiset.sum_cons, ih]
  have hzero : (rest.map fun q => (↑(matchesAt T a fn q) : Multiset Point)).sum = 0 := by
    apply Multiset.sum_eq_zero
    intro x hx
    obtain ⟨q, hq, rfl⟩ := Multiset.mem_map.mp hx
    have hqnw : ¬ q ∈ w := by
      intro hqw
      have hcnt := congrArg (Multiset.count q) hrest
      rw [Multiset.count_add] at hcnt
      have h1 : 1 ≤ Multiset.count q ↑w :=
        Multiset.one_le_count_iff_mem.mpr (Multiset.mem_coe.mpr hqw)
      have h2 : 1 ≤ Multiset.count q rest := Multiset.one_le_count_iff_mem.mpr hq
      have h3 : Multiset.count q ↑(validPaths T) ≤ 1 := by
        rw [Multiset.coe_count]
        exact List.nodup_iff_count_le_one.mp (validPaths_nodup T) q
      omega
    cases hmz : matchesAt T a fn q with
    | nil => rfl
    | cons p ps =>
      exfalso
      obtain ⟨s, hs, hcv⟩ := covered_of_matches hInv hnn (by rw [hmz]; simp)
      exact hqnw (hcov q s hs hcv)
  rw [hMl w, ← Mlist_validPaths a fn T, hMl (validPaths T), hrest, Multiset.map_add,
    Multiset.sum_add, hzero, add_zero]

end Quadtree

namespace Quadtree

/-- A subtree reached by no query-intersecting descent stores no matching
point. -/
theorem hitsLeaf_false_no_match {md : ℕ} {a : AABB} {fn : Option (Point → Bool)} :
    ∀ sub : QuadTree, Inv md sub = true → nonneg sub = true → hitsLeaf a sub = false →
      (stored sub).filter (fun p => a.ContainsPoint p && passesFilter fn p) = [] := by
  intro sub
  induction sub with
  | leaf b d ps =>
    intro hI hn hh
    simp only [hitsLeaf] at hh
    rw [List.filter_eq_nil_iff]
    intro z hz hc
    rw [Bool.and_eq_true] at hc
    have := intersect_of_mem_mem ((inv_leaf_iff.mp hI) z (by simpa using hz)) hc.1
    exact absurd this (by simp [hh])
  | node b d c0 c1 c2 c3 ih0 ih1 ih2 ih3 =>
    intro hI hn hh
    obtain ⟨-, -, -, -, -, -, -, -, -, hI0, hI1, hI2, hI3⟩ := inv_node_iff.mp hI
    obtain ⟨hn0, hn1, hn2, hn3⟩ := nonneg_children hI hn
    rw [List.filter_eq_nil_iff]
    intro z hz hc
    cases hbi : b.Intersect a with
    | false =>
      rw [Bool.and_eq_true] at hc
      have hcont := stored_contains _ hI hn z (by simpa using hz)
      simp only [boundary_node] at hcont
      exact absurd (intersect_of_mem_mem hcont hc.1) (by simp [hbi])
    | true =>
      simp only [hitsLeaf, hbi, Bool.true_and, Bool.or_eq_false_iff] at hh
      obtain ⟨⟨⟨hh0, hh1⟩, hh2⟩, hh3⟩ := hh
      simp only [stored_node, List.append_assoc, List.mem_append] at hz
      rcases hz with hm | hm | hm | hm
      · have := ih0 hI0 hn0 hh0
        rw [List.filter_eq_nil_iff] at this
        exact this z hm hc
      · have := ih1 hI1 hn1 hh1
        rw [List.filter_eq_nil_iff] at this
        exact this z hm hc
      · have := ih2 hI2 hn2 hh2
        rw [List.filter_eq_nil_iff] at this
        exact this z hm hc
      · have := ih3 hI3 hn3 hh3
        rw [List.filter_eq_nil_iff] at this
        exact this z hm hc

/-- `kNearestRoot` over a subtree with no intersecting descent returns
nothing and leaves the visited list alone. -/
theorem kNearestRoot_nohit {T : QuadTree} {a : AABB} {i : ℤ}
    {fn : Option (Point → Bool)} (hi : 1 ≤ i) (fuel : ℕ) :
    ∀ (sub : QuadTree) (path : Path) (v : List Path), hitsLeaf a sub = false →
      kNearestRoot T a i fn fuel sub path v = some ([], v) := by
  intro sub
  induction sub with
  | leaf b d ps =>
    intro path v hh
    simp only [hitsLeaf] at hh
    simp only [kNearestRoot]
    rw [if_pos (by simp [hh])]
  | node b d c0 c1 c2 c3 ih0 ih1 ih2 ih3 =>
    intro path v hh
    simp only [kNearestRoot]
    cases hbi : b.Intersect a with
    | false => rw [if_pos (by simp [hbi])]
    | true =>
      rw [if_neg (by simp [hbi])]
      simp only [hitsLeaf, hbi, Bool.true_and, Bool.or_eq_false_iff] at hh
      obtain ⟨⟨⟨hh0, hh1⟩, hh2⟩, hh3⟩ := hh
      simp only [ih0 (path ++ [0]) v hh0]
      rw [if_neg (by simp; omega)]
      simp only [ih1 (path ++ [1]) v hh1]
      rw [if_neg (by simp; omega)]
      simp only [ih2 (path ++ [2]) v hh2]
      rw [if_neg (by simp; omega)]
      simp only [ih3 (path ++ [3]) v hh3]
      rw [if_neg (by simp; omega)]
      simp

/-- Once the visited list holds every covered node, later descents
contribute nothing. -/
theorem kNearestRoot_covered {md : ℕ} {T : QuadTree} {a : AABB} {i : ℤ}
    {fn : Option (Point → Bool)} (hInv : Inv md T = true) (hnn : nonneg T = true)
    (hi : 1 ≤ i) (fuel : ℕ) (hfuel : 1 ≤ fuel) {v : List Path}
    (hcov : ∀ q s, nodeAt T q = some s → covered T a q → q ∈ v) :
    ∀ (sub : QuadTree) (path : Path), nodeAt T path = some sub →
      kNearestRoot T a i fn fuel sub path v = some ([], v) := by
  intro sub
  induction sub with
  | leaf b d ps =>
    intro path hpath
    simp only [kNearestRoot]
    cases hbi : b.Intersect a with
    | false => rw [if_pos (by simp [hbi])]
    | true =>
      rw [if_neg (by simp [hbi])]
      have hmemv : path ∈ v := hcov path _ hpath
        (covered_of_self_intersect hInv hnn hpath (by simpa using hbi))
      obtain ⟨f2, rfl⟩ : ∃ g, fuel = g + 1 := ⟨fuel - 1, by omega⟩
      have hk : knearest T a i fn (f2 + 1) path v = some ([], v) := by
        simp only [knearest, if_pos hmemv]
      simp only [hk]
      rw [if_neg (by simp; omega)]
  | node b d c0 c1 c2 c3 ih0 ih1 ih2 ih3 =>
    intro path hpath
    simp only [kNearestRoot]
    cases hbi : b.Intersect a with
    | false => rw [if_pos (by simp [hbi])]
    | true =>
      rw [if_neg (by simp [hbi])]
      have hch := nodeAt_append path T hpath
      have ha0 := hch 0
      rw [fin4_if0] at ha0
      have ha1 := hch 1
      rw [fin4_if1] at ha1
      have ha2 := hch 2
      rw [fin4_if2] at ha2
      have ha3 := hch 3
      rw [fin4_if3] at ha3
      simp only [ih0 (path ++ [0]) ha0]
      rw [if_neg (by simp; omega)]
      simp only [ih1 (path ++ [1]) ha1]
      rw [if_neg (by simp; omega)]
      simp only [ih2 (path ++ [2]) ha2]
      rw [if_neg (by simp; omega)]
      simp only [ih3 (path ++ [3]) ha3]
      rw [if_neg (by simp; omega)]
      simp


/-- The full behaviour of `kNearestRoot` started with an empty visited map:
either no descent intersects (and nothing is returned), or the expanding
search ran at the first reached leaf, covering every covered node, and the
result is a sorted selection of `min i (matches at visited nodes)` points. -/
theorem kNearestRoot_spec {md : ℕ} (T : QuadTree) (a : AABB) (i : ℤ)
    (fn : Option (Point → Bool)) (hInv : Inv md T = true) (hnn : nonneg T = true)
    (hi : 1 ≤ i) (fuel : ℕ) (hfuel : unvisited T [] < fuel) :
    ∀ (sub : QuadTree) (path : Path), nodeAt T path = some sub →
      (hitsLeaf a sub = false ∧ kNearestRoot T a i fn fuel sub path [] = some ([], [])) ∨
      (∃ res w, kNearestRoot T a i fn fuel sub path [] = some (res, w) ∧
        (∀ q ∈ w, (nodeAt T q).isSome = true) ∧ w.Nodup ∧
        (∀ q s, nodeAt T q = some s → covered T a q → q ∈ w) ∧
        (↑res : Multiset Point) ≤ ↑(Mlist T a fn w) ∧
        (res.length : ℤ) = min i ((Mlist T a fn w).length : ℤ) ∧
        res.Pairwise fun p q => distSq p a.center ≤ distSq q a.center) := by
  intro sub
  induction sub with
  | leaf b d ps =>
    intro path hpath
    cases hbi : b.Intersect a with
    | false =>
      left
      constructor
      · simp [hitsLeaf, hbi]
      · simp only [kNearestRoot]
        rw [if_pos (by simp [hbi])]
    | true =>
      right
      obtain ⟨L, news, hk, hfres, hnd, hpm, hnbr, hle, hlen, hsort⟩ :=
        knearest_pack T a i fn hInv (by omega) fuel path [] (by simp [hpath]) hfuel
      have happ : news ++ ([] : List Path) = news := List.append_nil news
      have hfv : ∀ q ∈ news, (nodeAt T q).isSome = true := fun q hq => (hfres q hq).2
      have hnbr' : ∀ q ∈ news, nbrOK T a news q := by
        intro q hq
        have := hnbr q hq
        rwa [happ] at this
      have hpm' : path ∈ news := by rwa [happ] at hpm
      have hrootw : [] ∈ news :=
        cov_up hInv hnn hnbr' path.length path _ rfl hpm' hpath (by simpa using hbi)
      have hcovw : ∀ q s, nodeAt T q = some s → covered T a q → q ∈ news := by
        intro q s hs hcv
        exact cov_down hnbr' hrootw q.length q s rfl hs hcv
      simp only [kNearestRoot]
      rw [if_neg (by simp [hbi])]
      simp only [hk, List.append_nil]
      by_cases hge : (L.length : ℤ) ≥ i
      · rw [if_pos hge, trunc_total (by omega)]
        obtain ⟨t1, t2, t3⟩ := take_pack (by omega) hle hlen hsort hge
        exact ⟨L.take i.toNat, news, rfl, hfv, hnd, hcovw, t1, t2, t3⟩
      · rw [if_neg hge]
        exact ⟨L, news, rfl, hfv, hnd, hcovw, hle, hlen, hsort⟩
  | node b d c0 c1 c2 c3 ih0 ih1 ih2 ih3 =>
    intro path hpath
    cases hbi : b.Intersect a with
    | false =>
      left
      constructor
      · simp [hitsLeaf, hbi]
      · simp only [kNearestRoot]
        rw [if_pos (by simp [hbi])]
    | true =>
      have hch := nodeAt_append path T hpath
      have ha0 := hch 0
      rw [fin4_if0] at ha0
      have ha1 := hch 1
      rw [fin4_if1] at ha1
      have ha2 := hch 2
      rw [fin4_if2] at ha2
      have ha3 := hch 3
      rw [fin4_if3] at ha3
      rcases ih0 (path ++ [0]) ha0 with ⟨hh0, he0⟩ |
        ⟨res0, w0, he0, hfv0, hnd0, hcov0, hle0, hlen0, hsort0⟩
      · -- child 0 found nothing; continue with child 1
        rcases ih1 (path ++ [1]) ha1 with ⟨hh1, he1⟩ |
          ⟨res1, w1, he1, hfv1, hnd1, hcov1, hle1, hlen1, hsort1⟩
        · -- child 1 found nothing; continue with child 2
          rcases ih2 (path ++ [2]) ha2 with ⟨hh2, he2⟩ |
            ⟨res2, w2, he2, hfv2, hnd2, hcov2, hle2, hlen2, hsort2⟩
          · -- child 2 found nothing; continue with child 3
            rcases ih3 (path ++ [3]) ha3 with ⟨hh3, he3⟩ |
              ⟨res3, w3, he3, hfv3, hnd3, hcov3, hle3, hlen3, hsort3⟩
            · -- nothing anywhere
              left
              constructor
              · simp [hitsLeaf, hbi, hh0, hh1, hh2, hh3]
              · simp only [kNearestRoot]
                rw [if_neg (by simp [hbi])]
                simp only [he0]
                rw [if_neg (by simp; omega)]
                simp only [he1]
                rw [if_neg (by simp; omega)]
                simp only [he2]
                rw [if_neg (by simp; omega)]
                simp only [he3]
                rw [if_neg (by simp; omega)]
                rfl
            · -- the leaf was reached under child 3
              right
              simp only [kNearestRoot]
              rw [if_neg (by simp [hbi])]
              simp only [he0]
              rw [if_neg (by simp; omega)]
              simp only [he1]
              rw [if_neg (by simp; omega)]
              simp only [he2]
              rw [if_neg (by simp; omega)]
              simp only [he3]
              by_cases hge : (res3.length : ℤ) ≥ i
              · rw [if_pos (by simp; omega), trunc_total (by omega)]
                obtain ⟨t1, t2, t3⟩ := take_pack (by omega) hle3 hlen3 hsort3 hge
                exact ⟨res3.take i.toNat, w3, rfl, hfv3, hnd3, hcov3, t1, t2, t3⟩
              · rw [if_neg (by simp; omega)]
                refine ⟨[] ++ [] ++ [] ++ res3, w3, rfl, hfv3, hnd3, hcov3, ?_, ?_, ?_⟩
                · simpa using hle3
                · simpa using hlen3
                · simpa using hsort3
          · -- the leaf was reached under child 2
            right
            simp only [kNearestRoot]
            rw [if_neg (by simp [hbi])]
            simp only [he0]
            rw [if_neg (by simp; omega)]
            simp only [he1]
            rw [if_neg (by simp; omega)]
            simp only [he2]
            by_cases hge : (res2.length : ℤ) ≥ i
            · rw [if_pos (by simp; omega), trunc_total (by omega)]
              obtain ⟨t1, t2, t3⟩ := take_pack (by omega) hle2 hlen2 hsort2 hge
              exact ⟨res2.take i.toNat, w2, rfl, hfv2, hnd2, hcov2, t1, t2, t3⟩
            · rw [if_neg (by simp; omega)]
              simp only [kNearestRoot_covered hInv hnn hi fuel (by omega) hcov2 c3
                (path ++ [3]) ha3]
              rw [if_neg (by simp; omega)]
              refine ⟨[] ++ [] ++ res2 ++ [], w2, rfl, hfv2, hnd2, hcov2, ?_, ?_, ?_⟩
              · simpa using hle2
              · simpa using hlen2
              · simpa using hsort2
        · -- the leaf was reached under child 1
          right
          simp only [kNearestRoot]
          rw [if_neg (by simp [hbi])]
          simp only [he0]
          rw [if_neg (by simp; omega)]
          simp only [he1]
          by_cases hge : (res1.length : ℤ) ≥ i
          · rw [if_pos (by simp; omega), trunc_total (by omega)]
            obtain ⟨t1, t2, t3⟩ := take_pack (by omega) hle1 hlen1 hsort1 hge
            exact ⟨res1.take i.toNat, w1, rfl, hfv1, hnd1, hcov1, t1, t2, t3⟩
          · rw [if_neg (by simp; omega)]
            simp only [kNearestRoot_covered hInv hnn hi fuel (by omega) hcov1 c2
              (path ++ [2]) ha2]
            rw [if_neg (by simp; omega)]
            simp only [kNearestRoot_covered hInv hnn hi fuel (by omega) hcov1 c3
              (path ++ [3]) ha3]
            rw [if_neg (by simp; omega)]
            refine ⟨[] ++ res1 ++ [] ++ [], w1, rfl, hfv1, hnd1, hcov1, ?_, ?_, ?_⟩
            · simpa using hle1
            · simpa using hlen1
            · simpa using hsort1
      · -- the leaf was reached under child 0
        right
        simp only [kNearestRoot]
        rw [if_neg (by simp [hbi])]
        simp only [he0]
        by_cases hge : (res0.length : ℤ) ≥ i
        · rw [if_pos hge, trunc_total (by omega)]
          obtain ⟨t1, t2, t3⟩ := take_pack (by omega) hle0 hlen0 hsort0 hge
          exact ⟨res0.take i.toNat, w0, rfl, hfv0, hnd0, hcov0, t1, t2, t3⟩
        · rw [if_neg hge]
          simp only [kNearestRoot_covered hInv hnn hi fuel (by omega) hcov0 c1 (path ++ [1]) ha1]
          rw [if_neg (by simp; omega)]
          simp only [kNearestRoot_covered hInv hnn hi fuel (by omega) hcov0 c2 (path ++ [2]) ha2]
          rw [if_neg (by simp; omega)]
          simp only [kNearestRoot_covered hInv hnn hi fuel (by omega) hcov0 c3 (path ++ [3]) ha3]
          rw [if_neg (by simp; omega)]
          refine ⟨res0 ++ [] ++ [] ++ [], w0, rfl, hfv0, hnd0, hcov0, ?_, ?_, ?_⟩
          · simpa using hle0
          · simpa using hlen0
          · simpa using hsort0

end Quadtree

namespace Quadtree

/-- C4: for every tree satisfying the structural invariant, every query box,
every `k ≥ 1` and every filter (with `none` accepting everything), `KNearest`
succeeds and returns exactly `min k m` of the `m` stored points that lie
inside the query box and pass the filter — hence at most `k` points, each
inside the box and passing the filter, and all `m` of them when `m < k` —
ordered by ascending distance to the query box's center (`distSq` is the
square of the Euclidean distance, so the two orders agree). -/
theorem knearest_returns_k_nearest (md : ℕ) (t : QuadTree) (a : AABB) (i : ℤ)
    (fn : Option (Point → Bool)) (hInv : Inv md t = true) (hnn : nonneg t = true)
    (hi : 1 ≤ i) :
    ∃ L : List Point, KNearest t a i fn = some L ∧
      (↑L : Multiset Point) ≤
        ↑((stored t).filter fun p => a.ContainsPoint p && passesFilter fn p) ∧
      (L.length : ℤ) =
        min i (((stored t).filter fun p =>
          a.ContainsPoint p && passesFilter fn p).length : ℤ) ∧
      (∀ p ∈ L, a.ContainsPoint p = true ∧ passesFilter fn p = true) ∧
      L.Pairwise fun p q => distSq p a.center ≤ distSq q a.center := by
  have hroot : nodeAt t [] = some t := by cases t <;> rfl
  have hfuel : unvisited t [] < size t + 1 := by
    have h1 : unvisited t [] ≤ (validPaths t).length := List.length_filter_le _ _
    rw [validPaths_length] at h1
    omega
  rcases kNearestRoot_spec t a i fn hInv hnn hi (size t + 1) hfuel t [] hroot with
    ⟨hhl, heq⟩ | ⟨res, w, heq, hfv, hnd, hcov, hle, hlen, hsort⟩
  · refine ⟨[], ?_, ?_, ?_, ?_, ?_⟩
    · simp only [KNearest, heq]
      rfl
    · simp
    · rw [hitsLeaf_false_no_match t hInv hnn hhl]
      simp
      omega
    · simp
    · simp
  · have hM := @Mlist_cov md t a fn hInv hnn w hfv hnd hcov
    rw [hM] at hle
    have hcard : (Mlist t a fn w).length
        = ((stored t).filter fun p => a.ContainsPoint p && passesFilter fn p).length := by
      have hc := congrArg Multiset.card hM
      simpa using hc
    rw [hcard] at hlen
    refine ⟨res, ?_, hle, hlen, ?_, hsort⟩
    · simp only [KNearest, heq]
      rfl
    · intro p hp
      have hpm : p ∈ ((stored t).filter fun p =>
          a.ContainsPoint p && passesFilter fn p) :=
        Multiset.mem_coe.mp (Multiset.mem_of_le hle (Multiset.mem_coe.mpr hp))
      have hf := (List.mem_filter.mp hpm).2
      rw [Bool.and_eq_true] at hf
      exact hf

/-- Concrete run of the k-nearest theorem: three stored points, two inside
the query box, asking for five. -/
theorem knearest_returns_k_nearest_witness :
    Inv 6 (QuadTree.leaf ⟨⟨0, 0, 0⟩, ⟨4, 4, 0⟩⟩ 0 [⟨1, 1, 1⟩, ⟨2, 2, 2⟩, ⟨3, 3, 3⟩]) = true ∧
    nonneg (QuadTree.leaf ⟨⟨0, 0, 0⟩, ⟨4, 4, 0⟩⟩ 0 [⟨1, 1, 1⟩, ⟨2, 2, 2⟩, ⟨3, 3, 3⟩]) = true ∧
    (1 : ℤ) ≤ 5 ∧
    ∃ L : List Point,
      KNearest (QuadTree.leaf ⟨⟨0, 0, 0⟩, ⟨4, 4, 0⟩⟩ 0 [⟨1, 1, 1⟩, ⟨2, 2, 2⟩, ⟨3, 3, 3⟩])
        ⟨⟨0, 0, 0⟩, ⟨2, 2, 0⟩⟩ 5 none = some L ∧
      (↑L : Multiset Point) ≤
        ↑((stored (QuadTree.leaf ⟨⟨0, 0, 0⟩, ⟨4, 4, 0⟩⟩ 0
            [⟨1, 1, 1⟩, ⟨2, 2, 2⟩, ⟨3, 3, 3⟩])).filter fun p =>
          AABB.ContainsPoint ⟨⟨0, 0, 0⟩, ⟨2, 2, 0⟩⟩ p && passesFilter none p) ∧
      (L.length : ℤ) =
        min 5 (((stored (QuadTree.leaf ⟨⟨0, 0, 0⟩, ⟨4, 4, 0⟩⟩ 0
            [⟨1, 1, 1⟩, ⟨2, 2, 2⟩, ⟨3, 3, 3⟩])).filter fun p =>
          AABB.ContainsPoint ⟨⟨0, 0, 0⟩, ⟨2, 2, 0⟩⟩ p && passesFilter none p).length : ℤ) ∧
      (∀ p ∈ L, AABB.ContainsPoint ⟨⟨0, 0, 0⟩, ⟨2, 2, 0⟩⟩ p = true ∧
        passesFilter none p = true) ∧
      L.Pairwise fun p q =>
        distSq p (AABB.center ⟨⟨0, 0, 0⟩, ⟨2, 2, 0⟩⟩) ≤
          distSq q (AABB.center ⟨⟨0, 0, 0⟩, ⟨2, 2, 0⟩⟩) :=
  ⟨by decide, by decide, by decide,
    knearest_returns_k_nearest 6
      (QuadTree.leaf ⟨⟨0, 0, 0⟩, ⟨4, 4, 0⟩⟩ 0 [⟨1, 1, 1⟩, ⟨2, 2, 2⟩, ⟨3, 3, 3⟩])
      ⟨⟨0, 0, 0⟩, ⟨2, 2, 0⟩⟩ 5 none (by decide) (by decide) (by decide)⟩

end Quadtree
